import Mathlib

/-!
# Robin-hood hash table (`hash_table.h`): embedding and verified properties

The macros `DEFINE_HASH` / `MAKE_HASH` are embedded for an arbitrary value type `V`
(`VALTYPE`); the `NAME` infix of the generated identifiers is dropped.  The 32-bit fields
are natural numbers with explicit reduction modulo `2^32`.  Loops that the source writes
as `for (;;)` take a fuel argument and return `none` when the fuel does not suffice.
The slot array of a table has `cap` entries: a probe loop that is about to access a slot
at an index `≥ cap`, which is undefined behaviour in C, returns `none` as well, so a call
with a result has accessed slots below `cap` only.
-/

set_option linter.unusedSectionVars false
set_option linter.unusedVariables false

/-! ## Definitions -/

/-- Stored entry: `hash = 0` marks an empty slot. -/
structure hash_table_elem (V : Type) where
  hash : Nat
  key : Nat
  val : V
deriving DecidableEq

/-- Modelled from the spec: bit_array.h is not among the sources; `bit_array_new n`
gives `n` flags, all clear. -/
def bit_array_new (n : Nat) : List Bool := List.replicate n false

/-- Modelled from the spec: `get(bitset, index) -> bool`. -/
def get_bit_in_bitarray (b : List Bool) (idx : Nat) : Bool := b.getD idx false

/-- Modelled from the spec: `set(bitset, index, value)`. -/
def set_bit_in_bitarray (b : List Bool) (idx : Nat) (v : Bool) : List Bool := b.set idx v

/-- The table: slot array, tombstone bit array, live count, capacity, mask and resize
threshold; the four numeric fields are 32-bit in the source. -/
structure hash_table (V : Type) where
  elems : List (hash_table_elem V)
  deleted : List Bool
  num_elems : Nat
  cap : Nat
  mask : Nat
  resize_thresh : Nat
deriving DecidableEq

namespace hash_table

variable {V : Type} [Inhabited V]

/-- Modulus of `uint32_t` arithmetic. -/
def u32 : Nat := 4294967296

/-- Capacity of a table made by `hash_table_new`. -/
def hash_table_initial_cap : Nat := 16

/-- Load factor, in percent, from which the table grows. -/
def hash_table_load_factor_to_grow : Nat := 90

/-- Content of a `calloc`ed slot. -/
def zero_elem : hash_table_elem V := ⟨0, 0, default⟩

/-- Read of `table->elems[idx]`. The slot array has `cap` entries (`calloc(cap, …)`) and
the probe loops below give no result when they are about to access a slot at an index
`≥ cap`. In every table the code builds the list has exactly `cap` entries; a shorter list
reads as zeroed in the missing slots. -/
def elem_at (table : hash_table V) (idx : Nat) : hash_table_elem V :=
  table.elems.getD idx zero_elem

/-- Tombstone flag of slot `idx`. -/
def hash_table__is_entry_deleted (table : hash_table V) (idx : Nat) : Bool :=
  get_bit_in_bitarray table.deleted idx

/-- Sets the tombstone flag of slot `idx`. -/
def hash_table__mark_deleted (table : hash_table V) (idx : Nat) : hash_table V :=
  { table with deleted := set_bit_in_bitarray table.deleted idx true }

/-- Clears the tombstone flag of slot `idx`. -/
def hash_table__reset_deleted (table : hash_table V) (idx : Nat) : hash_table V :=
  { table with deleted := set_bit_in_bitarray table.deleted idx false }

/-- Three rounds of `k = ((k >> 16) ^ k) * 0x45d9f3b` in 32-bit arithmetic. -/
def hash_table__hash_fun (k : Nat) : Nat :=
  let hash_constant := 0x45d9f3b
  let k := (((k >>> 16) ^^^ k) * hash_constant) % u32
  let k := (((k >>> 16) ^^^ k) * hash_constant) % u32
  let k := (((k >>> 16) ^^^ k) * hash_constant) % u32
  k

/-- Hash 0 is reserved for empty slots: it is replaced by 1. -/
def hash_table__fix_hash (h : Nat) : Nat :=
  if h ≠ 0 then h else 1

/-- Home slot of a hash. -/
def hash_table__hash_idx (table : hash_table V) (hash : Nat) : Nat :=
  hash &&& table.mask

/-- Probe distance of an entry with hash `hash` stored at `idx`:
`(cap + idx - home) & mask` in 32-bit arithmetic. -/
def hash_table__max_probes (table : hash_table V) (hash idx : Nat) : Nat :=
  ((table.cap + idx + u32 - hash_table__hash_idx table hash) % u32) &&& table.mask

/-- The `for (;;)` loop of `hash_table__insert` on the state `(table, e, idx,
to_insert_elem_probes)`; `none` when `fuel` iterations were not enough to reach a `return`,
and when an iteration is about to access `table->elems[idx]` with `idx ≥ cap`, outside
the `cap` slots of the array (undefined behaviour in C: the call gives no result). -/
def hash_table__insert_loop : Nat → hash_table V → hash_table_elem V → Nat → Nat →
    Option (hash_table V)
  | 0, _, _, _, _ => none
  | fuel + 1, table, e, idx, to_insert_elem_probes =>
    if table.cap ≤ idx then
      none
    else if (elem_at table idx).hash = 0 then
      some { table with elems := table.elems.set idx e }
    else
      let current_elem_probes := hash_table__max_probes table (elem_at table idx).hash idx
      if current_elem_probes < to_insert_elem_probes then
        if hash_table__is_entry_deleted table idx then
          let table := hash_table__reset_deleted table idx
          some { table with elems := table.elems.set idx e }
        else
          hash_table__insert_loop fuel { table with elems := table.elems.set idx e }
            (elem_at table idx) (((idx + 1) % u32) &&& table.mask)
            ((current_elem_probes + 1) % u32)
      else
        hash_table__insert_loop fuel table e (((idx + 1) % u32) &&& table.mask)
          ((to_insert_elem_probes + 1) % u32)

/-- Placement of the entry `e`, starting at its home slot with probe count 0. -/
def hash_table__insert (fuel : Nat) (table : hash_table V) (e : hash_table_elem V) :
    Option (hash_table V) :=
  hash_table__insert_loop fuel table e (hash_table__hash_idx table e.hash) 0

/-- The `for (;;)` loop of `hash_table__lookup`; the result is the `int64_t` returned
(`-1` for not found), `none` when `fuel` iterations were not enough, and when an iteration
is about to access `table->elems[idx]` with `idx ≥ cap`, outside the array. -/
def hash_table__lookup_loop (table : hash_table V) (hash k : Nat) : Nat → Nat → Nat → Option Int
  | 0, _, _ => none
  | fuel + 1, idx, num_probes =>
    if table.cap ≤ idx then
      none
    else
      let current_hash := (elem_at table idx).hash
      if current_hash = 0 then
        some (-1)
      else if num_probes > hash_table__max_probes table current_hash idx then
        some (-1)
      else if !hash_table__is_entry_deleted table idx ∧ current_hash = hash ∧
          (elem_at table idx).key = k then
        some (idx : Int)
      else
        hash_table__lookup_loop table hash k fuel (((idx + 1) % u32) &&& table.mask)
          ((num_probes + 1) % u32)

/-- Internal lookup: index of the slot holding key `k`, or `-1`. -/
def hash_table__lookup (fuel : Nat) (table : hash_table V) (k : Nat) : Option Int :=
  let hash := hash_table__fix_hash (hash_table__hash_fun k)
  hash_table__lookup_loop table hash k fuel (hash_table__hash_idx table hash) 0

/-- Fresh table of the given capacity: zeroed slots, clear flags, count 0. -/
def hash_table__construct (initial_capacity : Nat) : hash_table V :=
  { elems := List.replicate initial_capacity zero_elem
    deleted := bit_array_new initial_capacity
    num_elems := 0
    cap := initial_capacity
    mask := (initial_capacity + u32 - 1) % u32
    resize_thresh := ((initial_capacity * hash_table_load_factor_to_grow) % u32) / 100 }

/-- Body of the `for` loop of `hash_table__grow` for index `i` of the old table. -/
def hash_table__grow_step (fuel : Nat) (table : hash_table V) (new_table : hash_table V)
    (i : Nat) : Option (hash_table V) :=
  let e := elem_at table i
  if e.hash ≠ 0 ∧ !hash_table__is_entry_deleted table i then
    hash_table__insert fuel new_table e
  else
    some new_table

/-- Rehash into a fresh table of twice the capacity: the entries of the occupied slots are
placed again, in index order, with their stored hashes. -/
def hash_table__grow (fuel : Nat) (table : hash_table V) : Option (hash_table V) :=
  let new_table : hash_table V := hash_table__construct ((table.cap * 2) % u32)
  let new_table := { new_table with num_elems := table.num_elems }
  (List.range table.cap).foldlM (hash_table__grow_step fuel table) new_table

/-- The public constructor. -/
def hash_table_new : hash_table V :=
  hash_table__construct hash_table_initial_cap

/-- The public insert: increments the count, grows when the incremented count has reached
the threshold, then places the entry. -/
def hash_table_insert (fuel : Nat) (table : hash_table V) (k : Nat) (v : V) :
    Option (hash_table V) :=
  let hash := hash_table__fix_hash (hash_table__hash_fun k)
  let table := { table with num_elems := (table.num_elems + 1) % u32 }
  if table.num_elems ≥ table.resize_thresh then
    (hash_table__grow fuel table).bind fun table =>
      hash_table__insert fuel table ⟨hash, k, v⟩
  else
    hash_table__insert fuel table ⟨hash, k, v⟩

/-- The public lookup: `none` when the probe loop gave no result, `some none` for `NULL`,
`some (some v)` for a pointer to the value `v`. -/
def hash_table_lookup (fuel : Nat) (table : hash_table V) (k : Nat) : Option (Option V) :=
  (hash_table__lookup fuel table k).map fun idx =>
    if idx < 0 then none else some (elem_at table idx.toNat).val

/-- The public delete: the returned flag and the table afterwards. -/
def hash_table_delete (fuel : Nat) (table : hash_table V) (k : Nat) :
    Option (Bool × hash_table V) :=
  (hash_table__lookup fuel table k).map fun idx =>
    if idx < 0 then
      (false, table)
    else
      let table := hash_table__mark_deleted table idx.toNat
      (true, { table with num_elems := (table.num_elems + u32 - 1) % u32 })

/-- Number of forward steps from index `a` to index `b` in a ring of `c` slots. -/
def cdist (c a b : Nat) : Nat := if a ≤ b then b - a else c + b - a

/-- Successor of an index in a ring of `c` slots. -/
def nxt (c i : Nat) : Nat := if i + 1 < c then i + 1 else 0

/-- Predecessor of an index in a ring of `c` slots. -/
def prv (c i : Nat) : Nat := if i = 0 then c - 1 else i - 1

/-- Shape shared by every table the code builds: a power-of-two capacity between 2 and
`2^31`, the matching mask, and both arrays of `cap` entries. -/
structure WF (t : hash_table V) : Prop where
  pow : ∃ m, 1 ≤ m ∧ m ≤ 31 ∧ t.cap = 2 ^ m
  mask_eq : t.mask = t.cap - 1
  len_elems : t.elems.length = t.cap
  len_deleted : t.deleted.length = t.cap

/-- Values `f i` that are present, for `i = 0, …, n - 1` in this order. -/
def collect {α : Type} (n : Nat) (f : Nat → Option α) : List α :=
  (List.range n).filterMap f

/-- Slot `i` is occupied: its hash is non-zero and its tombstone flag is clear. -/
def occupied (t : hash_table V) (i : Nat) : Prop :=
  (elem_at t i).hash ≠ 0 ∧ hash_table__is_entry_deleted t i = false

instance (t : hash_table V) (i : Nat) : Decidable (occupied t i) := by
  unfold occupied; infer_instance

/-- Entries of the occupied slots, in index order. -/
def live (t : hash_table V) : List (hash_table_elem V) :=
  collect t.cap fun i => if occupied t i then some (elem_at t i) else none

/-- Indices of the non-empty slots (occupied or tombstoned), in index order. -/
def filled (t : hash_table V) : List Nat :=
  collect t.cap fun i => if (elem_at t i).hash ≠ 0 then some i else none

/-- Probe distance of the entry stored in slot `i`. -/
def dist (t : hash_table V) (i : Nat) : Nat :=
  hash_table__max_probes t (elem_at t i).hash i

/-- Robin-hood order: a stored entry that is `d > 0` probes from home follows a non-empty
slot whose entry is at least `d - 1` probes from home. -/
def Ordered (t : hash_table V) : Prop :=
  ∀ i, i < t.cap → (elem_at t i).hash ≠ 0 → 0 < dist t i →
    (elem_at t (prv t.cap i)).hash ≠ 0 ∧ dist t i ≤ dist t (prv t.cap i) + 1

/-- Empty slots carry no tombstone flag. -/
def Clean (t : hash_table V) : Prop :=
  ∀ i, i < t.cap → (elem_at t i).hash = 0 → hash_table__is_entry_deleted t i = false

/-- No slot is tombstoned. -/
def NoTomb (t : hash_table V) : Prop :=
  ∀ i, i < t.cap → hash_table__is_entry_deleted t i = false

/-- Table `t1` is `t` with slot `idx` overwritten by `e`; the tombstone flag of slot `idx`
may have changed, nothing else has. -/
structure SlotUpdate (t t1 : hash_table V) (idx : Nat) (e : hash_table_elem V) : Prop where
  cap : t1.cap = t.cap
  mask : t1.mask = t.mask
  num_elems : t1.num_elems = t.num_elems
  thresh : t1.resize_thresh = t.resize_thresh
  len_e : t1.elems.length = t.elems.length
  len_d : t1.deleted.length = t.deleted.length
  at_idx : elem_at t1 idx = e
  at_other : ∀ j, j ≠ idx → elem_at t1 j = elem_at t j
  del_other : ∀ j, j ≠ idx →
    hash_table__is_entry_deleted t1 j = hash_table__is_entry_deleted t j

/-- What a completed placement of `e` into `t` guarantees about the result `t1`. -/
structure InsertPost (t : hash_table V) (e : hash_table_elem V) (t1 : hash_table V) :
    Prop where
  cap : t1.cap = t.cap
  mask : t1.mask = t.mask
  num_elems : t1.num_elems = t.num_elems
  thresh : t1.resize_thresh = t.resize_thresh
  wf : WF t1
  ord : Ordered t1
  clean : Clean t1
  perm : List.Perm (live t1) (e :: live t)
  filled_le : (filled t1).length ≤ (filled t).length + 1
  notomb : NoTomb t → NoTomb t1

/-- Resize threshold that `hash_table__construct` computes for a capacity. -/
def thresh_of (c : Nat) : Nat := ((c * hash_table_load_factor_to_grow) % u32) / 100

/-- What the first `i` iterations of the loop of `hash_table__grow` have built. -/
structure GrowInv (t : hash_table V) (i : Nat) (nt : hash_table V) : Prop where
  cap : nt.cap = 2 * t.cap
  num_elems : nt.num_elems = t.num_elems
  thresh : nt.resize_thresh = thresh_of (2 * t.cap)
  wf : WF nt
  ord : Ordered nt
  clean : Clean nt
  notomb : NoTomb nt
  perm : List.Perm (live nt)
    (collect i fun j => if occupied t j then some (elem_at t j) else none)
  filled_le : (filled nt).length ≤ i

/-- Entry that `hash_table_insert` builds for a key and a value. -/
def entry_of (k : Nat) (v : V) : hash_table_elem V :=
  ⟨hash_table__fix_hash (hash_table__hash_fun k), k, v⟩

/-- State invariant that makes lookups reliable: well-formed shape, robin-hood order, no
flag on an empty slot, the threshold computed from the capacity, and every live entry
stored under the hash of its key. -/
structure Inv (t : hash_table V) : Prop where
  wf : WF t
  ord : Ordered t
  clean : Clean t
  thresh : t.resize_thresh = thresh_of t.cap
  hashok : ∀ e, e ∈ live t → e.hash = hash_table__fix_hash (hash_table__hash_fun e.key)

/-- Result of a public insert on a state satisfying the invariant. -/
structure InsertResult (t : hash_table V) (k : Nat) (v : V) (t1 : hash_table V) : Prop where
  inv : Inv t1
  perm : List.Perm (live t1) (entry_of k v :: live t)
  num_elems : t1.num_elems = t.num_elems + 1
  cap : t1.cap = if t.resize_thresh ≤ t.num_elems + 1 then 2 * t.cap else t.cap
  filled_le : (filled t1).length ≤
    (if t.resize_thresh ≤ t.num_elems + 1 then (live t).length else (filled t).length) + 1
  notomb : (t.resize_thresh ≤ t.num_elems + 1 ∨ NoTomb t) → NoTomb t1

/-- Result of deleting a key that has a live entry. -/
structure DeleteResult (t : hash_table V) (k : Nat) (v : V) (t1 : hash_table V) : Prop where
  inv : Inv t1
  perm : List.Perm (live t) (entry_of k v :: live t1)
  num_elems : t1.num_elems + 1 = t.num_elems
  cap : t1.cap = t.cap
  filled : filled t1 = filled t
  thresh : t1.resize_thresh = t.resize_thresh

/-- Inserts the pairs of a list, first to last. -/
def insert_all (fuel : Nat) : hash_table V → List (Nat × V) → Option (hash_table V)
  | t, [] => some t
  | t, kv :: rest => (hash_table_insert fuel t kv.1 kv.2).bind fun t1 => insert_all fuel t1 rest

/-- Least live count a table of capacity `2^m` can have once inserts from a fresh table
have grown it that far. -/
def growth_floor : Nat → Nat
  | 0 => 0
  | m + 1 => if m < 4 then 0 else max (growth_floor m + 1) (thresh_of (2 ^ m))

/-- State reached from a fresh table by inserting the pairs `kvs` and nothing else. -/
structure InsInv (kvs : List (Nat × V)) (t : hash_table V) : Prop where
  inv : Inv t
  notomb : NoTomb t
  perm : List.Perm (live t) (kvs.map fun kv => entry_of kv.1 kv.2)
  num : t.num_elems = kvs.length
  lt_cap : kvs.length < t.cap
  floor : ∃ m, 4 ≤ m ∧ t.cap = 2 ^ m ∧ growth_floor m ≤ kvs.length

/-- The bookkeeping fields and array sizes of `t1` are those of `t`. -/
structure SameShape (t t1 : hash_table V) : Prop where
  cap : t1.cap = t.cap
  mask : t1.mask = t.mask
  num_elems : t1.num_elems = t.num_elems
  thresh : t1.resize_thresh = t.resize_thresh
  len_e : t1.elems.length = t.elems.length
  len_d : t1.deleted.length = t.deleted.length

/-- Bookkeeping of a table returned by growth. -/
structure GrownShape (t t1 : hash_table V) : Prop where
  cap : t1.cap = (t.cap * 2) % u32
  num_elems : t1.num_elems = t.num_elems
  thresh : t1.resize_thresh = thresh_of ((t.cap * 2) % u32)
  len_e : t1.elems.length = (t.cap * 2) % u32

/-- Pairs `(0, 0), (1, 0), …, (n - 1, 0)`: `n` pairwise distinct keys. -/
def distinct_pairs (n : Nat) : List (Nat × Nat) := (List.range n).map fun k => (k, 0)

/-- Bookkeeping reached by inserts alone from a fresh table: the capacity is `2^m` with the
live count in the window belonging to `m`. -/
structure CtrlOK (t : hash_table V) : Prop where
  len : t.elems.length = t.cap
  thresh : t.resize_thresh = thresh_of t.cap
  window : ∃ m, 4 ≤ m ∧ m ≤ 31 ∧ t.cap = 2 ^ m ∧ growth_floor m ≤ t.num_elems ∧
      t.num_elems < growth_floor (m + 1)

/-- One public mutating call. -/
inductive hash_table_op (V : Type) where
  | insert (k : Nat) (v : V)
  | delete (k : Nat)

/-- Runs a sequence of public calls, first to last; `none` when a call gives no result
(its loop iterations exceed `fuel`, or it accesses a slot outside the array). -/
def run_ops (fuel : Nat) : hash_table V → List (hash_table_op V) → Option (hash_table V)
  | t, [] => some t
  | t, hash_table_op.insert k v :: rest =>
    (hash_table_insert fuel t k v).bind fun t1 => run_ops fuel t1 rest
  | t, hash_table_op.delete k :: rest =>
    (hash_table_delete fuel t k).bind fun r => run_ops fuel r.2 rest

/-- Pairs `(k, k * 10)` for `k = 0, …, n - 1`. -/
def scenario_pairs (n : Nat) : List (Nat × Nat) := (List.range n).map fun k => (k, k * 10)

/-- Thirteen keys whose home slot is `0` at capacity 16 are inserted, six of them deleted,
three more such keys inserted (the table is now without an empty slot), then keys `15` and
`22` (home slot 15) and key `241` (home slot 0) are inserted. -/
def lost_key_ops : List (hash_table_op Nat) :=
  [.insert 31 310, .insert 43 430, .insert 45 450, .insert 53 530, .insert 69 690,
   .insert 75 750, .insert 98 980, .insert 102 1020, .insert 127 1270, .insert 164 1640,
   .insert 170 1700, .insert 177 1770, .insert 183 1830,
   .delete 31, .delete 43, .delete 45, .delete 53, .delete 69, .delete 75,
   .insert 198 1980, .insert 218 2180, .insert 240 2400,
   .insert 15 150, .insert 22 220, .insert 241 2410]

/-- Table reached by `lost_key_ops`. -/
def lost_key_table : hash_table Nat :=
  (run_ops 64 hash_table_new lost_key_ops).getD hash_table_new

/-- Thirteen keys whose home slot is `0` at capacity 16 are inserted, four of them deleted,
and three more such keys inserted: no slot is empty and the live count is 12. -/
def stuck_ops : List (hash_table_op Nat) :=
  [.insert 31 310, .insert 43 430, .insert 45 450, .insert 53 530, .insert 69 690,
   .insert 75 750, .insert 98 980, .insert 102 1020, .insert 127 1270, .insert 164 1640,
   .insert 170 1700, .insert 177 1770, .insert 183 1830,
   .delete 43, .delete 45, .delete 53, .delete 69,
   .insert 198 1980, .insert 218 2180, .insert 240 2400]

/-- Table reached by `stuck_ops`. -/
def stuck_table : hash_table Nat :=
  (run_ops 64 hash_table_new stuck_ops).getD hash_table_new

/-- Variables of the placement loop. -/
structure loop_state (V : Type) where
  table : hash_table V
  e : hash_table_elem V
  idx : Nat
  to_insert_elem_probes : Nat
deriving DecidableEq

/-- One iteration of the `for (;;)` loop of `hash_table__insert`: `none` when the slot
index is outside the array, else either the function returns with the table (`Sum.inl`) or
the loop continues in a new state (`Sum.inr`). -/
def insert_loop_step (s : loop_state V) : Option (hash_table V ⊕ loop_state V) :=
  if s.table.cap ≤ s.idx then
    none
  else if (elem_at s.table s.idx).hash = 0 then
    some (Sum.inl { s.table with elems := s.table.elems.set s.idx s.e })
  else
    let current_elem_probes :=
      hash_table__max_probes s.table (elem_at s.table s.idx).hash s.idx
    if current_elem_probes < s.to_insert_elem_probes then
      if hash_table__is_entry_deleted s.table s.idx then
        let table := hash_table__reset_deleted s.table s.idx
        some (Sum.inl { table with elems := table.elems.set s.idx s.e })
      else
        some (Sum.inr ⟨{ s.table with elems := s.table.elems.set s.idx s.e },
          elem_at s.table s.idx, ((s.idx + 1) % u32) &&& s.table.mask,
          (current_elem_probes + 1) % u32⟩)
    else
      some (Sum.inr ⟨s.table, s.e, ((s.idx + 1) % u32) &&& s.table.mask,
        (s.to_insert_elem_probes + 1) % u32⟩)

/-- Outcome of `n` iterations: `none` when one of them was at an index outside the array,
the returned table (`Sum.inl`) when the loop returned within `n` iterations, else the
state after `n` iterations (`Sum.inr`): the loop is still running. -/
def insert_loop_iter : Nat → loop_state V → Option (hash_table V ⊕ loop_state V)
  | 0, s => some (Sum.inr s)
  | n + 1, s =>
    match insert_loop_step s with
    | none => none
    | some (Sum.inl r) => some (Sum.inl r)
    | some (Sum.inr s1) => insert_loop_iter n s1

/-- The placement loop run from a loop state. -/
def insert_loop_from (fuel : Nat) (s : loop_state V) : Option (hash_table V) :=
  hash_table__insert_loop fuel s.table s.e s.idx s.to_insert_elem_probes

/-- Whether the loop is still running after its iterations so far: no iteration returned
and none was at an index outside the array. -/
def still_running (o : Option (hash_table V ⊕ loop_state V)) : Bool :=
  match o with
  | some (Sum.inr _) => true
  | _ => false

/-- Loop state in which the insert of key `241` into `stuck_table` finds itself after 17
iterations. -/
def stuck_state : loop_state Nat :=
  match insert_loop_iter 17
    ⟨{ stuck_table with num_elems := 13 }, entry_of 241 0, 0, 0⟩ with
  | some (Sum.inr s) => s
  | _ => ⟨stuck_table, entry_of 241 0, 0, 0⟩

/-- What a placement that returns guarantees on a well-formed table, whatever its
contents: shape and cleanliness are kept and the entry joins the live entries. -/
structure PlacedInto (t : hash_table V) (e : hash_table_elem V) (t1 : hash_table V) :
    Prop where
  wf : WF t1
  clean : Clean t1
  perm : List.Perm (live t1) (e :: live t)
  notomb : NoTomb t → NoTomb t1

/-- What a growth that returns has built after the first `i` iterations of its loop. -/
structure GrownInto (t : hash_table V) (i : Nat) (nt : hash_table V) : Prop where
  wf : WF nt
  clean : Clean nt
  notomb : NoTomb nt
  perm : List.Perm (live nt)
    (collect i fun j => if occupied t j then some (elem_at t j) else none)

/-- State invariant kept by every public call that returns: well-formed shape with
capacity at least 16, no flag on an empty slot, the threshold computed from the capacity,
the count equal to the number of live entries, and the count below the threshold while
`cap * 90` fits in 32 bits. -/
structure Sane (t : hash_table V) : Prop where
  wf : WF t
  cap16 : 16 ≤ t.cap
  clean : Clean t
  thresh : t.resize_thresh = thresh_of t.cap
  count : t.num_elems = (live t).length
  below : t.cap * 90 < 4294967296 → t.num_elems < t.resize_thresh

/-- Indices of the occupied slots, in increasing order. -/
def occupied_indices (t : hash_table V) : List Nat :=
  (List.range t.cap).filter fun i => decide (occupied t i)

/-- Indices of the occupied slots that hold key `k`, in increasing order. -/
def slots_with_key (t : hash_table V) (k : Nat) : List Nat :=
  (List.range t.cap).filter fun i => decide (occupied t i ∧ (elem_at t i).key = k)

/-- The macro `HASH_TABLE_ITER`: the loop over `idx = 0, …, cap - 1` that runs the body,
here a state transformer taking the key and the value of the slot, for every slot with a
non-zero hash and a clear tombstone flag. -/
def HASH_TABLE_ITER {σ : Type} (table : hash_table V) (body : σ → Nat → V → σ) (init : σ) :
    σ :=
  (List.range table.cap).foldl (fun s idx =>
    let e := elem_at table idx
    if e.hash ≠ 0 ∧ !hash_table__is_entry_deleted table idx then body s e.key e.val else s)
    init

/-- One round `k = ((k >> 16) ^ k) * 0x45d9f3b` of `hash_table__hash_fun`, in 32-bit
arithmetic. -/
def mix_round (k : Nat) : Nat :=
  (((k >>> 16) ^^^ k) * 0x45d9f3b) % u32

/-- Inverse of `mix_round` on 32-bit words: multiply by `0x119de1f3`, the inverse of
`0x45d9f3b` modulo `2^32`, then undo the xor-shift. Used in proofs only. -/
def unmix_round (z : Nat) : Nat :=
  let y := (z * 0x119de1f3) % u32
  (y >>> 16) ^^^ y

/-- Inverse of `hash_table__hash_fun` on 32-bit words. Used in proofs only. -/
def hash_fun_inv (z : Nat) : Nat :=
  unmix_round (unmix_round (unmix_round z))

/-! ## Theorems -/

theorem WF.two_le {t : hash_table V} (h : WF t) : 2 ≤ t.cap := by
  obtain ⟨m, h1, _, hc⟩ := h.pow
  rw [hc]
  calc 2 = 2 ^ 1 := rfl
    _ ≤ 2 ^ m := Nat.pow_le_pow_right (by decide) h1

theorem WF.cap_le {t : hash_table V} (h : WF t) : t.cap ≤ 2147483648 := by
  obtain ⟨m, _, h2, hc⟩ := h.pow
  rw [hc]
  calc 2 ^ m ≤ 2 ^ 31 := Nat.pow_le_pow_right (by decide) h2
    _ = 2147483648 := by norm_num

theorem WF.and_mask {t : hash_table V} (h : WF t) (x : Nat) : x &&& t.mask = x % t.cap := by
  obtain ⟨m, _, _, hc⟩ := h.pow
  rw [h.mask_eq, hc]
  exact Nat.and_pow_two_sub_one_eq_mod x m

theorem hash_idx_eq {t : hash_table V} (h : WF t) (x : Nat) :
    hash_table__hash_idx t x = x % t.cap := h.and_mask x

theorem hash_idx_lt {t : hash_table V} (h : WF t) (x : Nat) :
    hash_table__hash_idx t x < t.cap := by
  rw [hash_idx_eq h]
  exact Nat.mod_lt _ (by have := h.two_le; omega)

theorem next_idx_eq {t : hash_table V} (h : WF t) {idx : Nat} (hi : idx < t.cap) :
    ((idx + 1) % u32) &&& t.mask = nxt t.cap idx := by
  have h2 := h.cap_le
  have e : (idx + 1) % u32 = idx + 1 := Nat.mod_eq_of_lt (by unfold u32; omega)
  rw [e, h.and_mask]
  unfold nxt
  split
  · exact Nat.mod_eq_of_lt (by assumption)
  · have : idx + 1 = t.cap := by omega
    rw [this]; exact Nat.mod_self _

theorem max_probes_eq {t : hash_table V} (h : WF t) (hash : Nat) {idx : Nat}
    (hi : idx < t.cap) :
    hash_table__max_probes t hash idx = cdist t.cap (hash % t.cap) idx := by
  have h2 := h.cap_le
  have hl : hash % t.cap < t.cap := Nat.mod_lt _ (by have := h.two_le; omega)
  unfold hash_table__max_probes
  rw [hash_idx_eq h, h.and_mask]
  have e1 : (t.cap + idx + u32 - hash % t.cap) % u32 = t.cap + idx - hash % t.cap := by
    have : t.cap + idx + u32 - hash % t.cap = (t.cap + idx - hash % t.cap) + u32 := by
      unfold u32; omega
    rw [this, Nat.add_mod_right]
    exact Nat.mod_eq_of_lt (by unfold u32; omega)
  rw [e1]
  unfold cdist
  split
  · have : t.cap + idx - hash % t.cap = (idx - hash % t.cap) + t.cap := by omega
    rw [this, Nat.add_mod_right]
    exact Nat.mod_eq_of_lt (by omega)
  · exact Nat.mod_eq_of_lt (by omega)

theorem max_probes_lt {t : hash_table V} (h : WF t) (hash : Nat) {idx : Nat}
    (hi : idx < t.cap) : hash_table__max_probes t hash idx < t.cap := by
  have hl : hash % t.cap < t.cap := Nat.mod_lt _ (by have := h.two_le; omega)
  rw [max_probes_eq h hash hi]
  unfold cdist
  split <;> omega



theorem getD_set_eq {α : Type} (l : List α) (i j : Nat) (a d : α) :
    (l.set i a).getD j d = if i = j ∧ i < l.length then a else l.getD j d := by
  simp only [List.getD_eq_getElem?_getD, List.getElem?_set]
  by_cases h : i = j
  · subst h
    by_cases h2 : i < l.length
    · simp [h2]
    · have h3 : l[i]? = none := List.getElem?_eq_none (by omega)
      simp [h2, h3]
  · simp [h]

theorem elem_at_set (t : hash_table V) (i j : Nat) (e : hash_table_elem V)
    (hi : i < t.elems.length) :
    elem_at { t with elems := t.elems.set i e } j = if j = i then e else elem_at t j := by
  unfold elem_at
  rw [getD_set_eq]
  by_cases h : i = j
  · subst h; simp [hi]
  · have : ¬ j = i := fun h2 => h h2.symm
    simp [h, this]

theorem deleted_set (t : hash_table V) (i j : Nat) (b : Bool) (hi : i < t.deleted.length) :
    hash_table__is_entry_deleted
      { t with deleted := set_bit_in_bitarray t.deleted i b } j =
      if j = i then b else hash_table__is_entry_deleted t j := by
  unfold hash_table__is_entry_deleted get_bit_in_bitarray set_bit_in_bitarray
  rw [getD_set_eq]
  by_cases h : i = j
  · subst h; simp [hi]
  · have : ¬ j = i := fun h2 => h h2.symm
    simp [h, this]

theorem collect_succ {α : Type} (n : Nat) (f : Nat → Option α) :
    collect (n + 1) f = collect n f ++ (f n).toList := by
  unfold collect
  rw [List.range_succ, List.filterMap_append]
  cases h : f n <;> simp [List.filterMap_cons, h]

theorem collect_congr {α : Type} (n : Nat) (f g : Nat → Option α)
    (h : ∀ i, i < n → f i = g i) : collect n f = collect n g := by
  induction n with
  | zero => rfl
  | succ n ih =>
    rw [collect_succ, collect_succ, ih (fun i hi => h i (by omega)), h n (by omega)]

theorem mem_collect {α : Type} (n : Nat) (f : Nat → Option α) (a : α) :
    a ∈ collect n f ↔ ∃ i, i < n ∧ f i = some a := by
  unfold collect
  simp [List.mem_filterMap]

/-- Changing `f` at the single index `i` exchanges `f i` for `g i` in the collection. -/
theorem collect_update {α : Type} (n : Nat) (f g : Nat → Option α) (i : Nat) (hi : i < n)
    (h : ∀ j, j ≠ i → f j = g j) :
    List.Perm (collect n g ++ (f i).toList) (collect n f ++ (g i).toList) := by
  induction n with
  | zero => omega
  | succ n ih =>
    rw [collect_succ, collect_succ]
    by_cases hin : i = n
    · subst hin
      rw [collect_congr i f g (fun j hj => h j (by omega))]
      rw [List.append_assoc, List.append_assoc]
      exact List.Perm.append_left _ List.perm_append_comm
    · have hlt : i < n := by omega
      have e : f n = g n := h n (fun h2 => hin h2.symm)
      rw [e]
      have p := ih hlt
      have s1 : List.Perm (collect n g ++ (g n).toList ++ (f i).toList)
          (collect n g ++ (f i).toList ++ (g n).toList) := by
        rw [List.append_assoc, List.append_assoc]
        exact List.Perm.append_left _ List.perm_append_comm
      have s2 : List.Perm (collect n f ++ (g i).toList ++ (g n).toList)
          (collect n f ++ (g n).toList ++ (g i).toList) := by
        rw [List.append_assoc, List.append_assoc]
        exact List.Perm.append_left _ List.perm_append_comm
      exact s1.trans ((List.Perm.append_right _ p).trans s2)

theorem collect_length_le {α : Type} (n : Nat) (f : Nat → Option α) :
    (collect n f).length ≤ n := by
  unfold collect
  calc ((List.range n).filterMap f).length ≤ (List.range n).length := List.length_filterMap_le _ _
    _ = n := List.length_range n

/-- When fewer than `n` values are present, some index below `n` has none. -/
theorem exists_none_of_collect_length_lt {α : Type} (n : Nat) (f : Nat → Option α)
    (h : (collect n f).length < n) : ∃ i, i < n ∧ f i = none := by
  induction n with
  | zero => omega
  | succ n ih =>
    rw [collect_succ, List.length_append] at h
    cases hn : f n with
    | none => exact ⟨n, by omega, hn⟩
    | some a =>
      rw [hn] at h
      simp at h
      obtain ⟨i, hi, hf⟩ := ih h
      exact ⟨i, by omega, hf⟩

theorem exists_empty {t : hash_table V} (h : (filled t).length < t.cap) :
    ∃ z, z < t.cap ∧ (elem_at t z).hash = 0 := by
  obtain ⟨i, hi, hf⟩ := exists_none_of_collect_length_lt _ _ h
  refine ⟨i, hi, ?_⟩
  by_contra hne
  simp [hne] at hf

theorem dist_eq {t : hash_table V} (h : WF t) {i : Nat} (hi : i < t.cap) :
    dist t i = cdist t.cap ((elem_at t i).hash % t.cap) i :=
  max_probes_eq h _ hi

theorem prv_nxt (c j : Nat) (hj : j < c) : prv c (nxt c j) = j := by
  unfold nxt
  by_cases h : j + 1 < c
  · rw [if_pos h]; unfold prv; rw [if_neg (by omega)]; omega
  · rw [if_neg h]; unfold prv; rw [if_pos rfl]; omega

theorem nxt_prv (c j : Nat) (hj : j < c) : nxt c (prv c j) = j := by
  unfold prv
  by_cases h : j = 0
  · rw [if_pos h]; unfold nxt; rw [if_neg (by omega)]; omega
  · rw [if_neg h]; unfold nxt; rw [if_pos (by omega)]; omega

theorem nxt_lt (c j : Nat) (hc : 0 < c) : nxt c j < c := by
  unfold nxt; split <;> omega

theorem prv_lt (c j : Nat) (hj : j < c) : prv c j < c := by
  unfold prv; split <;> omega

theorem cdist_lt (c a b : Nat) (ha : a < c) (hb : b < c) : cdist c a b < c := by
  unfold cdist; split <;> omega

theorem cdist_self (c a : Nat) : cdist c a a = 0 := by
  unfold cdist; simp

theorem cdist_eq_zero {c a b : Nat} (ha : a < c) (hb : b < c) (h : cdist c a b = 0) :
    a = b := by
  unfold cdist at h; split at h <;> omega

theorem cdist_nxt_left {c a b : Nat} (ha : a < c) (hb : b < c) (h : a ≠ b) :
    cdist c (nxt c a) b + 1 = cdist c a b := by
  unfold cdist nxt
  by_cases h1 : a + 1 < c
  · rw [if_pos h1]; split_ifs <;> omega
  · rw [if_neg h1]; split_ifs <;> omega

theorem cdist_nxt_right {c a b : Nat} (ha : a < c) (hb : b < c) (h : nxt c b ≠ a) :
    cdist c a (nxt c b) = cdist c a b + 1 := by
  unfold cdist nxt at *
  by_cases h1 : b + 1 < c
  · rw [if_pos h1] at h ⊢; split_ifs <;> omega
  · rw [if_neg h1] at h ⊢; split_ifs <;> omega

/-- Under the robin-hood order every slot on the probe path leading to a stored entry is
non-empty and holds an entry at least as far from home as the path has advanced. -/
theorem Ordered.chain {t : hash_table V} (hw : WF t) (ho : Ordered t) {i : Nat}
    (hi : i < t.cap) (hne : (elem_at t i).hash ≠ 0) :
    ∀ q j, j < t.cap → cdist t.cap j i = q → q ≤ dist t i →
      (elem_at t j).hash ≠ 0 ∧ dist t i ≤ dist t j + q := by
  intro q
  induction q with
  | zero =>
    intro j hj hq _
    have : j = i := by unfold cdist at hq; split at hq <;> omega
    subst this
    exact ⟨hne, by omega⟩
  | succ q ih =>
    intro j hj hq hle
    have hj' : nxt t.cap j < t.cap := nxt_lt _ _ (by omega)
    have hji : j ≠ i := by
      intro h; rw [h, cdist_self] at hq; omega
    have hq' : cdist t.cap (nxt t.cap j) i = q := by
      have := cdist_nxt_left hj hi hji; omega
    obtain ⟨h1, h2⟩ := ih (nxt t.cap j) hj' hq' (by omega)
    have hp : prv t.cap (nxt t.cap j) = j := prv_nxt _ _ hj
    obtain ⟨h3, h4⟩ := ho (nxt t.cap j) hj' h1 (by omega)
    rw [hp] at h3 h4
    exact ⟨h3, by omega⟩

theorem slotUpdate_set {t : hash_table V} (hw : WF t) {idx : Nat} (hi : idx < t.cap)
    (e : hash_table_elem V) :
    SlotUpdate t { t with elems := t.elems.set idx e } idx e where
  cap := rfl
  mask := rfl
  num_elems := rfl
  thresh := rfl
  len_e := by simp
  len_d := rfl
  at_idx := by rw [elem_at_set t idx idx e (by rw [hw.len_elems]; exact hi)]; simp
  at_other := fun j hj => by
    rw [elem_at_set t idx j e (by rw [hw.len_elems]; exact hi)]; simp [hj]
  del_other := fun j _ => rfl

theorem slotUpdate_reset_set {t : hash_table V} (hw : WF t) {idx : Nat} (hi : idx < t.cap)
    (e : hash_table_elem V) :
    SlotUpdate t { hash_table__reset_deleted t idx with
      elems := (hash_table__reset_deleted t idx).elems.set idx e } idx e where
  cap := rfl
  mask := rfl
  num_elems := rfl
  thresh := rfl
  len_e := by simp [hash_table__reset_deleted]
  len_d := by simp [hash_table__reset_deleted, set_bit_in_bitarray]
  at_idx := by
    have := elem_at_set (hash_table__reset_deleted t idx) idx idx e
      (by show idx < t.elems.length; rw [hw.len_elems]; exact hi)
    rw [this]; simp
  at_other := fun j hj => by
    have := elem_at_set (hash_table__reset_deleted t idx) idx j e
      (by show idx < t.elems.length; rw [hw.len_elems]; exact hi)
    rw [this]; simp [hj]; rfl
  del_other := fun j hj => by
    have := deleted_set t idx j false (by rw [hw.len_deleted]; exact hi)
    show hash_table__is_entry_deleted
      { t with deleted := set_bit_in_bitarray t.deleted idx false } j = _
    rw [this]; simp [hj]

theorem reset_set_deleted {t : hash_table V} (hw : WF t) {idx : Nat} (hi : idx < t.cap)
    (e : hash_table_elem V) :
    hash_table__is_entry_deleted { hash_table__reset_deleted t idx with
      elems := (hash_table__reset_deleted t idx).elems.set idx e } idx = false := by
  have := deleted_set t idx idx false (by rw [hw.len_deleted]; exact hi)
  show hash_table__is_entry_deleted
      { t with deleted := set_bit_in_bitarray t.deleted idx false } idx = _
  rw [this]; simp

theorem SlotUpdate.wf {t t1 : hash_table V} {idx : Nat} {e : hash_table_elem V}
    (u : SlotUpdate t t1 idx e) (hw : WF t) : WF t1 where
  pow := by rw [u.cap]; exact hw.pow
  mask_eq := by rw [u.mask, u.cap]; exact hw.mask_eq
  len_elems := by rw [u.len_e, u.cap]; exact hw.len_elems
  len_deleted := by rw [u.len_d, u.cap]; exact hw.len_deleted

theorem SlotUpdate.dist_other {t t1 : hash_table V} {idx : Nat} {e : hash_table_elem V}
    (u : SlotUpdate t t1 idx e) {j : Nat} (hj : j ≠ idx) : dist t1 j = dist t j := by
  unfold dist hash_table__max_probes hash_table__hash_idx
  rw [u.at_other j hj, u.cap, u.mask]

theorem SlotUpdate.dist_idx {t t1 : hash_table V} {idx : Nat} {e : hash_table_elem V}
    (u : SlotUpdate t t1 idx e) (hw : WF t) (hi : idx < t.cap) :
    dist t1 idx = cdist t.cap (e.hash % t.cap) idx := by
  rw [dist_eq (u.wf hw) (by rw [u.cap]; exact hi), u.at_idx, u.cap]

theorem prv_ne (c i : Nat) (hc : 2 ≤ c) (hi : i < c) : prv c i ≠ i := by
  unfold prv; split <;> omega

/-- Overwriting slot `idx` with an entry that is `p` probes from home keeps the robin-hood
order when the preceding slot supports `p` and the overwritten entry was not further from
home than `p`. -/
theorem SlotUpdate.ordered {t t1 : hash_table V} {idx : Nat} {e : hash_table_elem V}
    (u : SlotUpdate t t1 idx e) (hw : WF t) (ho : Ordered t) (hi : idx < t.cap)
    (he : e.hash ≠ 0)
    (hcarry : 0 < cdist t.cap (e.hash % t.cap) idx →
      (elem_at t (prv t.cap idx)).hash ≠ 0 ∧
        cdist t.cap (e.hash % t.cap) idx ≤ dist t (prv t.cap idx) + 1)
    (hnext : (elem_at t idx).hash ≠ 0 → dist t idx ≤ cdist t.cap (e.hash % t.cap) idx) :
    Ordered t1 := by
  intro i hic hne hpos
  rw [u.cap] at hic ⊢
  have h2 := hw.two_le
  by_cases hii : i = idx
  · subst hii
    have hp : prv t.cap i ≠ i := prv_ne _ _ h2 hi
    rw [u.at_other _ hp, u.dist_other hp, u.dist_idx hw hi]
    rw [u.dist_idx hw hi] at hpos
    exact hcarry hpos
  · rw [u.at_other i hii] at hne
    rw [u.dist_other hii] at hpos ⊢
    obtain ⟨h3, h4⟩ := ho i hic hne hpos
    by_cases hpi : prv t.cap i = idx
    · rw [hpi, u.at_idx, u.dist_idx hw hi]
      rw [hpi] at h3 h4
      exact ⟨he, by have := hnext h3; omega⟩
    · rw [u.at_other _ hpi, u.dist_other hpi]
      exact ⟨h3, h4⟩

theorem SlotUpdate.live_perm {t t1 : hash_table V} {idx : Nat} {e : hash_table_elem V}
    (u : SlotUpdate t t1 idx e) (hi : idx < t.cap) :
    List.Perm
      (live t1 ++ (if occupied t idx then some (elem_at t idx) else none).toList)
      (live t ++ (if occupied t1 idx then some (elem_at t1 idx) else none).toList) := by
  unfold live
  rw [u.cap]
  refine collect_update t.cap (fun i => if occupied t i then some (elem_at t i) else none)
    (fun i => if occupied t1 i then some (elem_at t1 i) else none) idx hi ?_
  intro j hj
  unfold occupied
  simp only [u.at_other j hj, u.del_other j hj]

theorem SlotUpdate.filled_perm {t t1 : hash_table V} {idx : Nat} {e : hash_table_elem V}
    (u : SlotUpdate t t1 idx e) (hi : idx < t.cap) :
    List.Perm
      (filled t1 ++ (if (elem_at t idx).hash ≠ 0 then some idx else none).toList)
      (filled t ++ (if (elem_at t1 idx).hash ≠ 0 then some idx else none).toList) := by
  unfold filled
  rw [u.cap]
  refine collect_update t.cap (fun i => if (elem_at t i).hash ≠ 0 then some i else none)
    (fun i => if (elem_at t1 i).hash ≠ 0 then some i else none) idx hi ?_
  intro j hj
  simp only [u.at_other j hj]

theorem SlotUpdate.filled_le {t t1 : hash_table V} {idx : Nat} {e : hash_table_elem V}
    (u : SlotUpdate t t1 idx e) (hi : idx < t.cap) :
    (filled t1).length ≤ (filled t).length + 1 := by
  have := (u.filled_perm hi).length_eq
  simp only [List.length_append] at this
  have h1 : (if (elem_at t1 idx).hash ≠ 0 then some idx else none).toList.length ≤ 1 := by
    split <;> simp
  omega

theorem SlotUpdate.filled_eq {t t1 : hash_table V} {idx : Nat} {e : hash_table_elem V}
    (u : SlotUpdate t t1 idx e) (hi : idx < t.cap) (h : (elem_at t idx).hash ≠ 0)
    (he : e.hash ≠ 0) :
    (filled t1).length = (filled t).length := by
  have := (u.filled_perm hi).length_eq
  rw [u.at_idx, if_pos h, if_pos he] at this
  simpa using this

theorem SlotUpdate.clean {t t1 : hash_table V} {idx : Nat} {e : hash_table_elem V}
    (u : SlotUpdate t t1 idx e) (hc : Clean t) (he : e.hash ≠ 0) : Clean t1 := by
  intro i hi h0
  rw [u.cap] at hi
  by_cases hii : i = idx
  · subst hii; rw [u.at_idx] at h0; exact absurd h0 he
  · rw [u.at_other i hii] at h0
    rw [u.del_other i hii]
    exact hc i hi h0

theorem SlotUpdate.notomb {t t1 : hash_table V} {idx : Nat} {e : hash_table_elem V}
    (u : SlotUpdate t t1 idx e) (hn : NoTomb t)
    (hd : hash_table__is_entry_deleted t1 idx = false) : NoTomb t1 := by
  intro i hi
  rw [u.cap] at hi
  by_cases hii : i = idx
  · subst hii; exact hd
  · rw [u.del_other i hii]; exact hn i hi

theorem cdist_nxt_of_lt {c a b : Nat} (ha : a < c) (hb : b < c)
    (h : cdist c a b + 1 < c) : cdist c a (nxt c b) = cdist c a b + 1 := by
  unfold cdist nxt at *
  by_cases h1 : b + 1 < c
  · rw [if_pos h1]; split_ifs at * <;> omega
  · rw [if_neg h1]; split_ifs at * <;> omega

/-- In an ordered table with an empty slot `z`, the entry in slot `idx` is fewer probes
from home than `z` is behind `idx`. -/
theorem dist_lt_of_empty {t : hash_table V} (hw : WF t) (ho : Ordered t) {z idx : Nat}
    (hz : z < t.cap) (hz0 : (elem_at t z).hash = 0) (hi : idx < t.cap)
    (hne : (elem_at t idx).hash ≠ 0) : dist t idx < cdist t.cap z idx := by
  by_contra hcon
  have := (ho.chain hw hi hne (cdist t.cap z idx) z hz rfl (by omega)).1
  exact this hz0

theorem insert_loop_spec (z : Nat) :
    ∀ (n : Nat) (t : hash_table V) (e : hash_table_elem V) (idx p fuel : Nat),
      WF t → Ordered t → Clean t → z < t.cap → (elem_at t z).hash = 0 → e.hash ≠ 0 →
      idx < t.cap → cdist t.cap idx z = n → n < fuel →
      p = cdist t.cap (e.hash % t.cap) idx →
      (0 < p → (elem_at t (prv t.cap idx)).hash ≠ 0 ∧ p ≤ dist t (prv t.cap idx) + 1) →
      ∃ t1, hash_table__insert_loop fuel t e idx p = some t1 ∧ InsertPost t e t1 := by
  intro n
  induction n with
  | zero =>
    intro t e idx p fuel hw ho hc hz hz0 he hi hn hf hp hcarry
    have hiz : idx = z := cdist_eq_zero hi hz hn
    subst hiz
    obtain ⟨fuel, rfl⟩ : ∃ f, fuel = f + 1 := ⟨fuel - 1, by omega⟩
    rw [hash_table__insert_loop, if_neg (Nat.not_le.mpr hi), if_pos hz0]
    refine ⟨_, rfl, ?_⟩
    have u := slotUpdate_set hw hi e
    have hocc : ¬ occupied t idx := fun h => h.1 hz0
    have hocc1 : occupied { t with elems := t.elems.set idx e } idx :=
      ⟨by rw [u.at_idx]; exact he, hc idx hi hz0⟩
    refine ⟨rfl, rfl, rfl, rfl, u.wf hw, ?_, u.clean hc he, ?_, u.filled_le hi, ?_⟩
    · exact u.ordered hw ho hi he (by rw [← hp]; exact hcarry) (fun h => absurd hz0 h)
    · have := u.live_perm hi
      rw [if_neg hocc, if_pos hocc1, u.at_idx] at this
      simp only [Option.toList, List.append_nil] at this
      exact this.trans (List.perm_append_comm)
    · intro hn; exact u.notomb hn (hn idx hi)
  | succ n ih =>
    intro t e idx p fuel hw ho hc hz hz0 he hi hn hf hp hcarry
    obtain ⟨fuel, rfl⟩ : ∃ f, fuel = f + 1 := ⟨fuel - 1, by omega⟩
    have h2 := hw.two_le
    have hcl := hw.cap_le
    rw [hash_table__insert_loop, if_neg (Nat.not_le.mpr hi)]
    by_cases h0 : (elem_at t idx).hash = 0
    · rw [if_pos h0]
      refine ⟨_, rfl, ?_⟩
      have u := slotUpdate_set hw hi e
      have hocc : ¬ occupied t idx := fun h => h.1 h0
      have hocc1 : occupied { t with elems := t.elems.set idx e } idx :=
        ⟨by rw [u.at_idx]; exact he, hc idx hi h0⟩
      refine ⟨rfl, rfl, rfl, rfl, u.wf hw, ?_, u.clean hc he, ?_, u.filled_le hi, ?_⟩
      · exact u.ordered hw ho hi he (by rw [← hp]; exact hcarry) (fun h => absurd h0 h)
      · have := u.live_perm hi
        rw [if_neg hocc, if_pos hocc1, u.at_idx] at this
        simp only [Option.toList, List.append_nil] at this
        exact this.trans (List.perm_append_comm)
      · intro hn; exact u.notomb hn (hn idx hi)
    · rw [if_neg h0]
      have hiz : idx ≠ z := fun h => h0 (h ▸ hz0)
      have hd : dist t idx < cdist t.cap z idx := dist_lt_of_empty hw ho hz hz0 hi h0
      have hzl : cdist t.cap z idx < t.cap := cdist_lt _ _ _ hz hi
      have hnx : nxt t.cap idx < t.cap := nxt_lt _ _ (by omega)
      have hnext : ((idx + 1) % u32) &&& t.mask = nxt t.cap idx := next_idx_eq hw hi
      have hn1 : cdist t.cap (nxt t.cap idx) z = n := by
        have := cdist_nxt_left hi hz hiz; omega
      have hdd : hash_table__max_probes t (elem_at t idx).hash idx = dist t idx := rfl
      simp only [hdd, hnext]
      by_cases hlt : dist t idx < p
      · rw [if_pos hlt]
        by_cases hdel : hash_table__is_entry_deleted t idx = true
        · rw [if_pos hdel]
          refine ⟨_, rfl, ?_⟩
          have u := slotUpdate_reset_set hw hi e
          have hdel1 := reset_set_deleted hw hi e
          have hocc : ¬ occupied t idx := fun h => by rw [h.2] at hdel; cases hdel
          refine ⟨rfl, rfl, rfl, rfl, u.wf hw, ?_, u.clean hc he, ?_, u.filled_le hi, ?_⟩
          · exact u.ordered hw ho hi he (by rw [← hp]; exact hcarry)
              (fun _ => by rw [← hp]; omega)
          · have := u.live_perm hi
            have hocc1 : occupied { hash_table__reset_deleted t idx with
                elems := (hash_table__reset_deleted t idx).elems.set idx e } idx :=
              ⟨by rw [u.at_idx]; exact he, hdel1⟩
            rw [if_neg hocc, if_pos hocc1, u.at_idx] at this
            simp only [Option.toList, List.append_nil] at this
            exact this.trans (List.perm_append_comm)
          · intro hn; exact u.notomb hn hdel1
        · rw [if_neg hdel]
          have hdelf : hash_table__is_entry_deleted t idx = false := by
            cases h : hash_table__is_entry_deleted t idx
            · rfl
            · exact absurd h hdel
          have u := slotUpdate_set hw hi e
          have hw1 := u.wf hw
          have ho1 : Ordered { t with elems := t.elems.set idx e } :=
            u.ordered hw ho hi he (by rw [← hp]; exact hcarry) (fun _ => by rw [← hp]; omega)
          have hmod : (dist t idx + 1) % u32 = dist t idx + 1 :=
            Nat.mod_eq_of_lt (by unfold u32; omega)
          rw [hmod]
          have hz1 : (elem_at { t with elems := t.elems.set idx e } z).hash = 0 := by
            rw [u.at_other z (fun h => hiz h.symm)]; exact hz0
          have hdist1 : dist { t with elems := t.elems.set idx e } idx = p := by
            rw [u.dist_idx hw hi]; exact hp.symm
          obtain ⟨t1, hrun, post⟩ := ih { t with elems := t.elems.set idx e } (elem_at t idx)
            (nxt t.cap idx) (dist t idx + 1) fuel hw1 ho1 (u.clean hc he) hz hz1 h0 hnx hn1
            (by omega)
            (by
              show _ = cdist t.cap _ _
              rw [cdist_nxt_of_lt (Nat.mod_lt _ (by omega)) hi
                (by rw [← dist_eq hw hi]; omega), ← dist_eq hw hi])
            (by
              intro _
              show (elem_at _ (prv t.cap _)).hash ≠ 0 ∧ _ ≤ dist _ (prv t.cap _) + 1
              rw [prv_nxt _ _ hi, u.at_idx, hdist1]
              exact ⟨he, by omega⟩)
          refine ⟨t1, hrun, ?_⟩
          have hocc : occupied t idx := ⟨h0, hdelf⟩
          have hocc1 : occupied { t with elems := t.elems.set idx e } idx :=
            ⟨by rw [u.at_idx]; exact he, hdelf⟩
          refine ⟨post.cap, post.mask, post.num_elems, post.thresh, post.wf, post.ord,
            post.clean, ?_, ?_, ?_⟩
          · have := u.live_perm hi
            rw [if_pos hocc, if_pos hocc1, u.at_idx] at this
            simp only [Option.toList] at this
            have p1 : List.Perm (elem_at t idx :: live { t with elems := t.elems.set idx e })
                (e :: live t) :=
              (List.perm_append_comm.trans this).trans List.perm_append_comm
            exact post.perm.trans p1
          · have := u.filled_eq hi h0 he
            have := post.filled_le
            omega
          · intro hn; exact post.notomb (u.notomb hn hdelf)
      · rw [if_neg hlt]
        have hmod : (p + 1) % u32 = p + 1 :=
          Nat.mod_eq_of_lt (by unfold u32; omega)
        rw [hmod]
        exact ih t e (nxt t.cap idx) (p + 1) fuel hw ho hc hz hz0 he hnx hn1 (by omega)
          (by
            rw [cdist_nxt_of_lt (Nat.mod_lt _ (by omega)) hi (by rw [← hp]; omega), ← hp])
          (by
            intro _
            rw [prv_nxt _ _ hi]
            exact ⟨h0, by omega⟩)

/-- Placement of `e` from its home slot succeeds on an ordered table that still has an
empty slot, whenever `fuel` is at least the capacity. -/
theorem insert_spec {t : hash_table V} (hw : WF t) (ho : Ordered t) (hc : Clean t)
    (hf : (filled t).length < t.cap) (e : hash_table_elem V) (he : e.hash ≠ 0)
    (fuel : Nat) (hfuel : t.cap ≤ fuel) :
    ∃ t1, hash_table__insert fuel t e = some t1 ∧ InsertPost t e t1 := by
  obtain ⟨z, hz, hz0⟩ := exists_empty hf
  have hh := hash_idx_lt hw e.hash
  unfold hash_table__insert
  refine insert_loop_spec z _ t e _ 0 fuel hw ho hc hz hz0 he hh rfl ?_ ?_ ?_
  · have := cdist_lt t.cap _ _ hh hz; omega
  · rw [hash_idx_eq hw, cdist_self]
  · intro h; omega

/-- The lookup loop stops within `cap + 1` iterations on every well-formed table. -/
theorem lookup_loop_terminates {t : hash_table V} (hw : WF t) (hash k : Nat) :
    ∀ (r fuel idx np : Nat), idx < t.cap → np + r = t.cap → r < fuel →
      ∃ res, hash_table__lookup_loop t hash k fuel idx np = some res := by
  intro r
  induction r with
  | zero =>
    intro fuel idx np hi hnp hf
    have := max_probes_lt hw (elem_at t idx).hash hi
    obtain ⟨fuel, rfl⟩ : ∃ f, fuel = f + 1 := ⟨fuel - 1, by omega⟩
    rw [hash_table__lookup_loop, if_neg (Nat.not_le.mpr hi)]
    by_cases h0 : (elem_at t idx).hash = 0
    · rw [if_pos h0]; exact ⟨_, rfl⟩
    · rw [if_neg h0, if_pos (by omega)]; exact ⟨_, rfl⟩
  | succ r ih =>
    intro fuel idx np hi hnp hf
    obtain ⟨fuel, rfl⟩ : ∃ f, fuel = f + 1 := ⟨fuel - 1, by omega⟩
    have hcl := hw.cap_le
    rw [hash_table__lookup_loop, if_neg (Nat.not_le.mpr hi)]
    by_cases h0 : (elem_at t idx).hash = 0
    · rw [if_pos h0]; exact ⟨_, rfl⟩
    · rw [if_neg h0]
      by_cases h1 : np > hash_table__max_probes t (elem_at t idx).hash idx
      · rw [if_pos h1]; exact ⟨_, rfl⟩
      · rw [if_neg h1]
        split
        · exact ⟨_, rfl⟩
        · rw [next_idx_eq hw hi, Nat.mod_eq_of_lt (by unfold u32; omega)]
          exact ih fuel _ _ (nxt_lt _ _ (by omega)) (by omega) (by omega)

theorem lookup_terminates {t : hash_table V} (hw : WF t) (k fuel : Nat)
    (hf : t.cap + 1 ≤ fuel) : ∃ res, hash_table__lookup fuel t k = some res := by
  unfold hash_table__lookup
  exact lookup_loop_terminates hw _ k t.cap fuel _ 0 (hash_idx_lt hw _) (by omega) (by omega)

/-- A slot index returned by the lookup loop is an occupied slot holding the searched
hash and key. -/
theorem lookup_loop_sound {t : hash_table V} (hw : WF t) (hash k : Nat) :
    ∀ (fuel idx np : Nat) (res : Int), idx < t.cap →
      hash_table__lookup_loop t hash k fuel idx np = some res →
      res = -1 ∨ ∃ i, i < t.cap ∧ res = (i : Int) ∧ occupied t i ∧
        (elem_at t i).hash = hash ∧ (elem_at t i).key = k := by
  intro fuel
  induction fuel with
  | zero => intro idx np res _ h; simp [hash_table__lookup_loop] at h
  | succ fuel ih =>
    intro idx np res hi h
    rw [hash_table__lookup_loop, if_neg (Nat.not_le.mpr hi)] at h
    by_cases h0 : (elem_at t idx).hash = 0
    · rw [if_pos h0] at h; left; exact (Option.some.inj h).symm
    · rw [if_neg h0] at h
      by_cases h1 : np > hash_table__max_probes t (elem_at t idx).hash idx
      · rw [if_pos h1] at h; left; exact (Option.some.inj h).symm
      · rw [if_neg h1] at h
        split at h
        · next hm =>
          right
          refine ⟨idx, hi, (Option.some.inj h).symm, ⟨h0, by simpa using hm.1⟩, hm.2.1, hm.2.2⟩
        · rw [next_idx_eq hw hi] at h
          exact ih _ _ res (nxt_lt _ _ (by omega)) h

theorem lookup_sound {t : hash_table V} (hw : WF t) (k fuel : Nat) (res : Int)
    (h : hash_table__lookup fuel t k = some res) :
    res = -1 ∨ ∃ i, i < t.cap ∧ res = (i : Int) ∧ occupied t i ∧
      (elem_at t i).hash = hash_table__fix_hash (hash_table__hash_fun k) ∧
      (elem_at t i).key = k :=
  lookup_loop_sound hw _ k fuel _ 0 res (hash_idx_lt hw _) h

/-- On an ordered table the lookup loop, started anywhere on the probe path of an occupied
slot `j` holding hash `hash` and key `k`, returns an occupied slot with that hash and key. -/
theorem lookup_loop_complete {t : hash_table V} (hw : WF t) (ho : Ordered t) {j : Nat}
    (hj : j < t.cap) (hocc : occupied t j) (k : Nat) (hk : (elem_at t j).key = k) :
    ∀ (r fuel idx : Nat), idx < t.cap → cdist t.cap idx j = r → r ≤ dist t j → r < fuel →
      ∃ i, i < t.cap ∧
        hash_table__lookup_loop t (elem_at t j).hash k fuel idx (dist t j - r) =
          some (i : Int) ∧
        occupied t i ∧ (elem_at t i).hash = (elem_at t j).hash ∧ (elem_at t i).key = k := by
  intro r
  induction r with
  | zero =>
    intro fuel idx hi hr _ hf
    have hij : idx = j := cdist_eq_zero hi hj hr
    subst hij
    obtain ⟨fuel, rfl⟩ : ∃ f, fuel = f + 1 := ⟨fuel - 1, by omega⟩
    rw [hash_table__lookup_loop, if_neg (Nat.not_le.mpr hi)]
    have hgt : ¬ (dist t idx - 0 > hash_table__max_probes t (elem_at t idx).hash idx) := by
      show ¬ (dist t idx - 0 > dist t idx); omega
    rw [if_neg hocc.1, if_neg hgt]
    split
    · exact ⟨idx, hi, rfl, hocc, rfl, hk⟩
    · next hm => exact absurd ⟨by simp [hocc.2], rfl, hk⟩ hm
  | succ r ih =>
    intro fuel idx hi hr hle hf
    obtain ⟨fuel, rfl⟩ : ∃ f, fuel = f + 1 := ⟨fuel - 1, by omega⟩
    have hcl := hw.cap_le
    have hdl : dist t j < t.cap := max_probes_lt hw _ hj
    obtain ⟨c1, c2⟩ := ho.chain hw hj hocc.1 (r + 1) idx hi hr hle
    have hij : idx ≠ j := by
      intro h; rw [h, cdist_self] at hr; omega
    rw [hash_table__lookup_loop, if_neg (Nat.not_le.mpr hi)]
    have hgt : ¬ (dist t j - (r + 1) > hash_table__max_probes t (elem_at t idx).hash idx) := by
      show ¬ (dist t j - (r + 1) > dist t idx); omega
    rw [if_neg c1, if_neg hgt]
    split
    · next hm =>
      exact ⟨idx, hi, rfl, ⟨c1, by simpa using hm.1⟩, hm.2.1, hm.2.2⟩
    · rw [next_idx_eq hw hi]
      have e : (dist t j - (r + 1) + 1) % u32 = dist t j - r := by
        rw [Nat.mod_eq_of_lt (by unfold u32; omega)]; omega
      rw [e]
      have := cdist_nxt_left hi hj hij
      exact ih fuel _ (nxt_lt _ _ (by omega)) (by omega) (by omega) (by omega)

/-- On an ordered table, a key held by an occupied slot whose stored hash is the hash of
the key is found by lookup (at some occupied slot holding that key). -/
theorem lookup_complete {t : hash_table V} (hw : WF t) (ho : Ordered t) {j : Nat}
    (hj : j < t.cap) (hocc : occupied t j) (k : Nat) (hk : (elem_at t j).key = k)
    (hh : (elem_at t j).hash = hash_table__fix_hash (hash_table__hash_fun k))
    (fuel : Nat) (hf : t.cap ≤ fuel) :
    ∃ i, i < t.cap ∧ hash_table__lookup fuel t k = some (i : Int) ∧ occupied t i ∧
      (elem_at t i).hash = hash_table__fix_hash (hash_table__hash_fun k) ∧
      (elem_at t i).key = k := by
  have hdl : dist t j < t.cap := max_probes_lt hw _ hj
  have hd : dist t j = cdist t.cap (hash_table__hash_idx t (elem_at t j).hash) j := by
    rw [hash_idx_eq hw]; exact dist_eq hw hj
  have := lookup_loop_complete hw ho hj hocc k hk (dist t j) fuel
    (hash_table__hash_idx t (elem_at t j).hash) (hash_idx_lt hw _) hd.symm (le_refl _)
    (by omega)
  rw [Nat.sub_self, hh] at this
  exact this

theorem construct_elem_at (c i : Nat) :
    elem_at (hash_table__construct c : hash_table V) i = zero_elem := by
  unfold elem_at hash_table__construct
  simp only [List.getD_eq_getElem?_getD, List.getElem?_replicate]
  split <;> rfl

theorem construct_deleted (c i : Nat) :
    hash_table__is_entry_deleted (hash_table__construct c : hash_table V) i = false := by
  unfold hash_table__is_entry_deleted hash_table__construct get_bit_in_bitarray bit_array_new
  simp only [List.getD_eq_getElem?_getD, List.getElem?_replicate]
  split <;> rfl

theorem construct_wf (m : Nat) (h1 : 1 ≤ m) (h2 : m ≤ 31) :
    WF (hash_table__construct (2 ^ m) : hash_table V) where
  pow := ⟨m, h1, h2, rfl⟩
  mask_eq := by
    show (2 ^ m + u32 - 1) % u32 = 2 ^ m - 1
    have hp : 0 < 2 ^ m := Nat.pow_pos (by decide)
    have hle : 2 ^ m ≤ 2 ^ 31 := Nat.pow_le_pow_right (by decide) h2
    have e : 2 ^ m + u32 - 1 = (2 ^ m - 1) + u32 := by omega
    rw [e, Nat.add_mod_right]
    exact Nat.mod_eq_of_lt (by unfold u32; norm_num at hle; omega)
  len_elems := by simp [hash_table__construct]
  len_deleted := by simp [hash_table__construct, bit_array_new]

theorem collect_none {α : Type} (n : Nat) (f : Nat → Option α) (h : ∀ i, i < n → f i = none) :
    collect n f = [] := by
  induction n with
  | zero => rfl
  | succ n ih => rw [collect_succ, ih (fun i hi => h i (by omega)), h n (by omega)]; rfl

theorem collect_length_congr {α β : Type} (n : Nat) (f : Nat → Option α) (g : Nat → Option β)
    (h : ∀ i, i < n → ((f i).isSome = (g i).isSome)) :
    (collect n f).length = (collect n g).length := by
  induction n with
  | zero => rfl
  | succ n ih =>
    rw [collect_succ, collect_succ, List.length_append, List.length_append,
      ih (fun i hi => h i (by omega))]
    have := h n (by omega)
    cases hf : f n <;> cases hg : g n <;> simp [hf, hg] at this ⊢

/-- Without tombstones the non-empty slots are exactly the occupied ones. -/
theorem filled_length_of_notomb {t : hash_table V} (hn : NoTomb t) :
    (filled t).length = (live t).length := by
  unfold filled live
  apply collect_length_congr
  intro i hi
  unfold occupied
  by_cases h : (elem_at t i).hash = 0
  · simp [h]
  · simp [h, hn i hi]

/-- Table state with a replaced live count. -/
theorem with_num_elems_elem_at (t : hash_table V) (n i : Nat) :
    elem_at { t with num_elems := n } i = elem_at t i := rfl

theorem fresh_hash (c n j : Nat) :
    (elem_at ({ (hash_table__construct c : hash_table V) with num_elems := n }) j).hash = 0 := by
  rw [with_num_elems_elem_at, construct_elem_at]; rfl

theorem fresh_deleted (c n j : Nat) :
    hash_table__is_entry_deleted
      ({ (hash_table__construct c : hash_table V) with num_elems := n }) j = false :=
  @construct_deleted V _ c j

theorem grow_loop_spec {t : hash_table V} (m : Nat) (hm : m ≤ 30) (hcap : t.cap = 2 ^ m)
    (fuel : Nat) (hfuel : 2 * t.cap ≤ fuel) :
    ∀ i, i ≤ t.cap → ∃ nt,
      (List.range i).foldlM (hash_table__grow_step fuel t)
        { (hash_table__construct ((t.cap * 2) % u32) : hash_table V) with
          num_elems := t.num_elems } = some nt ∧ GrowInv t i nt := by
  have hpos : 0 < t.cap := by rw [hcap]; exact Nat.pow_pos (by decide)
  have hle : t.cap ≤ 2 ^ 30 := by rw [hcap]; exact Nat.pow_le_pow_right (by decide) hm
  have hmod : (t.cap * 2) % u32 = 2 ^ (m + 1) := by
    rw [Nat.mod_eq_of_lt (by unfold u32; norm_num at hle; omega), hcap, Nat.pow_succ]
  have h2 : 2 * t.cap = 2 ^ (m + 1) := by rw [hcap, Nat.pow_succ]; ring
  intro i
  induction i with
  | zero =>
    intro _
    refine ⟨_, rfl, ?_⟩
    rw [hmod]
    have hw : WF (hash_table__construct (2 ^ (m + 1)) : hash_table V) :=
      construct_wf (m + 1) (by omega) (by omega)
    refine ⟨h2.symm, rfl, by rw [h2]; rfl, ⟨hw.pow, hw.mask_eq, hw.len_elems, hw.len_deleted⟩,
      ?_, ?_, ?_, ?_, ?_⟩
    · intro j _ hne
      exact absurd (fresh_hash _ _ j) hne
    · intro j _ _; exact fresh_deleted _ _ j
    · intro j _; exact fresh_deleted _ _ j
    · have : live ({ (hash_table__construct (2 ^ (m + 1)) : hash_table V) with
          num_elems := t.num_elems }) = [] := by
        unfold live
        apply collect_none
        intro j _
        have : ¬ occupied ({ (hash_table__construct (2 ^ (m + 1)) : hash_table V) with
          num_elems := t.num_elems }) j := by
          intro h
          exact h.1 (fresh_hash _ _ j)
        rw [if_neg this]
      rw [this]; exact List.Perm.refl _
    · have : filled ({ (hash_table__construct (2 ^ (m + 1)) : hash_table V) with
          num_elems := t.num_elems }) = [] := by
        unfold filled
        apply collect_none
        intro j _
        rw [if_neg]
        intro h
        exact h (fresh_hash _ _ j)
      rw [this]; exact Nat.le_refl _
  | succ i ih =>
    intro hi
    obtain ⟨nt, hrun, inv⟩ := ih (by omega)
    rw [List.range_succ, List.foldlM_append, hrun]
    simp only [Option.bind_eq_bind, Option.some_bind, List.foldlM_cons, List.foldlM_nil]
    unfold hash_table__grow_step
    simp only []
    by_cases hocc : occupied t i
    · have hcond : (elem_at t i).hash ≠ 0 ∧ (!hash_table__is_entry_deleted t i) = true :=
        ⟨hocc.1, by simp [hocc.2]⟩
      rw [if_pos hcond]
      obtain ⟨nt1, hins, post⟩ := insert_spec inv.wf inv.ord inv.clean
        (by have := inv.filled_le; rw [inv.cap]; omega) (elem_at t i) hocc.1 fuel
        (by rw [inv.cap]; exact hfuel)
      rw [hins]
      refine ⟨nt1, rfl, ?_⟩
      refine ⟨by rw [post.cap, inv.cap], by rw [post.num_elems, inv.num_elems],
        by rw [post.thresh, inv.thresh], post.wf, post.ord, post.clean,
        post.notomb inv.notomb, ?_, ?_⟩
      · rw [collect_succ, if_pos hocc]
        have pc : List.Perm ([elem_at t i] ++ collect i fun j =>
            if occupied t j then some (elem_at t j) else none)
            ((collect i fun j => if occupied t j then some (elem_at t j) else none) ++
              [elem_at t i]) := List.perm_append_comm
        exact post.perm.trans ((List.Perm.cons _ inv.perm).trans pc)
      · have := post.filled_le; have := inv.filled_le; omega
    · have hcond : ¬ ((elem_at t i).hash ≠ 0 ∧ (!hash_table__is_entry_deleted t i) = true) := by
        intro h
        exact hocc ⟨h.1, by simpa using h.2⟩
      rw [if_neg hcond]
      refine ⟨nt, rfl, ?_⟩
      refine ⟨inv.cap, inv.num_elems, inv.thresh, inv.wf, inv.ord, inv.clean, inv.notomb,
        ?_, ?_⟩
      · rw [collect_succ, if_neg hocc]
        simpa using inv.perm
      · have := inv.filled_le; omega

/-- Growth of a table whose capacity is a power of two up to `2^30` succeeds and yields a
well-formed, ordered table without tombstones, of twice the capacity, holding the same
live entries. -/
theorem grow_spec {t : hash_table V} (m : Nat) (hm : m ≤ 30) (hcap : t.cap = 2 ^ m)
    (fuel : Nat) (hfuel : 2 * t.cap ≤ fuel) :
    ∃ nt, hash_table__grow fuel t = some nt ∧ GrowInv t t.cap nt :=
  grow_loop_spec m hm hcap fuel hfuel t.cap (Nat.le_refl _)

theorem fix_hash_ne_zero (h : Nat) : hash_table__fix_hash h ≠ 0 := by
  unfold hash_table__fix_hash
  split <;> omega

theorem thresh_of_le (c : Nat) : thresh_of c ≤ c := by
  unfold thresh_of hash_table_load_factor_to_grow u32
  by_cases h : c * 90 < 4294967296
  · rw [Nat.mod_eq_of_lt h]; omega
  · have : c * 90 % 4294967296 < 4294967296 := Nat.mod_lt _ (by decide)
    omega

theorem with_num_elems_live (t : hash_table V) (n : Nat) :
    live { t with num_elems := n } = live t := rfl

theorem with_num_elems_filled (t : hash_table V) (n : Nat) :
    filled { t with num_elems := n } = filled t := rfl

theorem with_num_elems_inv {t : hash_table V} (h : Inv t) (n : Nat) :
    Inv { t with num_elems := n } :=
  ⟨⟨h.wf.pow, h.wf.mask_eq, h.wf.len_elems, h.wf.len_deleted⟩, h.ord, h.clean, h.thresh,
    h.hashok⟩

theorem insert_result {t : hash_table V} (hinv : Inv t) (k : Nat) (v : V)
    (hn : t.num_elems + 1 < u32)
    (hfill : (filled t).length < t.cap)
    (hgrow : t.resize_thresh ≤ t.num_elems + 1 → t.cap ≤ 2 ^ 30)
    (fuel : Nat) (hfuel : 2 * t.cap ≤ fuel) :
    ∃ t1, hash_table_insert fuel t k v = some t1 ∧ InsertResult t k v t1 := by
  unfold hash_table_insert
  simp only []
  rw [Nat.mod_eq_of_lt hn]
  have he : (entry_of k v).hash ≠ 0 := fix_hash_ne_zero _
  have hok : ∀ (t0 t1 : hash_table V), (∀ e, e ∈ live t0 →
      e.hash = hash_table__fix_hash (hash_table__hash_fun e.key)) →
      List.Perm (live t1) (entry_of k v :: live t0) →
      ∀ e, e ∈ live t1 → e.hash = hash_table__fix_hash (hash_table__hash_fun e.key) := by
    intro t0 t1 h0 hp e hmem
    have := hp.mem_iff.mp hmem
    rcases List.mem_cons.mp this with h | h
    · rw [h]; rfl
    · exact h0 e h
  by_cases hg : t.resize_thresh ≤ t.num_elems + 1
  · rw [if_pos (show (t.num_elems + 1 ≥ t.resize_thresh) from hg)]
    obtain ⟨m, hm1, hm2, hcap⟩ := hinv.wf.pow
    have hm : m ≤ 30 := by
      by_contra hcon
      have hle := hgrow hg
      rw [hcap] at hle
      have : 2 ^ 31 ≤ 2 ^ m := Nat.pow_le_pow_right (by decide) (by omega)
      omega
    obtain ⟨nt, hrun, ginv⟩ := grow_spec (t := { t with num_elems := t.num_elems + 1 }) m hm
      hcap fuel hfuel
    rw [hrun]
    simp only [Option.some_bind]
    have hlen : (live t).length ≤ t.cap := collect_length_le _ _
    have hfl : (filled nt).length = (live t).length := by
      rw [filled_length_of_notomb ginv.notomb]
      exact ginv.perm.length_eq
    obtain ⟨t1, hins, post⟩ := insert_spec ginv.wf ginv.ord ginv.clean
      (by rw [hfl, ginv.cap]; show _ < 2 * t.cap; have := hinv.wf.two_le; omega)
      (entry_of k v) he fuel
      (by rw [ginv.cap]; exact hfuel)
    refine ⟨t1, hins, ?_⟩
    have hp : List.Perm (live t1) (entry_of k v :: live t) :=
      post.perm.trans (List.Perm.cons _ ginv.perm)
    refine ⟨⟨post.wf, post.ord, post.clean, ?_, hok t t1 hinv.hashok hp⟩, hp, ?_, ?_, ?_, ?_⟩
    · rw [post.thresh, post.cap, ginv.thresh, ginv.cap]
    · rw [post.num_elems, ginv.num_elems]
    · rw [if_pos hg, post.cap, ginv.cap]
    · rw [if_pos hg]; have := post.filled_le; omega
    · intro _; exact post.notomb ginv.notomb
  · rw [if_neg (show ¬ (t.num_elems + 1 ≥ t.resize_thresh) from hg)]
    have hinv1 := with_num_elems_inv hinv (t.num_elems + 1)
    obtain ⟨t1, hins, post⟩ := insert_spec hinv1.wf hinv1.ord hinv1.clean
      (by rw [with_num_elems_filled]; exact hfill) (entry_of k v) he fuel
      (by show t.cap ≤ fuel; omega)
    refine ⟨t1, hins, ?_⟩
    have hp : List.Perm (live t1) (entry_of k v :: live t) := post.perm
    refine ⟨⟨post.wf, post.ord, post.clean, ?_, hok t t1 hinv.hashok hp⟩, hp, ?_, ?_, ?_, ?_⟩
    · rw [post.thresh, post.cap]; exact hinv.thresh
    · rw [post.num_elems]
    · rw [if_neg hg, post.cap]
    · rw [if_neg hg]; exact post.filled_le
    · intro h
      rcases h with h | h
      · exact absurd h hg
      · exact post.notomb h



theorem mem_live {t : hash_table V} (e : hash_table_elem V) :
    e ∈ live t ↔ ∃ i, i < t.cap ∧ occupied t i ∧ elem_at t i = e := by
  unfold live
  rw [mem_collect]
  constructor
  · rintro ⟨i, hi, h⟩
    by_cases ho : occupied t i
    · rw [if_pos ho] at h; exact ⟨i, hi, ho, Option.some.inj h⟩
    · rw [if_neg ho] at h; cases h
  · rintro ⟨i, hi, ho, h⟩
    exact ⟨i, hi, by rw [if_pos ho, h]⟩

theorem lookup_of_index {t : hash_table V} {fuel k i : Nat}
    (h : hash_table__lookup fuel t k = some (i : Int)) :
    hash_table_lookup fuel t k = some (some (elem_at t i).val) := by
  unfold hash_table_lookup
  rw [h]
  simp

theorem lookup_of_neg {t : hash_table V} {fuel k : Nat}
    (h : hash_table__lookup fuel t k = some (-1)) :
    hash_table_lookup fuel t k = some none := by
  unfold hash_table_lookup
  rw [h]
  simp

/-- With pairwise distinct live keys, lookup of a key that has a live entry returns the
value of that entry. -/
theorem lookup_found {t : hash_table V} (hinv : Inv t)
    (hnd : ((live t).map fun e => e.key).Nodup) (k : Nat) (v : V)
    (hmem : entry_of k v ∈ live t) (fuel : Nat) (hf : t.cap ≤ fuel) :
    hash_table_lookup fuel t k = some (some v) := by
  obtain ⟨j, hj, hocc, hej⟩ := (mem_live _).mp hmem
  obtain ⟨i, hi, hl, hoi, _, hki⟩ := lookup_complete hinv.wf hinv.ord hj hocc k
    (by rw [hej]; rfl) (by rw [hej]; rfl) fuel hf
  rw [lookup_of_index hl]
  have hmi : elem_at t i ∈ live t := (mem_live _).mpr ⟨i, hi, hoi, rfl⟩
  have := List.inj_on_of_nodup_map hnd hmi hmem (by rw [hki]; rfl)
  rw [this]; rfl

/-- Lookup of a key that no live entry holds reports not-found. -/
theorem lookup_absent {t : hash_table V} (hw : WF t) (k : Nat)
    (hno : ∀ e, e ∈ live t → e.key ≠ k) (fuel : Nat) (hf : t.cap + 1 ≤ fuel) :
    hash_table__lookup fuel t k = some (-1) := by
  obtain ⟨res, hres⟩ := lookup_terminates hw k fuel hf
  rcases lookup_sound hw k fuel res hres with h | ⟨i, hi, _, hocc, _, hk⟩
  · rw [hres, h]
  · exact absurd hk (hno _ ((mem_live _).mpr ⟨i, hi, hocc, rfl⟩))

theorem mark_deleted_elem_at (t : hash_table V) (i j n : Nat) :
    elem_at { hash_table__mark_deleted t i with num_elems := n } j = elem_at t j := rfl

theorem mark_deleted_flag {t : hash_table V} {i : Nat} (hi : i < t.deleted.length)
    (j n : Nat) :
    hash_table__is_entry_deleted { hash_table__mark_deleted t i with num_elems := n } j =
      if j = i then true else hash_table__is_entry_deleted t j :=
  deleted_set t i j true hi

theorem mark_deleted_dist (t : hash_table V) (i j n : Nat) :
    dist { hash_table__mark_deleted t i with num_elems := n } j = dist t j := rfl

theorem delete_found {t : hash_table V} (hinv : Inv t)
    (hnd : ((live t).map fun e => e.key).Nodup) (k : Nat) (v : V)
    (hmem : entry_of k v ∈ live t) (hpos : 0 < t.num_elems) (hlt : t.num_elems < u32)
    (fuel : Nat) (hf : t.cap ≤ fuel) :
    ∃ t1, hash_table_delete fuel t k = some (true, t1) ∧ DeleteResult t k v t1 := by
  obtain ⟨j, hj, hocc, hej⟩ := (mem_live _).mp hmem
  obtain ⟨i, hi, hl, hoi, _, hki⟩ := lookup_complete hinv.wf hinv.ord hj hocc k
    (by rw [hej]; rfl) (by rw [hej]; rfl) fuel hf
  have hid : i < t.deleted.length := by rw [hinv.wf.len_deleted]; exact hi
  have hmi : elem_at t i ∈ live t := (mem_live _).mpr ⟨i, hi, hoi, rfl⟩
  have hei : elem_at t i = entry_of k v :=
    List.inj_on_of_nodup_map hnd hmi hmem (by rw [hki]; rfl)
  unfold hash_table_delete
  rw [hl]
  have hnn : ¬ ((i : Int) < 0) := by omega
  simp only [Option.map_some', if_neg hnn, Int.toNat_ofNat]
  have hsub : (t.num_elems + u32 - 1) % u32 = t.num_elems - 1 := by
    have : t.num_elems + u32 - 1 = (t.num_elems - 1) + u32 := by omega
    rw [this, Nat.add_mod_right]
    exact Nat.mod_eq_of_lt (by omega)
  refine ⟨_, rfl, ?_⟩
  have hw1 : WF { hash_table__mark_deleted t i with
      num_elems := ((hash_table__mark_deleted t i).num_elems + u32 - 1) % u32 } :=
    ⟨hinv.wf.pow, hinv.wf.mask_eq, hinv.wf.len_elems, by
      show (t.deleted.set i true).length = t.cap
      rw [List.length_set]; exact hinv.wf.len_deleted⟩
  have hperm : List.Perm (live t) (entry_of k v :: live { hash_table__mark_deleted t i with
      num_elems := ((hash_table__mark_deleted t i).num_elems + u32 - 1) % u32 }) := by
    have := collect_update t.cap
      (fun j => if occupied { hash_table__mark_deleted t i with
        num_elems := ((hash_table__mark_deleted t i).num_elems + u32 - 1) % u32 } j
        then some (elem_at t j) else none)
      (fun j => if occupied t j then some (elem_at t j) else none) i hi (by
        intro j hj
        unfold occupied
        simp only [mark_deleted_elem_at, mark_deleted_flag hid, if_neg hj])
    simp only [] at this
    have hno : ¬ occupied { hash_table__mark_deleted t i with
        num_elems := ((hash_table__mark_deleted t i).num_elems + u32 - 1) % u32 } i := by
      intro h
      have := h.2
      rw [mark_deleted_flag hid] at this
      simp at this
    rw [if_neg hno, if_pos hoi, hei] at this
    simp only [Option.toList, List.append_nil] at this
    exact this.trans List.perm_append_comm
  refine ⟨⟨hw1, ?_, ?_, hinv.thresh, ?_⟩, hperm, ?_, rfl, rfl, rfl⟩
  · intro a ha hne hd
    exact hinv.ord a ha hne hd
  · intro a ha h0
    rw [mark_deleted_flag hid]
    have hai : a ≠ i := by
      intro h; rw [h] at h0; exact hoi.1 h0
    rw [if_neg hai]
    exact hinv.clean a ha h0
  · intro e he
    exact hinv.hashok e (hperm.mem_iff.mpr (List.mem_cons_of_mem _ he))
  · show (t.num_elems + u32 - 1) % u32 + 1 = t.num_elems
    rw [hsub]; omega

theorem growth_floor_31 : growth_floor 31 = 34896612 := by decide

theorem growth_floor_32 : growth_floor 32 = 34896613 := by decide

theorem new_elem_at (i : Nat) : (elem_at (hash_table_new : hash_table V) i).hash = 0 := by
  unfold hash_table_new; rw [construct_elem_at]; rfl

theorem new_live : live (hash_table_new : hash_table V) = [] := by
  unfold live
  apply collect_none
  intro j _
  rw [if_neg]
  intro h
  exact h.1 (new_elem_at j)

theorem new_wf : WF (hash_table_new : hash_table V) :=
  construct_wf 4 (by decide) (by decide)

theorem new_inv : Inv (hash_table_new : hash_table V) where
  wf := new_wf
  ord := fun i _ hne => absurd (new_elem_at i) hne
  clean := fun i _ _ => construct_deleted _ i
  thresh := rfl
  hashok := fun e he => by rw [new_live] at he; cases he

theorem new_insInv : InsInv [] (hash_table_new : hash_table V) where
  inv := new_inv
  notomb := fun i _ => construct_deleted _ i
  perm := by rw [new_live]; exact List.Perm.refl _
  num := rfl
  lt_cap := by show 0 < 16; decide
  floor := ⟨4, le_refl _, rfl, Nat.le_of_eq (by decide : growth_floor 4 = 0)⟩

theorem pow_two_inj {a b : Nat} (h : 2 ^ a = 2 ^ b) : a = b :=
  Nat.pow_right_injective (le_refl 2) h

theorem insInv_step {done : List (Nat × V)} {t : hash_table V} (h : InsInv done t)
    (k : Nat) (v : V) (hlen : done.length + 1 ≤ 34896612) (fuel : Nat)
    (hfuel : 4294967296 ≤ fuel) :
    ∃ t1, hash_table_insert fuel t k v = some t1 ∧ InsInv (done ++ [(k, v)]) t1 := by
  obtain ⟨m, hm4, hcap, hfloor⟩ := h.floor
  obtain ⟨m', _, hm31, hcap'⟩ := h.inv.wf.pow
  have hmm : m = m' := pow_two_inj (hcap.symm.trans hcap')
  subst hmm
  have hcl := h.inv.wf.cap_le
  have hfl : (filled t).length = done.length := by
    rw [filled_length_of_notomb h.notomb, h.perm.length_eq, List.length_map]
  obtain ⟨t1, hins, res⟩ := insert_result h.inv k v
    (by rw [h.num]; unfold u32; omega)
    (by rw [hfl]; exact h.lt_cap)
    (by
      intro _
      rw [hcap]
      apply Nat.pow_le_pow_right (by decide)
      by_contra hcon
      have : m = 31 := by omega
      subst this
      rw [growth_floor_31] at hfloor
      omega)
    fuel (by omega)
  refine ⟨t1, hins, ?_⟩
  have hthr := thresh_of_le t.cap
  refine ⟨res.inv, res.notomb (Or.inr h.notomb), ?_, ?_, ?_, ?_⟩
  · rw [List.map_append]
    have pc : List.Perm ([entry_of k v] ++ done.map fun kv => entry_of kv.1 kv.2)
        ((done.map fun kv => entry_of kv.1 kv.2) ++ [entry_of k v]) := List.perm_append_comm
    exact res.perm.trans ((List.Perm.cons _ h.perm).trans pc)
  · rw [res.num_elems, h.num, List.length_append]; rfl
  · rw [List.length_append, res.cap]
    simp only [List.length_singleton]
    have := h.lt_cap
    split
    · omega
    · rw [h.inv.thresh, h.num] at *; omega
  · rw [res.cap, List.length_append]
    simp only [List.length_singleton]
    by_cases hg : t.resize_thresh ≤ t.num_elems + 1
    · rw [if_pos hg]
      refine ⟨m + 1, by omega, by rw [hcap, Nat.pow_succ]; ring, ?_⟩
      rw [growth_floor, if_neg (by omega)]
      rw [h.inv.thresh, h.num, hcap] at hg
      exact max_le (by omega) hg
    · rw [if_neg hg]
      exact ⟨m, hm4, hcap, by omega⟩

theorem insert_all_spec (fuel : Nat) (hfuel : 4294967296 ≤ fuel) :
    ∀ (rest done : List (Nat × V)) (t : hash_table V), InsInv done t →
      (done ++ rest).length ≤ 34896612 →
      ∃ t1, insert_all fuel t rest = some t1 ∧ InsInv (done ++ rest) t1 := by
  intro rest
  induction rest with
  | nil =>
    intro done t h _
    exact ⟨t, rfl, by rw [List.append_nil]; exact h⟩
  | cons kv rest ih =>
    intro done t h hlen
    rw [List.length_append, List.length_cons] at hlen
    obtain ⟨t1, hins, h1⟩ := insInv_step h kv.1 kv.2 (by omega) fuel hfuel
    obtain ⟨t2, hall, h2⟩ := ih (done ++ [(kv.1, kv.2)]) t1 h1 (by
      rw [List.length_append, List.length_append]; simp only [List.length_singleton]; omega)
    refine ⟨t2, ?_, ?_⟩
    · rw [insert_all, hins]; exact hall
    · have e : done ++ kv :: rest = done ++ [(kv.1, kv.2)] ++ rest := by simp
      rw [e]; exact h2

theorem InsInv.keys {kvs : List (Nat × V)} {t : hash_table V} (h : InsInv kvs t) :
    List.Perm ((live t).map fun e => e.key) (kvs.map Prod.fst) := by
  have := h.perm.map (fun e : hash_table_elem V => e.key)
  rw [List.map_map] at this
  exact this

theorem InsInv.mem {kvs : List (Nat × V)} {t : hash_table V} (h : InsInv kvs t)
    {k : Nat} {v : V} (hkv : (k, v) ∈ kvs) : entry_of k v ∈ live t :=
  h.perm.mem_iff.mpr (List.mem_map.mpr ⟨(k, v), hkv, rfl⟩)

theorem SameShape.refl (t : hash_table V) : SameShape t t :=
  ⟨rfl, rfl, rfl, rfl, rfl, rfl⟩

theorem SameShape.trans {a b c : hash_table V} (h1 : SameShape a b) (h2 : SameShape b c) :
    SameShape a c :=
  ⟨h2.cap.trans h1.cap, h2.mask.trans h1.mask, h2.num_elems.trans h1.num_elems,
    h2.thresh.trans h1.thresh, h2.len_e.trans h1.len_e, h2.len_d.trans h1.len_d⟩

theorem insert_loop_shape :
    ∀ (fuel : Nat) (t : hash_table V) (e : hash_table_elem V) (idx p : Nat)
      (t1 : hash_table V),
      hash_table__insert_loop fuel t e idx p = some t1 → SameShape t t1 := by
  intro fuel
  induction fuel with
  | zero => intro t e idx p t1 h; simp [hash_table__insert_loop] at h
  | succ fuel ih =>
    intro t e idx p t1 h
    rw [hash_table__insert_loop] at h
    by_cases hb : t.cap ≤ idx
    · rw [if_pos hb] at h; cases h
    rw [if_neg hb] at h
    by_cases h0 : (elem_at t idx).hash = 0
    · rw [if_pos h0] at h
      rw [← Option.some.inj h]
      exact ⟨rfl, rfl, rfl, rfl, by simp, rfl⟩
    · rw [if_neg h0] at h
      dsimp only at h
      by_cases h1 : hash_table__max_probes t (elem_at t idx).hash idx < p
      · rw [if_pos h1] at h
        by_cases h2 : hash_table__is_entry_deleted t idx = true
        · rw [if_pos h2] at h
          rw [← Option.some.inj h]
          exact ⟨rfl, rfl, rfl, rfl, by simp [hash_table__reset_deleted],
            by simp [hash_table__reset_deleted, set_bit_in_bitarray]⟩
        · rw [if_neg h2] at h
          have h3 := ih _ _ _ _ _ h
          have h4 : SameShape t { t with elems := t.elems.set idx e } :=
            ⟨rfl, rfl, rfl, rfl, by simp, rfl⟩
          exact h4.trans h3
      · rw [if_neg h1] at h
        exact ih _ _ _ _ _ h

theorem insert_shape' {fuel : Nat} {t t1 : hash_table V} {e : hash_table_elem V}
    (h : hash_table__insert fuel t e = some t1) : SameShape t t1 :=
  insert_loop_shape fuel t e _ _ t1 h

theorem foldlM_invariant {α β : Type} (P : α → Prop) (f : α → β → Option α)
    (hstep : ∀ a b a1, f a b = some a1 → P a → P a1) :
    ∀ (l : List β) (a a1 : α), l.foldlM f a = some a1 → P a → P a1 := by
  intro l
  induction l with
  | nil =>
    intro a a1 h hp
    simp only [List.foldlM_nil] at h
    rw [← Option.some.inj h]; exact hp
  | cons b l ih =>
    intro a a1 h hp
    rw [List.foldlM_cons] at h
    cases hf : f a b with
    | none => rw [hf] at h; simp at h
    | some a2 =>
      rw [hf] at h
      exact ih a2 a1 h (hstep a b a2 hf hp)

theorem grow_shape {fuel : Nat} {t t1 : hash_table V}
    (h : hash_table__grow fuel t = some t1) : GrownShape t t1 := by
  unfold hash_table__grow at h
  simp only [] at h
  have hs := foldlM_invariant
    (fun nt : hash_table V => SameShape
      { (hash_table__construct ((t.cap * 2) % u32) : hash_table V) with
        num_elems := t.num_elems } nt)
    (hash_table__grow_step fuel t)
    (by
      intro a b a1 hstep hp
      unfold hash_table__grow_step at hstep
      simp only [] at hstep
      split at hstep
      · exact hp.trans (insert_shape' hstep)
      · rw [← Option.some.inj hstep]; exact hp)
    _ _ _ h (SameShape.refl _)
  refine ⟨hs.cap, hs.num_elems, hs.thresh, ?_⟩
  rw [hs.len_e]
  simp [hash_table__construct]

/-- The growth trigger of the public insert, for any call that returns: the count is
incremented modulo `2^32`; when the incremented count reaches the threshold the table is
first grown and the entry placed into the grown table, otherwise it is placed directly. -/
theorem insert_shape {fuel : Nat} {t t1 : hash_table V} {k : Nat} {v : V}
    (h : hash_table_insert fuel t k v = some t1) :
    t1.num_elems = (t.num_elems + 1) % u32 ∧
    (t.resize_thresh ≤ (t.num_elems + 1) % u32 →
      ∃ tg, hash_table__grow fuel { t with num_elems := (t.num_elems + 1) % u32 } = some tg ∧
        hash_table__insert fuel tg (entry_of k v) = some t1 ∧
        t1.cap = (t.cap * 2) % u32 ∧ t1.resize_thresh = thresh_of ((t.cap * 2) % u32) ∧
        t1.elems.length = (t.cap * 2) % u32) ∧
    ((t.num_elems + 1) % u32 < t.resize_thresh →
      hash_table__insert fuel { t with num_elems := (t.num_elems + 1) % u32 }
        (entry_of k v) = some t1 ∧
      t1.cap = t.cap ∧ t1.resize_thresh = t.resize_thresh ∧
      t1.elems.length = t.elems.length) := by
  unfold hash_table_insert at h
  simp only [] at h
  by_cases hg : t.resize_thresh ≤ (t.num_elems + 1) % u32
  · rw [if_pos (show (t.num_elems + 1) % u32 ≥ t.resize_thresh from hg)] at h
    cases hgr : hash_table__grow fuel { t with num_elems := (t.num_elems + 1) % u32 } with
    | none => rw [hgr] at h; simp at h
    | some tg =>
      rw [hgr] at h
      simp only [Option.some_bind] at h
      have gs := grow_shape hgr
      have is := insert_shape' h
      refine ⟨by rw [is.num_elems, gs.num_elems], ?_, ?_⟩
      · intro _
        exact ⟨tg, rfl, h, by rw [is.cap, gs.cap], by rw [is.thresh, gs.thresh],
          by rw [is.len_e, gs.len_e]⟩
      · intro hlt; omega
  · rw [if_neg (show ¬ (t.num_elems + 1) % u32 ≥ t.resize_thresh from hg)] at h
    have is := insert_shape' h
    refine ⟨is.num_elems, ?_, ?_⟩
    · intro hge; exact absurd hge hg
    · intro _
      exact ⟨h, is.cap, is.thresh, is.len_e⟩

theorem growth_floor_succ (m : Nat) (hm : 4 ≤ m) :
    growth_floor (m + 1) = max (growth_floor m + 1) (thresh_of (2 ^ m)) := by
  rw [growth_floor, if_neg (by omega)]

theorem growth_floor_lt_succ (m : Nat) (hm : 4 ≤ m) :
    growth_floor m < growth_floor (m + 1) := by
  rw [growth_floor_succ m hm]
  exact lt_of_lt_of_le (Nat.lt_succ_self _) (le_max_left _ _)

theorem growth_floor_mono (a : Nat) (ha : 4 ≤ a) :
    ∀ d, growth_floor a ≤ growth_floor (a + d) := by
  intro d
  induction d with
  | zero => exact le_refl _
  | succ d ih =>
    have := growth_floor_lt_succ (a + d) (by omega)
    rw [← Nat.add_assoc]
    omega

theorem new_ctrlOK : CtrlOK (hash_table_new : hash_table V) where
  len := by simp [hash_table_new, hash_table__construct]
  thresh := rfl
  window := ⟨4, le_refl _, by decide, rfl,
    Nat.le_of_eq (by decide : growth_floor 4 = 0),
    (by decide : 0 < growth_floor 5)⟩

theorem new_num_elems : (hash_table_new : hash_table V).num_elems = 0 := rfl

theorem double_mod (m : Nat) (hm : m ≤ 30) : (2 ^ m * 2) % u32 = 2 ^ (m + 1) := by
  have : 2 ^ (m + 1) ≤ 2 ^ 31 := Nat.pow_le_pow_right (by decide) (by omega)
  rw [← Nat.pow_succ]
  exact Nat.mod_eq_of_lt (by unfold u32; norm_num at this; omega)

theorem double_mod_31 : (2 ^ 31 * 2) % u32 = 0 := by decide

theorem thresh_of_zero : thresh_of 0 = 0 := by decide

/-- An iteration of the placement loop at an index outside the `cap` slots gives no
result, whatever the fuel. -/
theorem insert_loop_out_of_bounds (fuel : Nat) (t : hash_table V) (e : hash_table_elem V)
    (idx p : Nat) (h : t.cap ≤ idx) : hash_table__insert_loop fuel t e idx p = none := by
  cases fuel with
  | zero => rfl
  | succ fuel => rw [hash_table__insert_loop, if_pos h]

/-- An iteration of the lookup loop at an index outside the `cap` slots gives no result,
whatever the fuel. -/
theorem lookup_loop_out_of_bounds (fuel : Nat) (t : hash_table V) (hash k idx np : Nat)
    (h : t.cap ≤ idx) : hash_table__lookup_loop t hash k fuel idx np = none := by
  cases fuel with
  | zero => rfl
  | succ fuel => rw [hash_table__lookup_loop, if_pos h]

/-- Placement into a table of capacity 0 gives no result: the home slot of every hash is
outside the empty slot array. -/
theorem insert_of_no_slots (fuel : Nat) (t : hash_table V) (e : hash_table_elem V)
    (h : t.cap = 0) : hash_table__insert fuel t e = none :=
  insert_loop_out_of_bounds fuel t e _ 0 (by rw [h]; exact Nat.zero_le _)

/-- An insert that returns leaves a table with at least one slot: the placement, which
ends every insert, gives no result on a table of capacity 0. -/
theorem insert_cap_ne_zero {fuel : Nat} {t t1 : hash_table V} {k : Nat} {v : V}
    (h : hash_table_insert fuel t k v = some t1) : t1.cap ≠ 0 := by
  intro h0
  obtain ⟨_, hgrow, hstay⟩ := insert_shape h
  by_cases hg : t.resize_thresh ≤ (t.num_elems + 1) % u32
  · obtain ⟨tg, _, hins, _⟩ := hgrow hg
    have hc : tg.cap = 0 := by rw [← (insert_shape' hins).cap]; exact h0
    rw [insert_of_no_slots fuel tg _ hc] at hins
    cases hins
  · obtain ⟨hins, _⟩ := hstay (by omega)
    have hc : ({ t with num_elems := (t.num_elems + 1) % u32 } : hash_table V).cap = 0 := by
      rw [← (insert_shape' hins).cap]; exact h0
    rw [insert_of_no_slots fuel _ _ hc] at hins
    cases hins

/-- An insert into a table whose doubled capacity wraps to 0 gives no result once the
incremented count has reached the threshold: growth builds a table without slots, and the
first access of the placement is outside it. -/
theorem insert_none_of_wrap (fuel : Nat) (t : hash_table V) (k : Nat) (v : V)
    (hcap : (t.cap * 2) % u32 = 0) (hthr : t.resize_thresh ≤ (t.num_elems + 1) % u32) :
    hash_table_insert fuel t k v = none := by
  cases h : hash_table_insert fuel t k v with
  | none => rfl
  | some t1 =>
    exfalso
    obtain ⟨_, hgrow, _⟩ := insert_shape h
    obtain ⟨_, _, _, hc1, _⟩ := hgrow hthr
    exact insert_cap_ne_zero h (by rw [hc1, hcap])

theorem ctrl_step {fuel : Nat} {t t1 : hash_table V} {k : Nat} {v : V} (hc : CtrlOK t)
    (hn : t.num_elems + 1 < u32) (h : hash_table_insert fuel t k v = some t1) :
    CtrlOK t1 ∧ t1.num_elems = t.num_elems + 1 := by
  obtain ⟨hnum, hgrow, hstay⟩ := insert_shape h
  rw [Nat.mod_eq_of_lt hn] at hnum hgrow hstay
  refine ⟨?_, hnum⟩
  obtain ⟨m, hm4, hm31, hcm, hlo, hhi⟩ := hc.window
  by_cases hg : t.resize_thresh ≤ t.num_elems + 1
  · obtain ⟨tg, _, _, hcap, hthr, hlen⟩ := hgrow hg
    refine ⟨by rw [hlen, hcap], by rw [hthr, hcap], ?_⟩
    rw [hc.thresh, hcm] at hg
    have hfl : growth_floor (m + 1) ≤ t.num_elems + 1 := by
      rw [growth_floor_succ m hm4]
      exact max_le (by omega) hg
    have h31 : m ≠ 31 := by
      intro h31
      subst h31
      exact insert_cap_ne_zero h (by rw [hcap, hcm]; exact double_mod_31)
    refine ⟨m + 1, by omega, by omega, by rw [hcap, hcm]; exact double_mod m (by omega),
      by rw [hnum]; exact hfl, ?_⟩
    have := growth_floor_lt_succ (m + 1) (by omega)
    rw [hnum]; omega
  · obtain ⟨_, hcap, hthr, hlen⟩ := hstay (by omega)
    refine ⟨by rw [hlen, hcap]; exact hc.len, by rw [hthr, hcap]; exact hc.thresh, ?_⟩
    refine ⟨m, hm4, hm31, by rw [hcap]; exact hcm, by rw [hnum]; omega, ?_⟩
    rw [hnum, growth_floor_succ m hm4]
    rw [hc.thresh, hcm] at hg
    exact lt_of_lt_of_le (by omega) (le_max_right _ _)

theorem ctrl_all (fuel : Nat) :
    ∀ (l : List (Nat × V)) (t t1 : hash_table V), CtrlOK t →
      t.num_elems + l.length < u32 → insert_all fuel t l = some t1 →
      CtrlOK t1 ∧ t1.num_elems = t.num_elems + l.length := by
  intro l
  induction l with
  | nil =>
    intro t t1 hc _ h
    rw [insert_all] at h
    rw [← Option.some.inj h]
    exact ⟨hc, rfl⟩
  | cons kv l ih =>
    intro t t1 hc hn h
    rw [List.length_cons] at hn
    rw [insert_all] at h
    cases hi : hash_table_insert fuel t kv.1 kv.2 with
    | none => rw [hi] at h; simp at h
    | some t2 =>
      rw [hi] at h
      simp only [Option.some_bind] at h
      obtain ⟨hc2, hn2⟩ := ctrl_step hc (by omega) hi
      obtain ⟨hc1, hn1⟩ := ih t2 t1 hc2 (by omega) h
      exact ⟨hc1, by rw [hn1, hn2, List.length_cons]; omega⟩

/-- No amount of fuel makes `34896613` inserts into a fresh table all return: they would
leave a live count that no capacity up to `2^31` admits. -/
theorem insert_all_none_of_many {fuel : Nat} {l : List (Nat × V)}
    (hl : l.length = 34896613) : insert_all fuel hash_table_new l = none := by
  cases h : insert_all fuel hash_table_new l with
  | none => rfl
  | some t =>
    exfalso
    obtain ⟨hc, hn⟩ := ctrl_all fuel l hash_table_new t new_ctrlOK
      (by rw [hl, new_num_elems]; unfold u32; omega) h
    have hn1 : t.num_elems = 34896613 := by rw [hn, hl, new_num_elems, Nat.zero_add]
    obtain ⟨m, hm4, hm31, hcm, hlo, hhi⟩ := hc.window
    have := growth_floor_mono (m + 1) (by omega) (31 - m)
    have e : m + 1 + (31 - m) = 32 := by omega
    rw [e, growth_floor_32] at this
    omega

/-- After `34896612` inserts into a fresh table the capacity is `2^31` and the resize
threshold has wrapped to `0`. -/
theorem cap_max_of_many {fuel : Nat} {l : List (Nat × V)} {t : hash_table V}
    (hl : l.length = 34896612) (h : insert_all fuel hash_table_new l = some t) :
    t.cap = 2 ^ 31 ∧ t.resize_thresh = 0 ∧ t.num_elems = 34896612 := by
  obtain ⟨hc, hn⟩ := ctrl_all fuel l hash_table_new t new_ctrlOK
    (by rw [hl, new_num_elems]; unfold u32; omega) h
  have hn1 : t.num_elems = 34896612 := by rw [hn, hl, new_num_elems, Nat.zero_add]
  obtain ⟨m, hm4, hm31, hcm, hlo, hhi⟩ := hc.window
  have hm : m = 31 := by
    by_contra hne
    have := growth_floor_mono (m + 1) (by omega) (30 - m)
    have e : m + 1 + (30 - m) = 31 := by omega
    rw [e, growth_floor_31] at this
    omega
  subst hm
  refine ⟨hcm, ?_, hn1⟩
  rw [hc.thresh, hcm]; decide

theorem distinct_pairs_nodup (n : Nat) : ((distinct_pairs n).map Prod.fst).Nodup := by
  unfold distinct_pairs
  rw [List.map_map]
  have : (Prod.fst ∘ fun k : Nat => (k, 0)) = id := rfl
  rw [this, List.map_id]
  exact List.nodup_range n

theorem distinct_pairs_length (n : Nat) : (distinct_pairs n).length = n := by
  simp [distinct_pairs]

theorem mem_distinct_pairs {n k : Nat} (h : k < n) : (k, 0) ∈ distinct_pairs n := by
  unfold distinct_pairs
  exact List.mem_map.mpr ⟨k, List.mem_range.mpr h, rfl⟩

theorem insert_loop_from_succ (fuel : Nat) (s : loop_state V) :
    insert_loop_from (fuel + 1) s =
      match insert_loop_step s with
      | none => none
      | some (Sum.inl r) => some r
      | some (Sum.inr s1) => insert_loop_from fuel s1 := by
  unfold insert_loop_from insert_loop_step
  rw [hash_table__insert_loop]
  by_cases hb : s.table.cap ≤ s.idx
  · rw [if_pos hb, if_pos hb]
  rw [if_neg hb, if_neg hb]
  by_cases h0 : (elem_at s.table s.idx).hash = 0
  · rw [if_pos h0, if_pos h0]
  · rw [if_neg h0, if_neg h0]
    dsimp only
    by_cases h1 : hash_table__max_probes s.table (elem_at s.table s.idx).hash s.idx <
        s.to_insert_elem_probes
    · rw [if_pos h1, if_pos h1]
      by_cases h2 : hash_table__is_entry_deleted s.table s.idx = true
      · rw [if_pos h2, if_pos h2]
      · rw [if_neg h2, if_neg h2]
    · rw [if_neg h1, if_neg h1]

theorem insert_loop_from_iter :
    ∀ (n : Nat) (s s1 : loop_state V), insert_loop_iter n s = some (Sum.inr s1) →
      ∀ fuel, insert_loop_from (fuel + n) s = insert_loop_from fuel s1 := by
  intro n
  induction n with
  | zero =>
    intro s s1 h fuel
    rw [insert_loop_iter] at h
    rw [Sum.inr.inj (Option.some.inj h)]; rfl
  | succ n ih =>
    intro s s1 h fuel
    rw [insert_loop_iter] at h
    rw [← Nat.add_assoc, insert_loop_from_succ]
    cases hs : insert_loop_step s with
    | none => rw [hs] at h; cases h
    | some o =>
      cases o with
      | inl r => rw [hs] at h; cases h
      | inr s2 =>
        rw [hs] at h
        exact ih s2 s1 h fuel

/-- More fuel does not change a result already obtained. -/
theorem insert_loop_from_mono :
    ∀ (fuel : Nat) (s : loop_state V) (r : hash_table V),
      insert_loop_from fuel s = some r → ∀ d, insert_loop_from (fuel + d) s = some r := by
  intro fuel
  induction fuel with
  | zero => intro s r h; simp [insert_loop_from, hash_table__insert_loop] at h
  | succ fuel ih =>
    intro s r h d
    have e : fuel + 1 + d = (fuel + d) + 1 := by omega
    rw [e, insert_loop_from_succ]
    rw [insert_loop_from_succ] at h
    cases hs : insert_loop_step s with
    | none => rw [hs] at h; cases h
    | some o =>
      cases o with
      | inl r1 => rw [hs] at h; exact h
      | inr s1 => rw [hs] at h; exact ih s1 r h d

/-- A loop state that recurs after a positive number of iterations is never left: the
loop does not return, whatever the fuel. -/
theorem insert_loop_from_cycle (s : loop_state V) (n : Nat) (hn : 0 < n)
    (hc : insert_loop_iter n s = some (Sum.inr s)) :
    ∀ fuel, insert_loop_from fuel s = none := by
  intro fuel
  induction fuel using Nat.strong_induction_on with
  | _ fuel ih =>
    by_cases hf : n ≤ fuel
    · have e : fuel = (fuel - n) + n := by omega
      rw [e, insert_loop_from_iter n s s hc]
      exact ih _ (by omega)
    · cases hr : insert_loop_from fuel s with
      | none => rfl
      | some r =>
        exfalso
        have h1 := insert_loop_from_mono fuel s r hr (n - fuel)
        have e : fuel + (n - fuel) = 0 + n := by omega
        rw [e, insert_loop_from_iter n s s hc] at h1
        simp [insert_loop_from, hash_table__insert_loop] at h1

/-- A loop state from which a never-returning state is reached does not return either. -/
theorem insert_loop_from_reaches (s s1 : loop_state V) (n : Nat)
    (hr : insert_loop_iter n s = some (Sum.inr s1))
    (h1 : ∀ fuel, insert_loop_from fuel s1 = none) :
    ∀ fuel, insert_loop_from fuel s = none := by
  intro fuel
  by_cases hf : n ≤ fuel
  · have e : fuel = (fuel - n) + n := by omega
    rw [e, insert_loop_from_iter n s s1 hr]
    exact h1 _
  · cases hres : insert_loop_from fuel s with
    | none => rfl
    | some r =>
      exfalso
      have h2 := insert_loop_from_mono fuel s r hres (n - fuel)
      have e : fuel + (n - fuel) = 0 + n := by omega
      rw [e, insert_loop_from_iter n s s1 hr, h1] at h2
      cases h2

/-- Iterations compose. -/
theorem insert_loop_iter_add :
    ∀ (a b : Nat) (s s1 : loop_state V), insert_loop_iter a s = some (Sum.inr s1) →
      insert_loop_iter (a + b) s = insert_loop_iter b s1 := by
  intro a
  induction a with
  | zero =>
    intro b s s1 h
    rw [insert_loop_iter] at h
    rw [Sum.inr.inj (Option.some.inj h), Nat.zero_add]
  | succ a ih =>
    intro b s s1 h
    rw [insert_loop_iter] at h
    have e : a + 1 + b = (a + b) + 1 := by omega
    rw [e, insert_loop_iter]
    cases hs : insert_loop_step s with
    | none => rw [hs] at h; cases h
    | some o =>
      cases o with
      | inl r => rw [hs] at h; cases h
      | inr s2 =>
        rw [hs] at h
        exact ih b s2 s1 h

/-- From a loop state that recurs after `n > 0` iterations the loop is still running after
every number of iterations. -/
theorem still_running_of_cycle (s : loop_state V) (n : Nat) (hn : 0 < n)
    (hc : insert_loop_iter n s = some (Sum.inr s))
    (hlt : ∀ j, j < n → still_running (insert_loop_iter j s) = true) :
    ∀ j, still_running (insert_loop_iter j s) = true := by
  intro j
  induction j using Nat.strong_induction_on with
  | _ j ih =>
    by_cases hj : j < n
    · exact hlt j hj
    · have e : j = n + (j - n) := by omega
      rw [e, insert_loop_iter_add n (j - n) s s hc]
      exact ih _ (by omega)

set_option maxRecDepth 100000 in
theorem stuck_reach : insert_loop_iter 17
    ⟨{ stuck_table with num_elems := 13 }, entry_of 241 0, 0, 0⟩ =
      some (Sum.inr stuck_state) := by
  decide

set_option maxRecDepth 100000 in
theorem stuck_cycle : insert_loop_iter 32 stuck_state = some (Sum.inr stuck_state) := by
  decide

set_option maxRecDepth 100000 in
theorem stuck_insert_eq (fuel : Nat) :
    hash_table_insert fuel stuck_table 241 0 =
      insert_loop_from fuel ⟨{ stuck_table with num_elems := 13 }, entry_of 241 0, 0, 0⟩ := by
  have hT : ({ stuck_table with num_elems := (stuck_table.num_elems + 1) % u32 } :
      hash_table Nat) = { stuck_table with num_elems := 13 } := by decide
  have hI : hash_table__hash_idx ({ stuck_table with num_elems := 13 } : hash_table Nat)
      (entry_of 241 (0 : Nat)).hash = 0 := by decide
  have hc : ¬ ((stuck_table.num_elems + 1) % u32 ≥ stuck_table.resize_thresh) := by decide
  unfold hash_table_insert
  dsimp only
  rw [if_neg hc]
  show hash_table__insert_loop fuel
      ({ stuck_table with num_elems := (stuck_table.num_elems + 1) % u32 })
      (entry_of 241 0)
      (hash_table__hash_idx
        ({ stuck_table with num_elems := (stuck_table.num_elems + 1) % u32 })
        (entry_of 241 (0 : Nat)).hash) 0 =
    hash_table__insert_loop fuel ({ stuck_table with num_elems := 13 }) (entry_of 241 0) 0 0
  rw [hT, hI]

set_option maxRecDepth 100000 in
/-- The placement loop of the insert of key `241` into `stuck_table` is still running after
every number of iterations: none of them returns, and none is at an index outside the
array. -/
theorem stuck_running (j : Nat) :
    still_running (insert_loop_iter j
      ⟨{ stuck_table with num_elems := 13 }, entry_of 241 0, 0, 0⟩) = true := by
  by_cases hj : j < 17
  · have h : ∀ i, i < 17 → still_running (insert_loop_iter i
        ⟨{ stuck_table with num_elems := 13 }, entry_of 241 0, 0, 0⟩) = true := by decide
    exact h j hj
  · have e : j = 17 + (j - 17) := by omega
    rw [e, insert_loop_iter_add 17 (j - 17) _ stuck_state stuck_reach]
    exact still_running_of_cycle stuck_state 32 (by decide) stuck_cycle (by decide) _

theorem stuck_forever (fuel : Nat) : hash_table_insert fuel stuck_table 241 0 = none := by
  rw [stuck_insert_eq]
  exact insert_loop_from_reaches _ stuck_state 17 stuck_reach
    (insert_loop_from_cycle stuck_state 32 (by decide) stuck_cycle) fuel

/-- Whatever the table, an index returned by the lookup loop is that of an occupied slot
holding the searched hash and key. -/
theorem lookup_loop_result (t : hash_table V) (hash k : Nat) :
    ∀ (fuel idx np i : Nat),
      hash_table__lookup_loop t hash k fuel idx np = some (i : Int) →
      occupied t i ∧ (elem_at t i).hash = hash ∧ (elem_at t i).key = k := by
  intro fuel
  induction fuel with
  | zero => intro idx np i h; simp [hash_table__lookup_loop] at h
  | succ fuel ih =>
    intro idx np i h
    rw [hash_table__lookup_loop] at h
    by_cases hb : t.cap ≤ idx
    · rw [if_pos hb] at h; cases h
    rw [if_neg hb] at h
    by_cases h0 : (elem_at t idx).hash = 0
    · rw [if_pos h0] at h
      have := Option.some.inj h
      omega
    · rw [if_neg h0] at h
      by_cases h1 : np > hash_table__max_probes t (elem_at t idx).hash idx
      · rw [if_pos h1] at h
        have := Option.some.inj h
        omega
      · rw [if_neg h1] at h
        split at h
        · next hm =>
          have hi : idx = i := by
            have := Option.some.inj h
            omega
          subst hi
          exact ⟨⟨h0, by simpa using hm.1⟩, hm.2.1, hm.2.2⟩
        · exact ih _ _ i h

theorem lt_length_of_hash_ne {t : hash_table V} {i : Nat} (h : (elem_at t i).hash ≠ 0) :
    i < t.elems.length := by
  by_contra hcon
  apply h
  unfold elem_at
  rw [List.getD_eq_getElem?_getD, List.getElem?_eq_none (by omega)]
  rfl

/-- Growth of a table all of whose slots are empty returns the fresh table. -/
theorem grow_of_empty (fuel : Nat) (t : hash_table V) (h : ∀ i, (elem_at t i).hash = 0) :
    hash_table__grow fuel t =
      some { (hash_table__construct ((t.cap * 2) % u32) : hash_table V) with
        num_elems := t.num_elems } := by
  unfold hash_table__grow
  dsimp only
  generalize ({ (hash_table__construct ((t.cap * 2) % u32) : hash_table V) with
        num_elems := t.num_elems } : hash_table V) = nt
  induction (List.range t.cap) generalizing nt with
  | nil => rfl
  | cons i l ih =>
    rw [List.foldlM_cons]
    have : hash_table__grow_step fuel t nt i = some nt := by
      unfold hash_table__grow_step
      dsimp only
      rw [if_neg]
      intro hc
      exact hc.1 (h i)
    rw [this]
    exact ih nt

theorem insert_loop_placed :
    ∀ (fuel : Nat) (t : hash_table V) (e : hash_table_elem V) (idx p : Nat)
      (t1 : hash_table V), WF t → Clean t → e.hash ≠ 0 → idx < t.cap →
      hash_table__insert_loop fuel t e idx p = some t1 → PlacedInto t e t1 := by
  intro fuel
  induction fuel with
  | zero => intro t e idx p t1 _ _ _ _ h; simp [hash_table__insert_loop] at h
  | succ fuel ih =>
    intro t e idx p t1 hw hc he hi h
    rw [hash_table__insert_loop, if_neg (Nat.not_le.mpr hi)] at h
    by_cases h0 : (elem_at t idx).hash = 0
    · rw [if_pos h0] at h
      rw [← Option.some.inj h]
      have u := slotUpdate_set hw hi e
      have hocc : ¬ occupied t idx := fun ho => ho.1 h0
      have hocc1 : occupied { t with elems := t.elems.set idx e } idx :=
        ⟨by rw [u.at_idx]; exact he, hc idx hi h0⟩
      refine ⟨u.wf hw, u.clean hc he, ?_, fun hn => u.notomb hn (hn idx hi)⟩
      have hp := u.live_perm hi
      rw [if_neg hocc, if_pos hocc1, u.at_idx] at hp
      simp only [Option.toList, List.append_nil] at hp
      exact hp.trans List.perm_append_comm
    · rw [if_neg h0] at h
      dsimp only at h
      rw [next_idx_eq hw hi] at h
      have hnx : nxt t.cap idx < t.cap := nxt_lt _ _ (by have := hw.two_le; omega)
      by_cases h1 : hash_table__max_probes t (elem_at t idx).hash idx < p
      · rw [if_pos h1] at h
        by_cases h2 : hash_table__is_entry_deleted t idx = true
        · rw [if_pos h2] at h
          rw [← Option.some.inj h]
          have u := slotUpdate_reset_set hw hi e
          have hdel1 := reset_set_deleted hw hi e
          have hocc : ¬ occupied t idx := fun ho => by rw [ho.2] at h2; cases h2
          have hocc1 : occupied { hash_table__reset_deleted t idx with
              elems := (hash_table__reset_deleted t idx).elems.set idx e } idx :=
            ⟨by rw [u.at_idx]; exact he, hdel1⟩
          refine ⟨u.wf hw, u.clean hc he, ?_, fun hn => u.notomb hn hdel1⟩
          have hp := u.live_perm hi
          rw [if_neg hocc, if_pos hocc1, u.at_idx] at hp
          simp only [Option.toList, List.append_nil] at hp
          exact hp.trans List.perm_append_comm
        · rw [if_neg h2] at h
          have hdelf : hash_table__is_entry_deleted t idx = false := by
            cases hd : hash_table__is_entry_deleted t idx
            · rfl
            · exact absurd hd h2
          have u := slotUpdate_set hw hi e
          have post := ih { t with elems := t.elems.set idx e } (elem_at t idx) _ _ t1
            (u.wf hw) (u.clean hc he) h0 hnx h
          have hocc : occupied t idx := ⟨h0, hdelf⟩
          have hocc1 : occupied { t with elems := t.elems.set idx e } idx :=
            ⟨by rw [u.at_idx]; exact he, hdelf⟩
          refine ⟨post.wf, post.clean, ?_, fun hn => post.notomb (u.notomb hn hdelf)⟩
          have hp := u.live_perm hi
          rw [if_pos hocc, if_pos hocc1, u.at_idx] at hp
          simp only [Option.toList] at hp
          have p1 : List.Perm (elem_at t idx :: live { t with elems := t.elems.set idx e })
              (e :: live t) :=
            (List.perm_append_comm.trans hp).trans List.perm_append_comm
          exact post.perm.trans p1
      · rw [if_neg h1] at h
        exact ih t e _ _ t1 hw hc he hnx h

theorem insert_placed {fuel : Nat} {t t1 : hash_table V} {e : hash_table_elem V}
    (hw : WF t) (hc : Clean t) (he : e.hash ≠ 0)
    (h : hash_table__insert fuel t e = some t1) : PlacedInto t e t1 :=
  insert_loop_placed fuel t e _ 0 t1 hw hc he (hash_idx_lt hw _) h

theorem foldlM_snoc_some {α β : Type} (f : α → β → Option α) (l : List β) (b : β)
    (a a1 : α) (h : (l ++ [b]).foldlM f a = some a1) :
    ∃ a2, l.foldlM f a = some a2 ∧ f a2 b = some a1 := by
  rw [List.foldlM_append] at h
  cases hl : l.foldlM f a with
  | none => rw [hl] at h; simp at h
  | some a2 =>
    rw [hl] at h
    simp only [Option.bind_eq_bind, Option.some_bind, List.foldlM_cons, List.foldlM_nil] at h
    refine ⟨a2, rfl, ?_⟩
    cases hf : f a2 b with
    | none => rw [hf] at h; simp at h
    | some a3 =>
      rw [hf] at h
      simp only [Option.some_bind] at h
      exact h

theorem grow_loop_grown {t : hash_table V} (m : Nat) (hm : m ≤ 30) (hcap : t.cap = 2 ^ m)
    (fuel : Nat) :
    ∀ i nt,
      (List.range i).foldlM (hash_table__grow_step fuel t)
        { (hash_table__construct ((t.cap * 2) % u32) : hash_table V) with
          num_elems := t.num_elems } = some nt → GrownInto t i nt := by
  have hmod : (t.cap * 2) % u32 = 2 ^ (m + 1) := by rw [hcap]; exact double_mod m hm
  intro i
  induction i with
  | zero =>
    intro nt h
    simp only [List.range_zero, List.foldlM_nil] at h
    have h1 := Option.some.inj h
    rw [← h1, hmod]
    have hw : WF (hash_table__construct (2 ^ (m + 1)) : hash_table V) :=
      construct_wf (m + 1) (by omega) (by omega)
    refine ⟨⟨hw.pow, hw.mask_eq, hw.len_elems, hw.len_deleted⟩, ?_, ?_, ?_⟩
    · intro j _ _; exact fresh_deleted _ _ j
    · intro j _; exact fresh_deleted _ _ j
    · have : live ({ (hash_table__construct (2 ^ (m + 1)) : hash_table V) with
          num_elems := t.num_elems }) = [] := by
        unfold live
        apply collect_none
        intro j _
        rw [if_neg]
        intro ho
        exact ho.1 (fresh_hash _ _ j)
      rw [this]; exact List.Perm.refl _
  | succ i ih =>
    intro nt h
    rw [List.range_succ] at h
    obtain ⟨a, ha, hstep⟩ := foldlM_snoc_some _ _ _ _ _ h
    have inv := ih a ha
    unfold hash_table__grow_step at hstep
    dsimp only at hstep
    by_cases hocc : occupied t i
    · have hcond : (elem_at t i).hash ≠ 0 ∧ (!hash_table__is_entry_deleted t i) = true :=
        ⟨hocc.1, by simp [hocc.2]⟩
      rw [if_pos hcond] at hstep
      have post := insert_placed inv.wf inv.clean hocc.1 hstep
      refine ⟨post.wf, post.clean, post.notomb inv.notomb, ?_⟩
      rw [collect_succ, if_pos hocc]
      have pc : List.Perm ([elem_at t i] ++ collect i fun j =>
          if occupied t j then some (elem_at t j) else none)
          ((collect i fun j => if occupied t j then some (elem_at t j) else none) ++
            [elem_at t i]) := List.perm_append_comm
      exact post.perm.trans ((List.Perm.cons _ inv.perm).trans pc)
    · have hcond : ¬ ((elem_at t i).hash ≠ 0 ∧ (!hash_table__is_entry_deleted t i) = true) := by
        intro hc
        exact hocc ⟨hc.1, by simpa using hc.2⟩
      rw [if_neg hcond] at hstep
      rw [← Option.some.inj hstep]
      refine ⟨inv.wf, inv.clean, inv.notomb, ?_⟩
      rw [collect_succ, if_neg hocc]
      simpa using inv.perm

/-- A growth that returns, from a capacity `2^m` with `m ≤ 30`, has built a well-formed
table without tombstones holding the live entries of the old table. -/
theorem grow_grown {t nt : hash_table V} (m : Nat) (hm : m ≤ 30) (hcap : t.cap = 2 ^ m)
    {fuel : Nat} (h : hash_table__grow fuel t = some nt) :
    WF nt ∧ Clean nt ∧ NoTomb nt ∧ List.Perm (live nt) (live t) := by
  have g := grow_loop_grown m hm hcap fuel t.cap nt h
  exact ⟨g.wf, g.clean, g.notomb, g.perm⟩

theorem thresh_of_double_lt (c : Nat) (hc : 16 ≤ c) (hfit : 2 * c * 90 < 4294967296) :
    thresh_of c < thresh_of (2 * c) := by
  unfold thresh_of hash_table_load_factor_to_grow u32
  rw [Nat.mod_eq_of_lt (by omega), Nat.mod_eq_of_lt (by omega)]
  omega

/-- A public insert that returns keeps the invariant of reachable states: the count grows
by one, the new entry joins the live entries, and the capacity is kept or doubled. An
insert that would double the capacity `2^31` does not return. -/
theorem sane_insert {fuel : Nat} {t t1 : hash_table V} {k : Nat} {v : V} (hs : Sane t)
    (h : hash_table_insert fuel t k v = some t1) :
    Sane t1 ∧ List.Perm (live t1) (entry_of k v :: live t) ∧
      t1.num_elems = t.num_elems + 1 ∧
      t1.cap = (if t.resize_thresh ≤ t.num_elems + 1 then 2 * t.cap else t.cap) := by
  have hcl := hs.wf.cap_le
  have hlen : (live t).length ≤ t.cap := collect_length_le _ _
  have hn : t.num_elems + 1 < u32 := by rw [hs.count]; unfold u32; omega
  obtain ⟨hnum, hgrow, hstay⟩ := insert_shape h
  rw [Nat.mod_eq_of_lt hn] at hnum hgrow hstay
  have he : (entry_of k v).hash ≠ 0 := fix_hash_ne_zero _
  by_cases hg : t.resize_thresh ≤ t.num_elems + 1
  · obtain ⟨tg, hgr, hins, hcap1, hthr1, _⟩ := hgrow hg
    obtain ⟨m, hm1, hm31, hcm⟩ := hs.wf.pow
    have h31 : m ≠ 31 := by
      intro h31
      subst h31
      exact insert_cap_ne_zero h (by rw [hcap1, hcm]; exact double_mod_31)
    have hm30 : m ≤ 30 := by omega
    obtain ⟨gw, gc, gn, gp⟩ := grow_grown (t := { t with num_elems := t.num_elems + 1 })
      m hm30 hcm hgr
    have post := insert_placed gw gc he hins
    have hp : List.Perm (live t1) (entry_of k v :: live t) :=
      post.perm.trans (List.Perm.cons _ gp)
    have hdm : (t.cap * 2) % u32 = 2 * t.cap := by
      rw [hcm, double_mod m hm30, Nat.pow_succ]; ring
    rw [hdm] at hcap1 hthr1
    refine ⟨⟨post.wf, by rw [hcap1]; have := hs.cap16; omega, post.clean,
      by rw [hthr1, hcap1], ?_, ?_⟩, hp, hnum, by rw [if_pos hg]; exact hcap1⟩
    · rw [hnum, hp.length_eq, List.length_cons, hs.count]
    · intro hfit
      rw [hcap1] at hfit
      have hb := hs.below (by omega)
      rw [hs.thresh] at hb
      have := thresh_of_double_lt t.cap hs.cap16 (by omega)
      rw [hnum, hthr1]
      omega
  · obtain ⟨hins, hcap1, hthr1, _⟩ := hstay (by omega)
    have hw1 : WF { t with num_elems := t.num_elems + 1 } :=
      ⟨hs.wf.pow, hs.wf.mask_eq, hs.wf.len_elems, hs.wf.len_deleted⟩
    have post := insert_placed hw1 hs.clean he hins
    have hp : List.Perm (live t1) (entry_of k v :: live t) := post.perm
    refine ⟨⟨post.wf, by rw [hcap1]; exact hs.cap16, post.clean,
      by rw [hthr1, hcap1]; exact hs.thresh, ?_, ?_⟩, hp, hnum, by rw [if_neg hg]; exact hcap1⟩
    · rw [hnum, hp.length_eq, List.length_cons, hs.count]
    · intro _
      rw [hnum, hthr1]; omega

/-- A public delete that returns keeps the invariant of reachable states. -/
theorem sane_delete {fuel : Nat} {t t1 : hash_table V} {k : Nat} {b : Bool} (hs : Sane t)
    (h : hash_table_delete fuel t k = some (b, t1)) : Sane t1 := by
  unfold hash_table_delete at h
  cases hl : hash_table__lookup fuel t k with
  | none => rw [hl] at h; simp at h
  | some res =>
    rw [hl] at h
    simp only [Option.map_some', Option.some.injEq] at h
    rcases lookup_sound hs.wf k fuel res hl with hneg | ⟨i, hi, hres, hocc, _, _⟩
    · rw [hneg] at h
      rw [if_pos (by decide)] at h
      rw [← (Prod.mk.inj h).2]
      exact hs
    · rw [hres] at h
      have hnn : ¬ ((i : Int) < 0) := by omega
      rw [if_neg hnn] at h
      simp only [Int.toNat_ofNat] at h
      have hid : i < t.deleted.length := by rw [hs.wf.len_deleted]; exact hi
      have hmem : elem_at t i ∈ live t := (mem_live _).mpr ⟨i, hi, hocc, rfl⟩
      have hpos : 0 < (live t).length := List.length_pos_of_mem hmem
      have hlen : (live t).length ≤ t.cap := collect_length_le _ _
      have hcl := hs.wf.cap_le
      have hsub : (t.num_elems + u32 - 1) % u32 = t.num_elems - 1 := by
        have e : t.num_elems + u32 - 1 = (t.num_elems - 1) + u32 := by
          rw [hs.count]; unfold u32; omega
        rw [e, Nat.add_mod_right]
        exact Nat.mod_eq_of_lt (by rw [hs.count]; unfold u32; omega)
      have hperm : List.Perm (live t) (elem_at t i :: live { hash_table__mark_deleted t i with
          num_elems := ((hash_table__mark_deleted t i).num_elems + u32 - 1) % u32 }) := by
        have hu := collect_update t.cap
          (fun j => if occupied { hash_table__mark_deleted t i with
            num_elems := ((hash_table__mark_deleted t i).num_elems + u32 - 1) % u32 } j
            then some (elem_at t j) else none)
          (fun j => if occupied t j then some (elem_at t j) else none) i hi (by
            intro j hj
            unfold occupied
            simp only [mark_deleted_elem_at, mark_deleted_flag hid, if_neg hj])
        simp only [] at hu
        have hno : ¬ occupied { hash_table__mark_deleted t i with
            num_elems := ((hash_table__mark_deleted t i).num_elems + u32 - 1) % u32 } i := by
          intro ho
          have h2 := ho.2
          rw [mark_deleted_flag hid] at h2
          simp at h2
        rw [if_neg hno, if_pos hocc] at hu
        simp only [Option.toList, List.append_nil] at hu
        exact hu.trans List.perm_append_comm
      rw [← (Prod.mk.inj h).2]
      have hlen1 := hperm.length_eq
      rw [List.length_cons] at hlen1
      dsimp only at hlen1
      refine ⟨⟨hs.wf.pow, hs.wf.mask_eq, hs.wf.len_elems, by
          show (t.deleted.set i true).length = t.cap
          rw [List.length_set]; exact hs.wf.len_deleted⟩, hs.cap16, ?_, hs.thresh, ?_, ?_⟩
      · intro a ha h0
        rw [mark_deleted_flag hid]
        have hai : a ≠ i := by
          intro hc; rw [hc] at h0; exact hocc.1 h0
        rw [if_neg hai]
        exact hs.clean a ha h0
      · show (t.num_elems + u32 - 1) % u32 = _
        rw [hsub, hs.count]; omega
      · intro hfit
        show (t.num_elems + u32 - 1) % u32 < t.resize_thresh
        have := hs.below hfit
        rw [hsub]; omega

theorem new_sane : Sane (hash_table_new : hash_table V) where
  wf := new_wf
  cap16 := le_refl _
  clean := fun i _ _ => construct_deleted _ i
  thresh := rfl
  count := by rw [new_live]; rfl
  below := fun _ => by show 0 < 14; decide

/-- Every state reached from a state satisfying the invariant by public calls that return
satisfies it. -/
theorem run_ops_sane (fuel : Nat) :
    ∀ (ops : List (hash_table_op V)) (t t1 : hash_table V), Sane t →
      run_ops fuel t ops = some t1 → Sane t1 := by
  intro ops
  induction ops with
  | nil =>
    intro t t1 hr h
    rw [run_ops] at h
    rw [← Option.some.inj h]; exact hr
  | cons op ops ih =>
    intro t t1 hr h
    cases op with
    | insert k v =>
      rw [run_ops] at h
      cases hi : hash_table_insert fuel t k v with
      | none => rw [hi] at h; simp at h
      | some t2 =>
        rw [hi] at h
        simp only [Option.some_bind] at h
        exact ih t2 t1 (sane_insert hr hi).1 h
    | delete k =>
      rw [run_ops] at h
      cases hd : hash_table_delete fuel t k with
      | none => rw [hd] at h; simp at h
      | some r =>
        rw [hd] at h
        simp only [Option.some_bind] at h
        exact ih r.2 t1 (sane_delete (b := r.1) hr (by rw [hd])) h

/-- Every state reached from a fresh table by public calls that return satisfies the
invariant of reachable states. -/
theorem reachable_sane {fuel : Nat} {ops : List (hash_table_op V)} {t : hash_table V}
    (h : run_ops fuel hash_table_new ops = some t) : Sane t :=
  run_ops_sane fuel ops hash_table_new t new_sane h

theorem insert_all_append (fuel : Nat) :
    ∀ (l1 l2 : List (Nat × V)) (t : hash_table V),
      insert_all fuel t (l1 ++ l2) =
        (insert_all fuel t l1).bind fun t1 => insert_all fuel t1 l2 := by
  intro l1
  induction l1 with
  | nil => intro l2 t; rfl
  | cons kv l1 ih =>
    intro l2 t
    rw [List.cons_append, insert_all, insert_all]
    cases hi : hash_table_insert fuel t kv.1 kv.2 with
    | none => rfl
    | some t1 => simp only [Option.some_bind]; exact ih l2 t1

theorem distinct_pairs_succ (n : Nat) :
    distinct_pairs (n + 1) = distinct_pairs n ++ [(n, 0)] := by
  unfold distinct_pairs
  rw [List.range_succ, List.map_append]
  rfl

/-- No amount of fuel makes the inserts of a list of `34896613` or more pairs into a fresh
table all return, whatever the keys. -/
theorem insert_all_none_of_long (fuel : Nat) (l : List (Nat × V))
    (hl : 34896613 ≤ l.length) : insert_all fuel hash_table_new l = none := by
  have e : l = l.take 34896613 ++ l.drop 34896613 := (List.take_append_drop _ _).symm
  rw [e, insert_all_append,
    insert_all_none_of_many (by rw [List.length_take]; exact Nat.min_eq_left hl)]
  rfl

/-- The inserts of the `34896612` keys `0, …, 34896611` into a fresh table return, given
`2^32` iterations of fuel; the table they leave has capacity `2^31`, its threshold has
wrapped to 0, and its doubled capacity wraps to 0. -/
theorem max_table_reached :
    ∃ t, insert_all 4294967296 hash_table_new (distinct_pairs 34896612) = some t ∧
      t.cap = 2 ^ 31 ∧ t.resize_thresh = 0 ∧ t.num_elems = 34896612 ∧
      (t.cap * 2) % u32 = 0 := by
  obtain ⟨t, hall, _⟩ := insert_all_spec 4294967296 (le_refl _)
    (distinct_pairs 34896612) [] hash_table_new new_insInv
    (by rw [List.nil_append, distinct_pairs_length])
  obtain ⟨hcap, hthr, hnum⟩ := cap_max_of_many (distinct_pairs_length _) hall
  exact ⟨t, hall, hcap, hthr, hnum, by rw [hcap]; exact double_mod_31⟩

/-- A delete that returns keeps the capacity and the resize threshold. -/
theorem delete_shape {fuel : Nat} {t t1 : hash_table V} {k : Nat} {b : Bool}
    (h : hash_table_delete fuel t k = some (b, t1)) :
    t1.cap = t.cap ∧ t1.resize_thresh = t.resize_thresh := by
  unfold hash_table_delete at h
  cases hlk : hash_table__lookup fuel t k with
  | none => rw [hlk] at h; simp at h
  | some idx =>
    rw [hlk] at h
    simp only [Option.map_some', Option.some.injEq] at h
    split at h
    · rw [← (Prod.mk.inj h).2]; exact ⟨rfl, rfl⟩
    · rw [← (Prod.mk.inj h).2]; exact ⟨rfl, rfl⟩

/-- Every state reached from a fresh table by public calls that return has a capacity
other than 0. -/
theorem reachable_cap_ne_zero {fuel : Nat} {ops : List (hash_table_op V)} {t : hash_table V}
    (h : run_ops fuel hash_table_new ops = some t) : t.cap ≠ 0 := by
  have := (reachable_sane h).cap16
  omega

theorem collect_eq_filter_map {α : Type} (n : Nat) (p : Nat → Prop) [DecidablePred p]
    (g : Nat → α) :
    collect n (fun i => if p i then some (g i) else none) =
      ((List.range n).filter fun i => decide (p i)).map g := by
  induction n with
  | zero => rfl
  | succ n ih =>
    rw [collect_succ, ih, List.range_succ, List.filter_append, List.map_append]
    by_cases h : p n
    · simp [h]
    · simp [h]

theorem live_eq_map (t : hash_table V) : live t = (occupied_indices t).map (elem_at t) := by
  unfold live occupied_indices
  exact collect_eq_filter_map t.cap (occupied t) (elem_at t)

theorem mem_occupied_indices (t : hash_table V) (i : Nat) :
    i ∈ occupied_indices t ↔ i < t.cap ∧ occupied t i := by
  unfold occupied_indices
  simp [List.mem_filter]

theorem occupied_indices_sorted (t : hash_table V) :
    List.Pairwise (· < ·) (occupied_indices t) :=
  List.Pairwise.filter _ (List.pairwise_lt_range t.cap)

theorem mem_slots_with_key (t : hash_table V) (k i : Nat) :
    i ∈ slots_with_key t k ↔ i < t.cap ∧ occupied t i ∧ (elem_at t i).key = k := by
  unfold slots_with_key
  simp [List.mem_filter]

theorem slots_with_key_sorted (t : hash_table V) (k : Nat) :
    List.Pairwise (· < ·) (slots_with_key t k) :=
  List.Pairwise.filter _ (List.pairwise_lt_range t.cap)

/-- The slots holding key `k` are as many as the live entries with key `k`. -/
theorem slots_with_key_length (t : hash_table V) (k : Nat) :
    (slots_with_key t k).length = (live t).countP fun e => decide (e.key = k) := by
  rw [live_eq_map, List.countP_map, List.countP_eq_length_filter]
  unfold occupied_indices slots_with_key
  rw [List.filter_filter]
  congr 1
  apply List.filter_congr
  intro i _
  by_cases h1 : occupied t i <;> by_cases h2 : (elem_at t i).key = k <;> simp [h1, h2]

theorem foldl_filter_eq {α σ : Type} (p : α → Bool) (f : σ → α → σ) :
    ∀ (l : List α) (init : σ),
      (l.filter p).foldl f init = l.foldl (fun s x => if p x then f s x else s) init := by
  intro l
  induction l with
  | nil => intro init; rfl
  | cons a l ih =>
    intro init
    by_cases h : p a = true
    · rw [List.filter_cons_of_pos h, List.foldl_cons, List.foldl_cons, if_pos h]
      exact ih _
    · rw [List.filter_cons_of_neg h, List.foldl_cons, if_neg h]
      exact ih _

/-- The iteration runs the body on the occupied slots, in increasing index order. -/
theorem iter_eq_foldl {σ : Type} (t : hash_table V) (body : σ → Nat → V → σ) (init : σ) :
    HASH_TABLE_ITER t body init =
      (occupied_indices t).foldl
        (fun s i => body s (elem_at t i).key (elem_at t i).val) init := by
  unfold HASH_TABLE_ITER occupied_indices
  rw [foldl_filter_eq]
  congr 1
  funext s idx
  dsimp only
  by_cases ho : occupied t idx
  · have hc : (elem_at t idx).hash ≠ 0 ∧ (!hash_table__is_entry_deleted t idx) = true :=
      ⟨ho.1, by simp [ho.2]⟩
    rw [if_pos hc, if_pos (by simpa using ho)]
  · have hc : ¬ ((elem_at t idx).hash ≠ 0 ∧ (!hash_table__is_entry_deleted t idx) = true) := by
      intro hc
      exact ho ⟨hc.1, by simpa using hc.2⟩
    rw [if_neg hc, if_neg (by simpa using ho)]

theorem foldl_count {α : Type} (l : List α) (n : Nat) :
    l.foldl (fun s _ => s + 1) n = n + l.length := by
  induction l generalizing n with
  | nil => rfl
  | cons a l ih => rw [List.foldl_cons, ih, List.length_cons]; omega


theorem and_mask_of_pow {t : hash_table V} (hpow : ∃ m, t.cap = 2 ^ m)
    (hmask : t.mask = t.cap - 1) (x : Nat) : x &&& t.mask = x % t.cap := by
  obtain ⟨m, hc⟩ := hpow
  rw [hmask, hc]
  exact Nat.and_pow_two_sub_one_eq_mod x m

theorem cap_pos_of_pow {t : hash_table V} (hpow : ∃ m, t.cap = 2 ^ m) : 0 < t.cap := by
  obtain ⟨m, hc⟩ := hpow
  rw [hc]; exact Nat.pow_pos (by decide)

theorem cap_le_of_pow_fit {t : hash_table V} (hpow : ∃ m, t.cap = 2 ^ m)
    (hfit : t.cap < 4294967296) : t.cap ≤ 2147483648 := by
  obtain ⟨m, hc⟩ := hpow
  have hm : m ≤ 31 := by
    by_contra hcon
    have : 2 ^ 32 ≤ 2 ^ m := Nat.pow_le_pow_right (by decide) (by omega)
    rw [hc] at hfit
    omega
  rw [hc]
  calc 2 ^ m ≤ 2 ^ 31 := Nat.pow_le_pow_right (by decide) hm
    _ = 2147483648 := by norm_num

theorem and_mask_lt {t : hash_table V} (hpow : ∃ m, t.cap = 2 ^ m)
    (hmask : t.mask = t.cap - 1) (x : Nat) : x &&& t.mask < t.cap := by
  rw [and_mask_of_pow hpow hmask]
  exact Nat.mod_lt _ (cap_pos_of_pow hpow)

/-- The probe distance is below the capacity. -/
theorem max_probes_lt_cap {t : hash_table V} (hpow : ∃ m, t.cap = 2 ^ m)
    (hmask : t.mask = t.cap - 1) (hash idx : Nat) :
    hash_table__max_probes t hash idx < t.cap := by
  unfold hash_table__max_probes
  exact and_mask_lt hpow hmask _

/-- The probe distance as a cyclic distance, for every 32-bit power-of-two capacity. -/
theorem max_probes_eq_cdist {t : hash_table V} (hpow : ∃ m, t.cap = 2 ^ m)
    (hfit : t.cap < 4294967296) (hmask : t.mask = t.cap - 1) (hash : Nat) {idx : Nat}
    (hi : idx < t.cap) :
    hash_table__max_probes t hash idx = cdist t.cap (hash % t.cap) idx := by
  have h2 := cap_le_of_pow_fit hpow hfit
  have hl : hash % t.cap < t.cap := Nat.mod_lt _ (cap_pos_of_pow hpow)
  unfold hash_table__max_probes hash_table__hash_idx
  rw [and_mask_of_pow hpow hmask, and_mask_of_pow hpow hmask]
  have e1 : (t.cap + idx + u32 - hash % t.cap) % u32 = t.cap + idx - hash % t.cap := by
    have : t.cap + idx + u32 - hash % t.cap = (t.cap + idx - hash % t.cap) + u32 := by
      unfold u32; omega
    rw [this, Nat.add_mod_right]
    exact Nat.mod_eq_of_lt (by unfold u32; omega)
  rw [e1]
  unfold cdist
  split
  · have : t.cap + idx - hash % t.cap = (idx - hash % t.cap) + t.cap := by omega
    rw [this, Nat.add_mod_right]
    exact Nat.mod_eq_of_lt (by omega)
  · exact Nat.mod_eq_of_lt (by omega)

/-- The lookup loop returns within `cap + 1` iterations on every table with a 32-bit
power-of-two capacity and the matching mask, whatever the slots hold. -/
theorem lookup_loop_stops {t : hash_table V} (hpow : ∃ m, t.cap = 2 ^ m)
    (hfit : t.cap < 4294967296) (hmask : t.mask = t.cap - 1) (hash k : Nat) :
    ∀ (r fuel idx np : Nat), idx < t.cap → np + r = t.cap → r < fuel →
      ∃ res, hash_table__lookup_loop t hash k fuel idx np = some res := by
  have hcl := cap_le_of_pow_fit hpow hfit
  intro r
  induction r with
  | zero =>
    intro fuel idx np hi hnp hf
    have := max_probes_lt_cap hpow hmask (elem_at t idx).hash idx
    obtain ⟨fuel, rfl⟩ : ∃ f, fuel = f + 1 := ⟨fuel - 1, by omega⟩
    rw [hash_table__lookup_loop, if_neg (Nat.not_le.mpr hi)]
    by_cases h0 : (elem_at t idx).hash = 0
    · rw [if_pos h0]; exact ⟨_, rfl⟩
    · rw [if_neg h0, if_pos (by omega)]; exact ⟨_, rfl⟩
  | succ r ih =>
    intro fuel idx np hi hnp hf
    obtain ⟨fuel, rfl⟩ : ∃ f, fuel = f + 1 := ⟨fuel - 1, by omega⟩
    rw [hash_table__lookup_loop, if_neg (Nat.not_le.mpr hi)]
    by_cases h0 : (elem_at t idx).hash = 0
    · rw [if_pos h0]; exact ⟨_, rfl⟩
    · rw [if_neg h0]
      by_cases h1 : np > hash_table__max_probes t (elem_at t idx).hash idx
      · rw [if_pos h1]; exact ⟨_, rfl⟩
      · rw [if_neg h1]
        split
        · exact ⟨_, rfl⟩
        · rw [Nat.mod_eq_of_lt (show np + 1 < u32 by unfold u32; omega)]
          exact ih fuel _ _ (and_mask_lt hpow hmask _) (by omega) (by omega)

/-- An index returned by the lookup loop is below the capacity. -/
theorem lookup_loop_index_lt {t : hash_table V} (hpow : ∃ m, t.cap = 2 ^ m)
    (hmask : t.mask = t.cap - 1) (hash k : Nat) :
    ∀ (fuel idx np i : Nat), idx < t.cap →
      hash_table__lookup_loop t hash k fuel idx np = some (i : Int) → i < t.cap := by
  intro fuel
  induction fuel with
  | zero => intro idx np i _ h; simp [hash_table__lookup_loop] at h
  | succ fuel ih =>
    intro idx np i hi h
    rw [hash_table__lookup_loop, if_neg (Nat.not_le.mpr hi)] at h
    by_cases h0 : (elem_at t idx).hash = 0
    · rw [if_pos h0] at h
      have := Option.some.inj h
      omega
    · rw [if_neg h0] at h
      by_cases h1 : np > hash_table__max_probes t (elem_at t idx).hash idx
      · rw [if_pos h1] at h
        have := Option.some.inj h
        omega
      · rw [if_neg h1] at h
        split at h
        · have := Option.some.inj h
          omega
        · exact ih _ _ i (and_mask_lt hpow hmask _) h

/-- The lookup loop returns `-1` or a natural number. -/
theorem lookup_loop_range (t : hash_table V) (hash k : Nat) :
    ∀ (fuel idx np : Nat) (res : Int),
      hash_table__lookup_loop t hash k fuel idx np = some res →
      res = -1 ∨ ∃ i : Nat, res = (i : Int) := by
  intro fuel
  induction fuel with
  | zero => intro idx np res h; simp [hash_table__lookup_loop] at h
  | succ fuel ih =>
    intro idx np res h
    rw [hash_table__lookup_loop] at h
    by_cases hb : t.cap ≤ idx
    · rw [if_pos hb] at h; cases h
    rw [if_neg hb] at h
    by_cases h0 : (elem_at t idx).hash = 0
    · rw [if_pos h0] at h; left; exact (Option.some.inj h).symm
    · rw [if_neg h0] at h
      by_cases h1 : np > hash_table__max_probes t (elem_at t idx).hash idx
      · rw [if_pos h1] at h; left; exact (Option.some.inj h).symm
      · rw [if_neg h1] at h
        split at h
        · right; exact ⟨idx, (Option.some.inj h).symm⟩
        · exact ih _ _ res h

/-- Round trip below the 32-bit wrap: for every list of at most 34896612 pairs with
pairwise distinct keys, inserting the pairs in order into a fresh table succeeds (given
`2^32` iterations of fuel) and afterwards lookup of every inserted key returns exactly the
value inserted for it; the list may cross the resize threshold any number of times. -/
theorem round_trip_below_wrap (kvs : List (Nat × V)) (hnd : (kvs.map Prod.fst).Nodup)
    (hlen : kvs.length ≤ 34896612) (fuel : Nat) (hfuel : 4294967296 ≤ fuel) :
    ∃ t, insert_all fuel hash_table_new kvs = some t ∧
      ∀ kv, kv ∈ kvs → hash_table_lookup fuel t kv.1 = some (some kv.2) := by
  obtain ⟨t, hall, h⟩ := insert_all_spec fuel hfuel kvs [] hash_table_new new_insInv
    (by simpa using hlen)
  rw [List.nil_append] at h
  refine ⟨t, hall, ?_⟩
  intro kv hkv
  obtain ⟨k, v⟩ := kv
  have hcl := h.inv.wf.cap_le
  exact lookup_found h.inv (h.keys.nodup_iff.mpr hnd) k v (h.mem hkv) fuel (by omega)

set_option maxRecDepth 100000 in
/-- Round trip of 100 distinct keys inserted from the initial capacity 16. -/
theorem round_trip_below_wrap_witness :
    ((scenario_pairs 100).map Prod.fst).Nodup ∧ (scenario_pairs 100).length ≤ 34896612 ∧
    ∃ t, insert_all 4294967296 hash_table_new (scenario_pairs 100) = some t ∧
      ∀ kv, kv ∈ scenario_pairs 100 →
        hash_table_lookup 4294967296 t kv.1 = some (some kv.2) :=
  ⟨by decide, by decide,
    round_trip_below_wrap (scenario_pairs 100) (by decide) (by decide) 4294967296
      (by decide)⟩

/-- C1, the code fails on a long list: the keys `0, …, 34896612` are pairwise distinct;
the inserts of the first 34896612 of them return and leave a table of capacity `2^31`
whose threshold `cap * 90 / 100` has wrapped to 0 in 32-bit arithmetic; the insert of the
next key grows that table to capacity `2^31 * 2 = 0` (mod `2^32`) and then accesses a slot
of the empty array, so it gives no result, whatever the fuel; hence no amount of fuel
makes the inserts of the 34896613 keys return, and no lookup follows them. -/
theorem C1_overflow_no_result :
    ((distinct_pairs 34896613).map Prod.fst).Nodup ∧
    (∃ t, insert_all 4294967296 hash_table_new (distinct_pairs 34896612) = some t ∧
      t.cap = 2 ^ 31 ∧ t.resize_thresh = 0 ∧ (t.cap * 2) % 4294967296 = 0 ∧
      ∀ fuel, hash_table_insert fuel t 34896612 0 = none) ∧
    (∀ fuel, insert_all fuel hash_table_new (distinct_pairs 34896613) = none) ∧
    ¬ ∃ fuel t, insert_all fuel hash_table_new (distinct_pairs 34896613) = some t ∧
      ∀ kv, kv ∈ distinct_pairs 34896613 →
        hash_table_lookup fuel t kv.1 = some (some kv.2) := by
  have hnone : ∀ fuel, insert_all fuel (hash_table_new : hash_table Nat)
      (distinct_pairs 34896613) = none :=
    fun fuel => insert_all_none_of_long fuel _ (by rw [distinct_pairs_length])
  refine ⟨distinct_pairs_nodup _, ?_, hnone, ?_⟩
  · obtain ⟨t, hall, hcap, hthr, _, hwrap⟩ := max_table_reached
    exact ⟨t, hall, hcap, hthr, hwrap, fun fuel =>
      insert_none_of_wrap fuel t _ _ hwrap (by rw [hthr]; exact Nat.zero_le _)⟩
  · rintro ⟨fuel, t, h, _⟩
    rw [hnone fuel] at h
    cases h

set_option maxRecDepth 100000 in
/-- C2, the code loses a live key: `lost_key_ops` runs from a fresh table to
`lost_key_table` (every call returns), in which slot 1 is occupied and holds key 22, yet
lookup of 22 reports not-found and delete of 22 returns false. -/
theorem C2_lost_key :
    run_ops 64 hash_table_new lost_key_ops = some lost_key_table ∧
    occupied lost_key_table 1 ∧ (elem_at lost_key_table 1).key = 22 ∧
    hash_table_lookup 64 lost_key_table 22 = some none ∧
    hash_table_delete 64 lost_key_table 22 = some (false, lost_key_table) := by
  decide

set_option maxRecDepth 100000 in
/-- C3, the code does not terminate: `stuck_ops` runs from a fresh table to `stuck_table`
(every call returns), and the insert of key 241 into `stuck_table` does not return for any
amount of fuel: the placement loop cycles with period 32. Its loop, started at slot 0 with
the count incremented to 13, is still running after every number of iterations: no
iteration returns and none is at an index outside the array. -/
theorem C3_insert_never_returns :
    run_ops 64 hash_table_new stuck_ops = some stuck_table ∧
    (∀ fuel, hash_table_insert fuel stuck_table 241 0 = none) ∧
    ∀ n, still_running (insert_loop_iter n
      ⟨{ stuck_table with num_elems := 13 }, entry_of 241 0, 0, 0⟩) = true :=
  ⟨by decide, stuck_forever, stuck_running⟩

/-- Tombstone correctness below the 32-bit wrap: for every list of at most 34896612 pairs
with pairwise distinct keys inserted into a fresh table, and every inserted key `k`,
delete of `k` succeeds and returns true, a lookup of `k` then reports not-found, and every
other inserted key is still found with its unchanged value. -/
theorem tombstone_correct_below_wrap (kvs : List (Nat × V))
    (hnd : (kvs.map Prod.fst).Nodup)
    (hlen : kvs.length ≤ 34896612) (fuel : Nat) (hfuel : 4294967296 ≤ fuel)
    (k : Nat) (v : V) (hk : (k, v) ∈ kvs) :
    ∃ t t1, insert_all fuel hash_table_new kvs = some t ∧
      hash_table_delete fuel t k = some (true, t1) ∧
      hash_table_lookup fuel t1 k = some none ∧
      ∀ kv, kv ∈ kvs → kv.1 ≠ k → hash_table_lookup fuel t1 kv.1 = some (some kv.2) := by
  obtain ⟨t, hall, h⟩ := insert_all_spec fuel hfuel kvs [] hash_table_new new_insInv
    (by simpa using hlen)
  rw [List.nil_append] at h
  have hcl := h.inv.wf.cap_le
  have hndl : ((live t).map fun e => e.key).Nodup := h.keys.nodup_iff.mpr hnd
  have hpos : 0 < kvs.length := List.length_pos_of_mem hk
  have a1 : 0 < t.num_elems := by rw [h.num]; exact hpos
  have a2 : t.num_elems < u32 := by rw [h.num]; unfold u32; omega
  have a3 : t.cap ≤ fuel := by omega
  have a4 : entry_of k v ∈ live t := h.mem hk
  obtain ⟨t1, hdel, res⟩ := delete_found h.inv hndl k v a4 a1 a2 fuel a3
  have hp := res.perm.map (fun e : hash_table_elem V => e.key)
  rw [List.map_cons] at hp
  have hnd1 := hp.nodup_iff.mp hndl
  rw [List.nodup_cons] at hnd1
  have hc1 : t1.cap ≤ 2147483648 := by rw [res.cap]; exact hcl
  refine ⟨t, t1, hall, hdel, ?_, ?_⟩
  · apply lookup_of_neg
    apply lookup_absent res.inv.wf k _ fuel (by omega)
    intro e he hek
    exact hnd1.1 (List.mem_map.mpr ⟨e, he, hek⟩)
  · intro kv hkv hne
    obtain ⟨k1, w⟩ := kv
    have hm := res.perm.mem_iff.mp (h.mem hkv)
    rcases List.mem_cons.mp hm with heq | hm1
    · exact absurd (congrArg (fun e : hash_table_elem V => e.key) heq) hne
    · exact lookup_found res.inv hnd1.2 k1 w hm1 fuel (by omega)

set_option maxRecDepth 100000 in
/-- Keys 0, 1, 2 inserted, key 1 deleted: key 1 is not found, keys 0 and 2 are. -/
theorem tombstone_correct_below_wrap_witness :
    ((scenario_pairs 3).map Prod.fst).Nodup ∧ (scenario_pairs 3).length ≤ 34896612 ∧
    (1, 10) ∈ scenario_pairs 3 ∧
    ∃ t t1, insert_all 4294967296 hash_table_new (scenario_pairs 3) = some t ∧
      hash_table_delete 4294967296 t 1 = some (true, t1) ∧
      hash_table_lookup 4294967296 t1 1 = some none ∧
      ∀ kv, kv ∈ scenario_pairs 3 → kv.1 ≠ 1 →
        hash_table_lookup 4294967296 t1 kv.1 = some (some kv.2) :=
  ⟨by decide, by decide, by decide,
    tombstone_correct_below_wrap (scenario_pairs 3) (by decide) (by decide) 4294967296
      (by decide) 1 10 (by decide)⟩

/-- Reinsertion after delete below the 32-bit wrap: for every list of at most 34896611
pairs with pairwise distinct keys inserted into a fresh table, every inserted key `k` and
every value `v1`, delete of `k` returns true, a lookup of `k` then reports not-found, the
following insert of `(k, v1)` succeeds, and lookup of `k` then returns `v1`. -/
theorem reinsertion_below_wrap (kvs : List (Nat × V)) (hnd : (kvs.map Prod.fst).Nodup)
    (hlen : kvs.length ≤ 34896611) (fuel : Nat) (hfuel : 4294967296 ≤ fuel)
    (k : Nat) (v v1 : V) (hk : (k, v) ∈ kvs) :
    ∃ t t1 t2, insert_all fuel hash_table_new kvs = some t ∧
      hash_table_delete fuel t k = some (true, t1) ∧
      hash_table_lookup fuel t1 k = some none ∧
      hash_table_insert fuel t1 k v1 = some t2 ∧
      hash_table_lookup fuel t2 k = some (some v1) := by
  obtain ⟨t, hall, h⟩ := insert_all_spec fuel hfuel kvs [] hash_table_new new_insInv
    (by simp only [List.nil_append]; omega)
  rw [List.nil_append] at h
  have hcl := h.inv.wf.cap_le
  have hndl : ((live t).map fun e => e.key).Nodup := h.keys.nodup_iff.mpr hnd
  have hpos : 0 < kvs.length := List.length_pos_of_mem hk
  have a1 : 0 < t.num_elems := by rw [h.num]; exact hpos
  have a2 : t.num_elems < u32 := by rw [h.num]; unfold u32; omega
  have a3 : t.cap ≤ fuel := by omega
  have a4 : entry_of k v ∈ live t := h.mem hk
  obtain ⟨t1, hdel, res⟩ := delete_found h.inv hndl k v a4 a1 a2 fuel a3
  have hp := res.perm.map (fun e : hash_table_elem V => e.key)
  rw [List.map_cons] at hp
  have hnd1 := hp.nodup_iff.mp hndl
  rw [List.nodup_cons] at hnd1
  have hc1 : t1.cap ≤ 2147483648 := by rw [res.cap]; exact hcl
  have hn1 : t1.num_elems + 1 = kvs.length := by rw [res.num_elems, h.num]
  have hfl : (filled t1).length = kvs.length := by
    rw [res.filled, filled_length_of_notomb h.notomb, h.perm.length_eq, List.length_map]
  obtain ⟨m, hm4, hcap, hfloor⟩ := h.floor
  obtain ⟨t2, hins, ires⟩ := insert_result res.inv k v1
    (by rw [hn1]; unfold u32; omega)
    (by rw [hfl, res.cap]; exact h.lt_cap)
    (by
      intro _
      rw [res.cap, hcap]
      apply Nat.pow_le_pow_right (by decide)
      by_contra hcon
      have h31 : 31 ≤ m := by omega
      have : 2 ^ 31 ≤ 2 ^ m := Nat.pow_le_pow_right (by decide) h31
      have hm : m = 31 := by
        by_contra hne
        have : 2 ^ 32 ≤ 2 ^ m := Nat.pow_le_pow_right (by decide) (by omega)
        rw [← hcap] at this
        omega
      subst hm
      rw [growth_floor_31] at hfloor
      omega)
    fuel (by omega)
  have hc2 := ires.inv.wf.cap_le
  refine ⟨t, t1, t2, hall, hdel, ?_, hins, ?_⟩
  · apply lookup_of_neg
    apply lookup_absent res.inv.wf k _ fuel (by omega)
    intro e he hek
    exact hnd1.1 (List.mem_map.mpr ⟨e, he, hek⟩)
  · have hp2 := ires.perm.map (fun e : hash_table_elem V => e.key)
    rw [List.map_cons] at hp2
    have hnd2 : ((live t2).map fun e => e.key).Nodup :=
      hp2.nodup_iff.mpr (List.nodup_cons.mpr ⟨hnd1.1, hnd1.2⟩)
    exact lookup_found ires.inv hnd2 k v1
      (ires.perm.mem_iff.mpr (List.mem_cons_self _ _)) fuel (by omega)

set_option maxRecDepth 100000 in
/-- On a fresh table: insert (5, 50), delete 5, lookup 5, insert (5, 99), lookup 5. -/
theorem reinsertion_below_wrap_witness :
    ([((5 : Nat), (50 : Nat))].map Prod.fst).Nodup ∧ [((5 : Nat), (50 : Nat))].length ≤ 34896611 ∧
    ((5 : Nat), (50 : Nat)) ∈ [((5 : Nat), (50 : Nat))] ∧
    ∃ t t1 t2, insert_all 4294967296 hash_table_new [((5 : Nat), (50 : Nat))] = some t ∧
      hash_table_delete 4294967296 t 5 = some (true, t1) ∧
      hash_table_lookup 4294967296 t1 5 = some none ∧
      hash_table_insert 4294967296 t1 5 99 = some t2 ∧
      hash_table_lookup 4294967296 t2 5 = some (some 99) :=
  ⟨by decide, by decide, by decide,
    reinsertion_below_wrap [(5, 50)] (by decide) (by decide) 4294967296 (by decide)
      5 50 99 (by decide)⟩

/-- C5, the code fails on the re-insert: the keys `0, …, 34896611` are pairwise distinct
and their inserts into a fresh table return, leaving capacity `2^31` and a threshold
wrapped to 0; delete of key 0 returns true and a lookup of key 0 then reports not-found;
but the following insert of key 0, with any value, grows the table to capacity
`2^31 * 2 = 0` (mod `2^32`) and then accesses a slot of the empty array: it gives no
result, whatever the fuel, and no lookup can follow it. -/
theorem C5_reinsert_no_result :
    ((distinct_pairs 34896612).map Prod.fst).Nodup ∧ (0, 0) ∈ distinct_pairs 34896612 ∧
    ∃ t t1, insert_all 4294967296 hash_table_new (distinct_pairs 34896612) = some t ∧
      t.cap = 2 ^ 31 ∧ t.resize_thresh = 0 ∧
      hash_table_delete 4294967296 t 0 = some (true, t1) ∧
      hash_table_lookup 4294967296 t1 0 = some none ∧
      t1.resize_thresh ≤ (t1.num_elems + 1) % 4294967296 ∧
      (t1.cap * 2) % 4294967296 = 0 ∧
      ∀ fuel v, hash_table_insert fuel t1 0 v = none := by
  refine ⟨distinct_pairs_nodup _, mem_distinct_pairs (by decide), ?_⟩
  obtain ⟨t, t1, hall, hdel, hlk, _⟩ := tombstone_correct_below_wrap
    (distinct_pairs 34896612) (distinct_pairs_nodup _)
    (by rw [distinct_pairs_length]) 4294967296 (le_refl _) 0 0
    (mem_distinct_pairs (by decide))
  obtain ⟨hcap, hthr, _⟩ := cap_max_of_many (distinct_pairs_length _) hall
  obtain ⟨hc1, ht1⟩ := delete_shape hdel
  have hwrap : (t1.cap * 2) % u32 = 0 := by rw [hc1, hcap]; exact double_mod_31
  have hthr1 : t1.resize_thresh ≤ (t1.num_elems + 1) % u32 := by
    rw [ht1, hthr]; exact Nat.zero_le _
  exact ⟨t, t1, hall, hcap, hthr, hdel, hlk, hthr1, hwrap,
    fun fuel v => insert_none_of_wrap fuel t1 0 v hwrap hthr1⟩

/-- C6: for every table whose capacity is a power of two with the doubled capacity below
`2^32`, growth succeeds (given fuel for twice the capacity), the new capacity is exactly
twice the old one, no slot of the new table is tombstoned, and the multiset of
(hash, key, value) entries of its occupied slots is that of the occupied slots of the old
table; empty and tombstoned slots contribute nothing. -/
theorem C6_growth_preserves_live (t : hash_table V) (hpow : ∃ m, t.cap = 2 ^ m)
    (hfit : 2 * t.cap < 4294967296) (fuel : Nat) (hfuel : 2 * t.cap ≤ fuel) :
    ∃ nt, hash_table__grow fuel t = some nt ∧ nt.cap = 2 * t.cap ∧
      (∀ i, i < nt.cap → hash_table__is_entry_deleted nt i = false) ∧
      (Multiset.ofList (live nt) = Multiset.ofList (live t)) := by
  obtain ⟨m, hm⟩ := hpow
  have hm30 : m ≤ 30 := by
    by_contra hcon
    have : 2 ^ 31 ≤ 2 ^ m := Nat.pow_le_pow_right (by decide) (by omega)
    rw [hm] at hfit
    omega
  obtain ⟨nt, hrun, inv⟩ := grow_spec m hm30 hm fuel hfuel
  exact ⟨nt, hrun, inv.cap, inv.notomb, Multiset.coe_eq_coe.mpr inv.perm⟩

set_option maxRecDepth 100000 in
/-- C6, witness: growth of `lost_key_table`, a table of capacity 16 with tombstones. -/
theorem C6_growth_preserves_live_witness :
    (∃ m, lost_key_table.cap = 2 ^ m) ∧ 2 * lost_key_table.cap < 4294967296 ∧
    2 * lost_key_table.cap ≤ 32 ∧
    ∃ nt, hash_table__grow 32 lost_key_table = some nt ∧ nt.cap = 2 * lost_key_table.cap ∧
      (∀ i, i < nt.cap → hash_table__is_entry_deleted nt i = false) ∧
      (Multiset.ofList (live nt) = Multiset.ofList (live lost_key_table)) :=
  ⟨⟨4, by decide⟩, by decide, by decide,
    C6_growth_preserves_live lost_key_table ⟨4, by decide⟩ (by decide) 32 (by decide)⟩

/-- C7, the claim as stated fails: after keys 0..13 are inserted into a fresh table the
capacity is not 16 any more (it is 32), whatever the fuel. -/
theorem C7_counterexample :
    ¬ ∃ fuel t, insert_all fuel hash_table_new (scenario_pairs 14) = some t ∧ t.cap = 16 := by
  rintro ⟨fuel, t, h, hc⟩
  obtain ⟨hctrl, hn⟩ := ctrl_all fuel (scenario_pairs 14) hash_table_new t new_ctrlOK
    (by decide) h
  have hn14 : t.num_elems = 14 := by rw [hn]; rfl
  obtain ⟨m, hm4, _, hcm, _, hhi⟩ := hctrl.window
  have hm : m = 4 := pow_two_inj (by rw [← hcm, hc]; rfl)
  subst hm
  rw [hn14] at hhi
  exact absurd hhi (by decide)

set_option maxRecDepth 100000 in
/-- C7, amended: a fresh table has capacity 16 and threshold 14; after keys 0..12 are
inserted with values key*10 all 13 lookups succeed and the capacity is still 16;
inserting key 13 brings the count to 14, which grows the table to capacity 32 before the
new entry is placed into the grown table, and all 14 keys are found with their values;
after key 14 is inserted the count is 15, the capacity 32, and keys 0..14 are all found
with their original values. -/
theorem C7_growth_scenario :
    (hash_table_new : hash_table Nat).cap = 16 ∧
    (hash_table_new : hash_table Nat).resize_thresh = 14 ∧
    ∃ t13 tg t14 t15,
      insert_all 64 hash_table_new (scenario_pairs 13) = some t13 ∧
      t13.num_elems = 13 ∧ t13.cap = 16 ∧
      (∀ kv, kv ∈ scenario_pairs 13 → hash_table_lookup 64 t13 kv.1 = some (some kv.2)) ∧
      hash_table_insert 64 t13 13 130 = some t14 ∧
      hash_table__grow 64 { t13 with num_elems := 14 } = some tg ∧ tg.cap = 32 ∧
      hash_table__insert 64 tg (entry_of 13 130) = some t14 ∧
      t14.num_elems = 14 ∧ t14.cap = 32 ∧
      (∀ kv, kv ∈ scenario_pairs 14 → hash_table_lookup 64 t14 kv.1 = some (some kv.2)) ∧
      hash_table_insert 64 t14 14 140 = some t15 ∧
      t15.num_elems = 15 ∧ t15.cap = 32 ∧
      (∀ kv, kv ∈ scenario_pairs 15 → hash_table_lookup 64 t15 kv.1 = some (some kv.2)) := by
  refine ⟨rfl, rfl,
    (insert_all 64 hash_table_new (scenario_pairs 13)).getD hash_table_new,
    (hash_table__grow 64 { (insert_all 64 hash_table_new (scenario_pairs 13)).getD
      hash_table_new with num_elems := 14 }).getD hash_table_new,
    (insert_all 64 hash_table_new (scenario_pairs 14)).getD hash_table_new,
    (insert_all 64 hash_table_new (scenario_pairs 15)).getD hash_table_new, ?_⟩
  decide

set_option maxRecDepth 100000 in
/-- C8, the claim as stated fails: on the empty table of capacity `2^31` (live count 0,
threshold 0) the incremented count has reached the threshold, yet growth returns a table
of capacity 0, not `2 * 2^31`, and the insert gives no result, whatever the fuel (its
placement accesses a slot of the empty array); and on a state whose live count is
`2^32 - 1` an insert returns with live count 0. -/
theorem C8_counterexample :
    ((hash_table__construct 2147483648 : hash_table Nat).resize_thresh ≤
      (hash_table__construct 2147483648 : hash_table Nat).num_elems + 1 ∧
    (∃ tg, hash_table__grow 1
        { (hash_table__construct 2147483648 : hash_table Nat) with num_elems := 1 } =
        some tg ∧
      tg.cap = 0 ∧ tg.cap ≠ 2 * (hash_table__construct 2147483648 : hash_table Nat).cap) ∧
    ∀ fuel, hash_table_insert fuel (hash_table__construct 2147483648 : hash_table Nat) 0 0 =
      none) ∧
    (∃ t1, hash_table_insert 1
        { (hash_table_new : hash_table Nat) with num_elems := 4294967295 } 0 0 = some t1 ∧
      t1.num_elems = 0) := by
  refine ⟨⟨by decide, ?_, ?_⟩, ⟨_, rfl, by decide⟩⟩
  · have hg := grow_of_empty 1
      ({ (hash_table__construct 2147483648 : hash_table Nat) with num_elems := 1 })
      (fun i => fresh_hash 2147483648 1 i)
    exact ⟨_, hg, by decide, by decide⟩
  · intro fuel
    exact insert_none_of_wrap fuel _ 0 0 (by decide) (by decide)

/-- C8, amended: for every table state with live count `c`, capacity `cap` and threshold
`t` such that `c + 1` and `2 * cap` are below `2^32`, an insert that returns has
incremented the count to `c + 1`; when `c + 1 >= t` the table was first grown to capacity
`2 * cap` and the new entry placed into the grown table, so the capacity afterwards is
`2 * cap`; when `c + 1 < t` the entry was placed directly and the capacity is still `cap`. -/
theorem C8_growth_trigger (t : hash_table V) (fuel k : Nat) (v : V) (t1 : hash_table V)
    (hc : t.num_elems + 1 < 4294967296) (hcap : 2 * t.cap < 4294967296)
    (h : hash_table_insert fuel t k v = some t1) :
    t1.num_elems = t.num_elems + 1 ∧
    (t.resize_thresh ≤ t.num_elems + 1 →
      t1.cap = 2 * t.cap ∧
      ∃ tg, hash_table__grow fuel { t with num_elems := t.num_elems + 1 } = some tg ∧
        tg.cap = 2 * t.cap ∧ hash_table__insert fuel tg (entry_of k v) = some t1) ∧
    (t.num_elems + 1 < t.resize_thresh →
      t1.cap = t.cap ∧
      hash_table__insert fuel { t with num_elems := t.num_elems + 1 } (entry_of k v) =
        some t1) := by
  obtain ⟨hnum, hgrow, hstay⟩ := insert_shape h
  have e1 : (t.num_elems + 1) % u32 = t.num_elems + 1 := Nat.mod_eq_of_lt hc
  have e2 : (t.cap * 2) % u32 = 2 * t.cap := by
    rw [Nat.mod_eq_of_lt (by unfold u32; omega)]; omega
  rw [e1] at hnum hgrow hstay
  refine ⟨hnum, ?_, ?_⟩
  · intro hg
    obtain ⟨tg, hgr, hins, hcap1, _, _⟩ := hgrow hg
    refine ⟨by rw [hcap1, e2], tg, hgr, ?_, hins⟩
    rw [(grow_shape hgr).cap]
    exact e2
  · intro hlt
    obtain ⟨hins, hcap1, _, _⟩ := hstay hlt
    exact ⟨hcap1, hins⟩

set_option maxRecDepth 100000 in
/-- C8, witness: the insert of key 13 into the table holding keys 0..12 (count 13,
capacity 16, threshold 14). -/
theorem C8_growth_trigger_witness :
    ((insert_all 64 hash_table_new (scenario_pairs 13)).getD hash_table_new).num_elems + 1 <
      4294967296 ∧
    2 * ((insert_all 64 hash_table_new (scenario_pairs 13)).getD hash_table_new).cap <
      4294967296 ∧
    hash_table_insert 64 ((insert_all 64 hash_table_new (scenario_pairs 13)).getD
      hash_table_new) 13 130 =
      some ((insert_all 64 hash_table_new (scenario_pairs 14)).getD hash_table_new) ∧
    ((insert_all 64 hash_table_new (scenario_pairs 14)).getD hash_table_new).num_elems =
      ((insert_all 64 hash_table_new (scenario_pairs 13)).getD hash_table_new).num_elems + 1 :=
  ⟨by decide, by decide, by decide,
    (C8_growth_trigger ((insert_all 64 hash_table_new (scenario_pairs 13)).getD
      hash_table_new) 64 13 130
      ((insert_all 64 hash_table_new (scenario_pairs 14)).getD hash_table_new)
      (by decide) (by decide) (by decide)).1⟩

/-- C9: on every table state whose flag array covers the slot array, when the lookup of
`k` finds slot `i`, delete of `k` returns true, sets the tombstone flag of slot `i` and of
no other slot, decrements the 32-bit live count by one (by exactly one whenever the count
is positive, as it is when it counts the live entries), and leaves every stored entry
(hash, key and value of every slot, slot `i` included), the capacity, the mask and the
resize threshold unchanged. -/
theorem C9_delete_present (t : hash_table V) (fuel k i : Nat)
    (hlen : t.elems.length ≤ t.deleted.length)
    (hl : hash_table__lookup fuel t k = some (i : Int)) :
    ∃ t1, hash_table_delete fuel t k = some (true, t1) ∧
      hash_table__is_entry_deleted t1 i = true ∧
      (∀ j, j ≠ i → hash_table__is_entry_deleted t1 j = hash_table__is_entry_deleted t j) ∧
      t1.num_elems = (t.num_elems + 4294967296 - 1) % 4294967296 ∧
      (0 < t.num_elems → t.num_elems < 4294967296 → t1.num_elems + 1 = t.num_elems) ∧
      t1.elems = t.elems ∧ (∀ j, elem_at t1 j = elem_at t j) ∧
      t1.cap = t.cap ∧ t1.mask = t.mask ∧ t1.resize_thresh = t.resize_thresh := by
  have hocc := (lookup_loop_result t _ k fuel _ 0 i hl).1
  have hi : i < t.deleted.length := lt_of_lt_of_le (lt_length_of_hash_ne hocc.1) hlen
  unfold hash_table_delete
  rw [hl]
  have hnn : ¬ ((i : Int) < 0) := by omega
  simp only [Option.map_some', if_neg hnn, Int.toNat_ofNat]
  refine ⟨_, rfl, ?_, ?_, rfl, ?_, rfl, fun j => rfl, rfl, rfl, rfl⟩
  · rw [mark_deleted_flag hi, if_pos rfl]
  · intro j hj
    rw [mark_deleted_flag hi, if_neg hj]
  · intro hpos hlt
    show (t.num_elems + u32 - 1) % u32 + 1 = t.num_elems
    have e : t.num_elems + u32 - 1 = (t.num_elems - 1) + u32 := by unfold u32; omega
    rw [e, Nat.add_mod_right, Nat.mod_eq_of_lt (by unfold u32; omega)]
    omega

set_option maxRecDepth 100000 in
/-- C9, witness: key 5 is found in slot 6 of the table holding keys 0..12. -/
theorem C9_delete_present_witness :
    ((insert_all 64 hash_table_new (scenario_pairs 13)).getD hash_table_new).elems.length ≤
      ((insert_all 64 hash_table_new (scenario_pairs 13)).getD hash_table_new).deleted.length ∧
    hash_table__lookup 64
      ((insert_all 64 hash_table_new (scenario_pairs 13)).getD hash_table_new) 5 =
      some ((6 : Nat) : Int) ∧
    ∃ t1, hash_table_delete 64
        ((insert_all 64 hash_table_new (scenario_pairs 13)).getD hash_table_new) 5 =
        some (true, t1) ∧
      hash_table__is_entry_deleted t1 6 = true ∧ t1.num_elems + 1 = 13 := by
  refine ⟨by decide, by decide, ?_⟩
  obtain ⟨t1, h1, h2, _, _, h4, _⟩ := C9_delete_present
    ((insert_all 64 hash_table_new (scenario_pairs 13)).getD hash_table_new) 64 5 6
    (by decide) (by decide)
  exact ⟨t1, h1, h2, h4 (by decide) (by decide)⟩

/-- C10: on every table state, when the lookup of `k` reports not-found, delete of `k`
returns false and leaves the whole table state unchanged; and whenever delete returns, it
returns true exactly when the lookup of `k` finds an entry. -/
theorem C10_delete_absent (t : hash_table V) (fuel k : Nat) :
    (hash_table_lookup fuel t k = some none → hash_table_delete fuel t k = some (false, t)) ∧
    (∀ b t1, hash_table_delete fuel t k = some (b, t1) →
      (b = true ↔ ∃ v, hash_table_lookup fuel t k = some (some v))) := by
  unfold hash_table_lookup hash_table_delete
  cases hl : hash_table__lookup fuel t k with
  | none => simp
  | some idx =>
    by_cases hneg : idx < 0
    · simp [hneg]
    · simp [hneg]

set_option maxRecDepth 100000 in
/-- C10, witness: key 7 is absent from the fresh table. -/
theorem C10_delete_absent_witness :
    hash_table_lookup 64 (hash_table_new : hash_table Nat) 7 = some none ∧
    hash_table_delete 64 (hash_table_new : hash_table Nat) 7 = some (false, hash_table_new) :=
  ⟨by decide, (C10_delete_absent (hash_table_new : hash_table Nat) 64 7).1 (by decide)⟩

/-- C11: in every state reached from a fresh table by any finite sequence of insert and
delete calls (each of which returned), the stored live count equals the number of occupied
slots (hash non-zero and tombstone flag clear). -/
theorem C11_count_invariant (fuel : Nat) (ops : List (hash_table_op V)) (t : hash_table V)
    (h : run_ops fuel hash_table_new ops = some t) :
    t.num_elems = (occupied_indices t).length := by
  have hs := reachable_sane h
  rw [hs.count, live_eq_map, List.length_map]

set_option maxRecDepth 100000 in
/-- C11, witness: the state reached by `lost_key_ops`, a table without an empty slot. -/
theorem C11_count_invariant_witness :
    run_ops 64 hash_table_new lost_key_ops = some lost_key_table ∧
    lost_key_table.num_elems = 13 ∧
    lost_key_table.num_elems = (occupied_indices lost_key_table).length :=
  ⟨by decide, by decide,
    C11_count_invariant 64 lost_key_ops lost_key_table (by decide)⟩

/-- C12: in every state observed after an insert that returns, on a table reached from a
fresh table by insert and delete calls, the live count does not exceed the capacity, the
capacity is a power of two, at least 16, and the mask is the capacity minus one. -/
theorem C12_load_factor (fuel : Nat) (ops : List (hash_table_op V)) (t : hash_table V)
    (k : Nat) (v : V) (t1 : hash_table V)
    (h : run_ops fuel hash_table_new ops = some t)
    (hi : hash_table_insert fuel t k v = some t1) :
    t1.num_elems ≤ t1.cap ∧ (∃ m, 4 ≤ m ∧ t1.cap = 2 ^ m) ∧ 16 ≤ t1.cap ∧
      t1.mask = t1.cap - 1 := by
  have hs := (sane_insert (reachable_sane h) hi).1
  refine ⟨by rw [hs.count]; exact collect_length_le _ _, ?_, hs.cap16, hs.wf.mask_eq⟩
  obtain ⟨m, _, _, hm⟩ := hs.wf.pow
  refine ⟨m, ?_, hm⟩
  by_contra hcon
  have : 2 ^ m ≤ 2 ^ 3 := Nat.pow_le_pow_right (by decide) (by omega)
  have := hs.cap16
  rw [hm] at this
  omega

set_option maxRecDepth 100000 in
/-- C12, witness: the insert of key 241 into the table reached by the first 24 calls of
`lost_key_ops`. -/
theorem C12_load_factor_witness :
    run_ops 64 hash_table_new (lost_key_ops.take 24) =
      some ((run_ops 64 hash_table_new (lost_key_ops.take 24)).getD hash_table_new) ∧
    hash_table_insert 64
      ((run_ops 64 hash_table_new (lost_key_ops.take 24)).getD hash_table_new) 241 2410 =
      some lost_key_table ∧
    lost_key_table.num_elems ≤ lost_key_table.cap ∧
    (∃ m, 4 ≤ m ∧ lost_key_table.cap = 2 ^ m) ∧ 16 ≤ lost_key_table.cap ∧
    lost_key_table.mask = lost_key_table.cap - 1 :=
  ⟨by decide, by decide,
    C12_load_factor 64 (lost_key_ops.take 24)
      ((run_ops 64 hash_table_new (lost_key_ops.take 24)).getD hash_table_new) 241 2410
      lost_key_table (by decide) (by decide)⟩

/-- C13: for every key `k` the hash used by insert and lookup, `fix_hash (hash_fun k)`,
is a non-zero 32-bit number; `fix_hash` leaves every non-zero hash unchanged and maps 0 to
1; hence the entry that insert builds for `k` never has the hash 0 that marks an empty
slot, and a slot holding it is not empty. -/
theorem C13_nonzero_hash (k : Nat) :
    hash_table__fix_hash (hash_table__hash_fun k) ≠ 0 ∧
    hash_table__fix_hash (hash_table__hash_fun k) < 4294967296 ∧
    (∀ h, h ≠ 0 → hash_table__fix_hash h = h) ∧
    hash_table__fix_hash 0 = 1 ∧
    (∀ v : V, (entry_of k v).hash = hash_table__fix_hash (hash_table__hash_fun k)) ∧
    (∀ (t : hash_table V) (i : Nat) (v : V), elem_at t i = entry_of k v →
      (elem_at t i).hash ≠ 0) := by
  refine ⟨fix_hash_ne_zero _, ?_, ?_, rfl, fun _ => rfl, ?_⟩
  · unfold hash_table__fix_hash
    split
    · unfold hash_table__hash_fun
      exact Nat.mod_lt _ (by decide)
    · decide
  · intro h hh
    unfold hash_table__fix_hash
    rw [if_pos hh]
  · intro t i v he
    rw [he]
    exact fix_hash_ne_zero _

/-- C14: on every table state the iteration runs the body exactly on the slots of
`occupied_indices`, in this order, with the key and value of each; this list is strictly
increasing and holds exactly the indices below the capacity whose slot is occupied (hash
non-zero and tombstone flag clear), so every occupied slot is visited once and no empty or
tombstoned slot is visited; the number of visits is the number of occupied slots, and in
every state reached from a fresh table by insert and delete calls it equals the live
count. -/
theorem C14_iteration (t : hash_table V) :
    (∀ (σ : Type) (body : σ → Nat → V → σ) (init : σ),
      HASH_TABLE_ITER t body init =
        (occupied_indices t).foldl
          (fun s i => body s (elem_at t i).key (elem_at t i).val) init) ∧
    List.Pairwise (· < ·) (occupied_indices t) ∧
    (∀ i, i ∈ occupied_indices t ↔
      i < t.cap ∧ (elem_at t i).hash ≠ 0 ∧ hash_table__is_entry_deleted t i = false) ∧
    HASH_TABLE_ITER t (fun (s : Nat) _ _ => s + 1) 0 = (occupied_indices t).length ∧
    (∀ fuel ops, run_ops fuel hash_table_new ops = some t →
      HASH_TABLE_ITER t (fun (s : Nat) _ _ => s + 1) 0 = t.num_elems) := by
  have hvis : HASH_TABLE_ITER t (fun (s : Nat) _ _ => s + 1) 0 =
      (occupied_indices t).length := by
    rw [iter_eq_foldl, foldl_count, Nat.zero_add]
  refine ⟨fun σ body init => iter_eq_foldl t body init, occupied_indices_sorted t,
    fun i => mem_occupied_indices t i, hvis, ?_⟩
  intro fuel ops h
  have hs := reachable_sane h
  rw [hvis, hs.count, live_eq_map, List.length_map]

set_option maxRecDepth 100000 in
/-- C14, witness: the iteration over `lost_key_table` (13 live entries, 3 tombstones)
collects the keys of the occupied slots in slot order and makes 13 visits. -/
theorem C14_iteration_witness :
    run_ops 64 hash_table_new lost_key_ops = some lost_key_table ∧
    HASH_TABLE_ITER lost_key_table (fun (s : List Nat) k _ => s ++ [k]) [] =
      [241, 22, 15, 98, 102, 127, 164, 170, 177, 183, 198, 218, 240] ∧
    lost_key_table.num_elems = 13 ∧
    HASH_TABLE_ITER lost_key_table (fun (s : Nat) _ _ => s + 1) 0 =
      lost_key_table.num_elems :=
  ⟨by decide, by decide, by decide,
    (C14_iteration lost_key_table).2.2.2.2 64 lost_key_ops (by decide)⟩

theorem countP_key_eq_count (l : List (hash_table_elem V)) (k : Nat) :
    l.countP (fun e => decide (e.key = k)) = (l.map fun e => e.key).count k := by
  rw [List.count_eq_countP, List.countP_map]
  apply List.countP_congr
  intro e _
  simp

/-- The inserts of the keys `0, …, 34896611` into a fresh table return, and key 0 is found
with its value afterwards. -/
theorem round_trip_found_zero :
    ∃ t, insert_all 4294967296 hash_table_new (distinct_pairs 34896612) = some t ∧
      hash_table_lookup 4294967296 t 0 = some (some 0) := by
  obtain ⟨t, hall, h⟩ := insert_all_spec 4294967296 (le_refl _)
    (distinct_pairs 34896612) [] hash_table_new new_insInv
    (by rw [List.nil_append, distinct_pairs_length])
  rw [List.nil_append] at h
  have hcl := h.inv.wf.cap_le
  refine ⟨t, hall, ?_⟩
  exact lookup_found h.inv (h.keys.nodup_iff.mpr (distinct_pairs_nodup _)) 0 0
    (h.mem (mem_distinct_pairs (by decide))) 4294967296 (by omega)

/-- Duplicate insertion below the 32-bit wrap: for every list of at most 34896611 pairs
with pairwise distinct keys inserted into a fresh table, every inserted pair `(k, v)` and
every value `v2`, the insert of `(k, v2)` succeeds, increases the live count by one, and
afterwards exactly two occupied slots hold key `k`; the entry with the earlier value `v`
is still live beside the new entry with `v2`. -/
theorem duplicate_insert_below_wrap (kvs : List (Nat × V)) (hnd : (kvs.map Prod.fst).Nodup)
    (hlen : kvs.length ≤ 34896611) (fuel : Nat) (hfuel : 4294967296 ≤ fuel)
    (k : Nat) (v v2 : V) (hk : (k, v) ∈ kvs) :
    ∃ t t1, insert_all fuel hash_table_new kvs = some t ∧
      hash_table_insert fuel t k v2 = some t1 ∧
      t1.num_elems = t.num_elems + 1 ∧
      (slots_with_key t1 k).length = 2 ∧
      List.Pairwise (· < ·) (slots_with_key t1 k) ∧
      entry_of k v ∈ live t1 ∧ entry_of k v2 ∈ live t1 := by
  obtain ⟨t, hall, h⟩ := insert_all_spec fuel hfuel kvs [] hash_table_new new_insInv
    (by simp only [List.nil_append]; omega)
  rw [List.nil_append] at h
  have hcl := h.inv.wf.cap_le
  have hndl : ((live t).map fun e => e.key).Nodup := h.keys.nodup_iff.mpr hnd
  have hfl : (filled t).length = kvs.length := by
    rw [filled_length_of_notomb h.notomb, h.perm.length_eq, List.length_map]
  obtain ⟨m, hm4, hcap, hfloor⟩ := h.floor
  obtain ⟨t1, hins, ires⟩ := insert_result h.inv k v2
    (by rw [h.num]; unfold u32; omega)
    (by rw [hfl]; exact h.lt_cap)
    (by
      intro _
      rw [hcap]
      apply Nat.pow_le_pow_right (by decide)
      by_contra hcon
      have hm : m = 31 := by
        by_contra hne
        have : 2 ^ 32 ≤ 2 ^ m := Nat.pow_le_pow_right (by decide) (by omega)
        rw [← hcap] at this
        omega
      subst hm
      rw [growth_floor_31] at hfloor
      omega)
    fuel (by omega)
  have hmem : entry_of k v ∈ live t := h.mem hk
  have hkm : k ∈ (live t).map fun e => e.key := List.mem_map.mpr ⟨entry_of k v, hmem, rfl⟩
  refine ⟨t, t1, hall, hins, ires.num_elems, ?_, slots_with_key_sorted t1 k,
    ires.perm.mem_iff.mpr (List.mem_cons_of_mem _ hmem),
    ires.perm.mem_iff.mpr (List.mem_cons_self _ _)⟩
  rw [slots_with_key_length, ires.perm.countP_eq, List.countP_cons, countP_key_eq_count,
    List.count_eq_one_of_mem hndl hkm]
  have : decide ((entry_of k v2).key = k) = true := by
    show decide (k = k) = true
    simp
  rw [this]
  rfl

set_option maxRecDepth 100000 in
/-- On a fresh table insert (5, 50) then insert (5, 99): two occupied slots hold key 5. -/
theorem duplicate_insert_below_wrap_witness :
    ([((5 : Nat), (50 : Nat))].map Prod.fst).Nodup ∧
    [((5 : Nat), (50 : Nat))].length ≤ 34896611 ∧
    ((5 : Nat), (50 : Nat)) ∈ [((5 : Nat), (50 : Nat))] ∧
    ∃ t t1, insert_all 4294967296 hash_table_new [((5 : Nat), (50 : Nat))] = some t ∧
      hash_table_insert 4294967296 t 5 99 = some t1 ∧
      t1.num_elems = t.num_elems + 1 ∧
      (slots_with_key t1 5).length = 2 ∧
      List.Pairwise (· < ·) (slots_with_key t1 5) ∧
      entry_of 5 50 ∈ live t1 ∧ entry_of 5 99 ∈ live t1 :=
  ⟨by decide, by decide, by decide,
    duplicate_insert_below_wrap [(5, 50)] (by decide) (by decide) 4294967296 (by decide)
      5 50 99 (by decide)⟩

/-- C15, the code fails on the duplicate insert: the keys `0, …, 34896611` are pairwise
distinct and their inserts into a fresh table return, leaving capacity `2^31`, a threshold
wrapped to 0 and key 0 found with its value; but the insert of key 0 again, with any
value, grows the table to capacity `2^31 * 2 = 0` (mod `2^32`) and then accesses a slot of
the empty array: it gives no result, whatever the fuel, so no state with two slots holding
key 0 is reached. -/
theorem C15_duplicate_no_result :
    ((distinct_pairs 34896612).map Prod.fst).Nodup ∧ (0, 0) ∈ distinct_pairs 34896612 ∧
    ∃ t, insert_all 4294967296 hash_table_new (distinct_pairs 34896612) = some t ∧
      t.cap = 2 ^ 31 ∧ t.resize_thresh = 0 ∧ t.num_elems = 34896612 ∧
      hash_table_lookup 4294967296 t 0 = some (some 0) ∧
      (t.cap * 2) % 4294967296 = 0 ∧
      ∀ fuel v2, hash_table_insert fuel t 0 v2 = none := by
  refine ⟨distinct_pairs_nodup _, mem_distinct_pairs (by decide), ?_⟩
  obtain ⟨t, hall, hfound⟩ := round_trip_found_zero
  obtain ⟨hcap, hthr, hnum⟩ := cap_max_of_many (distinct_pairs_length _) hall
  have hwrap : (t.cap * 2) % u32 = 0 := by rw [hcap]; exact double_mod_31
  exact ⟨t, hall, hcap, hthr, hnum, hfound, hwrap,
    fun fuel v2 => insert_none_of_wrap fuel t 0 v2 hwrap (by rw [hthr]; exact Nat.zero_le _)⟩

/-- C16: on every table state whose capacity is a power of two with the mask equal to the
capacity minus one, whatever the slots and flags hold, a returned internal lookup gives
`-1` or an index `i` with `0 ≤ i < cap` whose slot has the hash `fix_hash (hash_fun k)`
(non-zero), a clear tombstone flag and the key `k`; the public lookup then returns the
value stored in that slot. A tombstoned slot is never returned. -/
theorem C16_lookup_sound (t : hash_table V) (hpow : ∃ m, t.cap = 2 ^ m)
    (hmask : t.mask = t.cap - 1) (fuel k : Nat) (res : Int)
    (h : hash_table__lookup fuel t k = some res) :
    res = -1 ∨ ∃ i : Nat, res = (i : Int) ∧ i < t.cap ∧
      (elem_at t i).hash = hash_table__fix_hash (hash_table__hash_fun k) ∧
      (elem_at t i).hash ≠ 0 ∧
      hash_table__is_entry_deleted t i = false ∧
      (elem_at t i).key = k ∧
      hash_table_lookup fuel t k = some (some (elem_at t i).val) := by
  rcases lookup_loop_range t _ k fuel _ 0 res h with hneg | ⟨i, hi⟩
  · left; exact hneg
  · right
    subst hi
    obtain ⟨hocc, hh, hk⟩ := lookup_loop_result t _ k fuel _ 0 i h
    have hlt := lookup_loop_index_lt hpow hmask _ k fuel _ 0 i (and_mask_lt hpow hmask _) h
    exact ⟨i, rfl, hlt, hh, hocc.1, hocc.2, hk, lookup_of_index h⟩

set_option maxRecDepth 100000 in
/-- C16, witness: lookup of key 241 in `lost_key_table` returns slot 0. -/
theorem C16_lookup_sound_witness :
    (∃ m, lost_key_table.cap = 2 ^ m) ∧ lost_key_table.mask = lost_key_table.cap - 1 ∧
    hash_table__lookup 64 lost_key_table 241 = some 0 ∧
    hash_table_lookup 64 lost_key_table 241 = some (some 2410) := by
  refine ⟨⟨4, by decide⟩, by decide, by decide, ?_⟩
  rcases C16_lookup_sound lost_key_table ⟨4, by decide⟩ (by decide) 64 241 0 (by decide)
    with hneg | ⟨i, hi, _, _, _, _, _, hv⟩
  · exact absurd hneg (by decide)
  · have hi0 : i = 0 := by omega
    subst hi0
    rw [hv]
    decide

/-- C17: on every table state whose capacity is a 32-bit power of two with the mask equal
to the capacity minus one, tables without any empty slot included, the lookup of every key
returns within `cap + 1` iterations of the probe loop: the probe distance of every
inspected slot is below the capacity, and the probe counter exceeds it in the end. -/
theorem C17_lookup_terminates (t : hash_table V) (hpow : ∃ m, t.cap = 2 ^ m)
    (hfit : t.cap < 4294967296) (hmask : t.mask = t.cap - 1) (k fuel : Nat)
    (hf : t.cap + 1 ≤ fuel) :
    (∃ res, hash_table__lookup fuel t k = some res) ∧
    (∃ r, hash_table_lookup fuel t k = some r) ∧
    (∀ hash idx, hash_table__max_probes t hash idx < t.cap) := by
  have h1 : ∃ res, hash_table__lookup fuel t k = some res := by
    unfold hash_table__lookup
    exact lookup_loop_stops hpow hfit hmask _ k t.cap fuel _ 0 (and_mask_lt hpow hmask _)
      (by omega) (by omega)
  refine ⟨h1, ?_, fun hash idx => max_probes_lt_cap hpow hmask hash idx⟩
  obtain ⟨res, hres⟩ := h1
  unfold hash_table_lookup
  rw [hres]
  exact ⟨_, rfl⟩

set_option maxRecDepth 100000 in
/-- C17, witness: `stuck_table` has no empty slot, and the lookup of the absent key 241
returns with fuel 17. -/
theorem C17_lookup_terminates_witness :
    (∀ i, i < stuck_table.cap → (elem_at stuck_table i).hash ≠ 0) ∧
    (∃ m, stuck_table.cap = 2 ^ m) ∧ stuck_table.cap < 4294967296 ∧
    stuck_table.mask = stuck_table.cap - 1 ∧ stuck_table.cap + 1 ≤ 17 ∧
    ∃ res, hash_table__lookup 17 stuck_table 241 = some res :=
  ⟨by decide, ⟨4, by decide⟩, by decide, by decide, by decide,
    (C17_lookup_terminates stuck_table ⟨4, by decide⟩ (by decide) (by decide) 241 17
      (by decide)).1⟩

set_option maxRecDepth 100000 in
/-- C18, the code breaks the ordering: in `lost_key_table`, reached from a fresh table by
`lost_key_ops`, slot 1 is occupied with probe distance 2 while the preceding slot 0 holds
an entry with probe distance 0, which is less than 2 - 1. -/
theorem C18_order_broken :
    run_ops 64 hash_table_new lost_key_ops = some lost_key_table ∧
    (elem_at lost_key_table 1).hash ≠ 0 ∧
    hash_table__max_probes lost_key_table (elem_at lost_key_table 1).hash 1 = 2 ∧
    ((1 + lost_key_table.cap - 1) &&& lost_key_table.mask) = 0 ∧
    hash_table__max_probes lost_key_table (elem_at lost_key_table 0).hash 0 = 0 ∧
    ¬ Ordered lost_key_table := by
  refine ⟨by decide, by decide, by decide, by decide, by decide, ?_⟩
  intro ho
  have h1 := (ho 1 (by decide) (by decide) (by decide)).2
  have e1 : dist lost_key_table 1 = 2 := by decide
  have e0 : dist lost_key_table (prv lost_key_table.cap 1) = 0 := by decide
  rw [e1, e0] at h1
  omega

/-- C19: for every capacity that is a 32-bit power of two with the mask equal to the
capacity minus one, every hash `h` and every index `idx` below the capacity, the probe
distance `max_probes(h, idx)` is the one `d` with `0 ≤ d < cap` and
`(home + d) mod cap = idx`, where `home = h & mask`; it is 0 exactly when `idx` is the
home slot. -/
theorem C19_probe_distance (t : hash_table V) (hpow : ∃ m, t.cap = 2 ^ m)
    (hfit : t.cap < 4294967296) (hmask : t.mask = t.cap - 1) (h idx : Nat)
    (hi : idx < t.cap) :
    hash_table__max_probes t h idx < t.cap ∧
    (hash_table__hash_idx t h + hash_table__max_probes t h idx) % t.cap = idx ∧
    (∀ d, d < t.cap → (hash_table__hash_idx t h + d) % t.cap = idx →
      d = hash_table__max_probes t h idx) ∧
    (hash_table__max_probes t h idx = 0 ↔ idx = hash_table__hash_idx t h) := by
  have hhome : hash_table__hash_idx t h = h % t.cap := and_mask_of_pow hpow hmask h
  have hl : h % t.cap < t.cap := Nat.mod_lt _ (cap_pos_of_pow hpow)
  rw [max_probes_eq_cdist hpow hfit hmask h hi, hhome]
  have key : ∀ d, d < t.cap → ((h % t.cap + d) % t.cap = idx ↔
      d = cdist t.cap (h % t.cap) idx) := by
    intro d hd
    unfold cdist
    by_cases hlt : h % t.cap + d < t.cap
    · rw [Nat.mod_eq_of_lt hlt]
      split <;> omega
    · have e : h % t.cap + d = (h % t.cap + d - t.cap) + t.cap := by omega
      rw [e, Nat.add_mod_right, Nat.mod_eq_of_lt (by omega)]
      split <;> omega
  have hd : cdist t.cap (h % t.cap) idx < t.cap := cdist_lt _ _ _ hl hi
  refine ⟨hd, (key _ hd).mpr rfl, fun d hdl hde => (key d hdl).mp hde, ?_⟩
  unfold cdist
  split <;> omega

set_option maxRecDepth 100000 in
/-- C19, witness: capacity 16, hash 13 (home slot 13), index 3: the distance is 6. -/
theorem C19_probe_distance_witness :
    (∃ m, (hash_table_new : hash_table Nat).cap = 2 ^ m) ∧
    (hash_table_new : hash_table Nat).cap < 4294967296 ∧
    (hash_table_new : hash_table Nat).mask = (hash_table_new : hash_table Nat).cap - 1 ∧
    3 < (hash_table_new : hash_table Nat).cap ∧
    hash_table__max_probes (hash_table_new : hash_table Nat) 13 3 = 6 ∧
    (hash_table__hash_idx (hash_table_new : hash_table Nat) 13 +
      hash_table__max_probes (hash_table_new : hash_table Nat) 13 3) %
      (hash_table_new : hash_table Nat).cap = 3 :=
  ⟨⟨4, by decide⟩, by decide, by decide, by decide, by decide,
    (C19_probe_distance (hash_table_new : hash_table Nat) ⟨4, by decide⟩ (by decide)
      (by decide) 13 3 (by decide)).2.1⟩

/-- C20: for every table reached from a fresh table by insert and delete calls whose
capacity is small enough that `2 * cap * 90` is below `2^32`, an insert that returns has
grown the table at most once (the capacity is kept, or doubled by one growth followed by
the placement, which never grows), and afterwards the live count is strictly below the
resize threshold `floor(cap * 90 / 100)` of the resulting table. -/
theorem C20_count_below_threshold (fuel : Nat) (ops : List (hash_table_op V))
    (t : hash_table V) (k : Nat) (v : V) (t1 : hash_table V)
    (h : run_ops fuel hash_table_new ops = some t)
    (hfit : 2 * t.cap * 90 < 4294967296)
    (hi : hash_table_insert fuel t k v = some t1) :
    ((t1.cap = t.cap ∧
        hash_table__insert fuel { t with num_elems := t.num_elems + 1 } (entry_of k v) =
          some t1) ∨
      (t1.cap = 2 * t.cap ∧
        ∃ tg, hash_table__grow fuel { t with num_elems := t.num_elems + 1 } = some tg ∧
          tg.cap = 2 * t.cap ∧ hash_table__insert fuel tg (entry_of k v) = some t1)) ∧
    t1.resize_thresh = t1.cap * 90 / 100 ∧
    t1.num_elems < t1.resize_thresh := by
  have hs := reachable_sane h
  have hlen : (live t).length ≤ t.cap := collect_length_le _ _
  have hn : t.num_elems + 1 < u32 := by rw [hs.count]; unfold u32; omega
  have hdm : (t.cap * 2) % u32 = 2 * t.cap := by
    rw [Nat.mod_eq_of_lt (by unfold u32; omega)]; omega
  obtain ⟨hnum, hgrow, hstay⟩ := insert_shape hi
  rw [Nat.mod_eq_of_lt hn] at hnum hgrow hstay
  have hcap1 : t1.cap = t.cap ∨ t1.cap = 2 * t.cap := by
    by_cases hg : t.resize_thresh ≤ t.num_elems + 1
    · obtain ⟨_, _, _, hc1, _, _⟩ := hgrow hg
      right; rw [hc1, hdm]
    · obtain ⟨_, hc1, _, _⟩ := hstay (by omega)
      left; exact hc1
  have hs1 : Sane t1 := (sane_insert hs hi).1
  have hfit1 : t1.cap * 90 < 4294967296 := by
    rcases hcap1 with e | e <;> rw [e] <;> omega
  refine ⟨?_, ?_, hs1.below hfit1⟩
  · by_cases hg : t.resize_thresh ≤ t.num_elems + 1
    · obtain ⟨tg, hgr, hins, hc1, _, _⟩ := hgrow hg
      right
      refine ⟨by rw [hc1, hdm], tg, hgr, ?_, hins⟩
      rw [(grow_shape hgr).cap]
      exact hdm
    · obtain ⟨hins, hc1, _, _⟩ := hstay (by omega)
      left
      exact ⟨hc1, hins⟩
  · rw [hs1.thresh]
    unfold thresh_of hash_table_load_factor_to_grow u32
    rw [Nat.mod_eq_of_lt hfit1]

set_option maxRecDepth 100000 in
/-- C20, witness: the insert of key 13 into the table holding keys 0..12 grows the table
once; afterwards the count 14 is below the threshold 28. -/
theorem C20_count_below_threshold_witness :
    run_ops 64 hash_table_new
        ((scenario_pairs 13).map fun kv => hash_table_op.insert kv.1 kv.2) =
      some ((insert_all 64 hash_table_new (scenario_pairs 13)).getD hash_table_new) ∧
    2 * ((insert_all 64 hash_table_new (scenario_pairs 13)).getD hash_table_new).cap * 90 <
      4294967296 ∧
    hash_table_insert 64
        ((insert_all 64 hash_table_new (scenario_pairs 13)).getD hash_table_new) 13 130 =
      some ((insert_all 64 hash_table_new (scenario_pairs 14)).getD hash_table_new) ∧
    ((insert_all 64 hash_table_new (scenario_pairs 14)).getD hash_table_new).num_elems <
      ((insert_all 64 hash_table_new (scenario_pairs 14)).getD hash_table_new).resize_thresh :=
  ⟨by decide, by decide, by decide,
    (C20_count_below_threshold 64
      ((scenario_pairs 13).map fun kv => hash_table_op.insert kv.1 kv.2)
      ((insert_all 64 hash_table_new (scenario_pairs 13)).getD hash_table_new) 13 130
      ((insert_all 64 hash_table_new (scenario_pairs 14)).getD hash_table_new)
      (by decide) (by decide) (by decide)).2.2⟩

theorem hash_fun_eq_rounds (k : Nat) :
    hash_table__hash_fun k = mix_round (mix_round (mix_round k)) := rfl

theorem xorshift_lt (x : Nat) (hx : x < 4294967296) : (x >>> 16) ^^^ x < 4294967296 := by
  have h1 : x >>> 16 < 2 ^ 32 := by
    rw [Nat.shiftRight_eq_div_pow]
    exact lt_of_le_of_lt (Nat.div_le_self _ _) hx
  exact Nat.xor_lt_two_pow h1 hx

theorem shiftRight_xor (a b i : Nat) : (a ^^^ b) >>> i = (a >>> i) ^^^ (b >>> i) := by
  apply Nat.eq_of_testBit_eq
  intro j
  rw [Nat.testBit_shiftRight, Nat.testBit_xor, Nat.testBit_xor, Nat.testBit_shiftRight,
    Nat.testBit_shiftRight]

theorem xorshift_involutive (x : Nat) (hx : x < 4294967296) :
    (((x >>> 16) ^^^ x) >>> 16) ^^^ ((x >>> 16) ^^^ x) = x := by
  have h0 : x >>> 16 >>> 16 = 0 := by
    rw [← Nat.shiftRight_add, Nat.shiftRight_eq_div_pow]
    exact Nat.div_eq_of_lt hx
  rw [shiftRight_xor, h0, Nat.zero_xor, ← Nat.xor_assoc, Nat.xor_self,
    Nat.zero_xor]

theorem mul_const_cancel (y : Nat) (hy : y < 4294967296) :
    ((y * 0x45d9f3b) % u32 * 0x119de1f3) % u32 = y := by
  unfold u32
  rw [Nat.mod_mul_mod, Nat.mul_assoc, Nat.mul_mod]
  have : 0x45d9f3b * 0x119de1f3 % 4294967296 = 1 := by decide
  rw [this, Nat.mul_one, Nat.mod_mod, Nat.mod_eq_of_lt hy]

theorem mul_const_inv_cancel (z : Nat) (hz : z < 4294967296) :
    ((z * 0x119de1f3) % u32 * 0x45d9f3b) % u32 = z := by
  unfold u32
  rw [Nat.mod_mul_mod, Nat.mul_assoc, Nat.mul_mod]
  have : 0x119de1f3 * 0x45d9f3b % 4294967296 = 1 := by decide
  rw [this, Nat.mul_one, Nat.mod_mod, Nat.mod_eq_of_lt hz]

theorem mix_round_lt (k : Nat) : mix_round k < 4294967296 :=
  Nat.mod_lt _ (by decide)

theorem unmix_round_lt (z : Nat) : unmix_round z < 4294967296 :=
  xorshift_lt _ (Nat.mod_lt _ (by decide))

theorem unmix_mix (k : Nat) (hk : k < 4294967296) : unmix_round (mix_round k) = k := by
  unfold unmix_round mix_round
  dsimp only
  rw [mul_const_cancel _ (xorshift_lt k hk)]
  exact xorshift_involutive k hk

theorem mix_unmix (z : Nat) (hz : z < 4294967296) : mix_round (unmix_round z) = z := by
  unfold unmix_round mix_round
  dsimp only
  have hlt : z * 0x119de1f3 % u32 < 4294967296 := Nat.mod_lt _ (by decide)
  rw [xorshift_involutive _ hlt]
  exact mul_const_inv_cancel z hz

theorem hash_fun_lt (k : Nat) : hash_table__hash_fun k < 4294967296 :=
  Nat.mod_lt _ (by decide)

theorem hash_fun_inv_lt (z : Nat) : hash_fun_inv z < 4294967296 :=
  unmix_round_lt _

theorem hash_fun_left_inv (k : Nat) (hk : k < 4294967296) :
    hash_fun_inv (hash_table__hash_fun k) = k := by
  rw [hash_fun_eq_rounds]
  unfold hash_fun_inv
  rw [unmix_mix _ (mix_round_lt _), unmix_mix _ (mix_round_lt _), unmix_mix _ hk]

theorem hash_fun_right_inv (z : Nat) (hz : z < 4294967296) :
    hash_table__hash_fun (hash_fun_inv z) = z := by
  rw [hash_fun_eq_rounds]
  unfold hash_fun_inv
  rw [mix_unmix _ (unmix_round_lt _), mix_unmix _ (unmix_round_lt _), mix_unmix _ hz]

theorem hash_fun_injective (k k2 : Nat) (hk : k < 4294967296) (hk2 : k2 < 4294967296)
    (h : hash_table__hash_fun k = hash_table__hash_fun k2) : k = k2 := by
  rw [← hash_fun_left_inv k hk, ← hash_fun_left_inv k2 hk2, h]

theorem hash_fun_zero : hash_table__hash_fun 0 = 0 := by decide

theorem hash_fun_preimage_one : hash_table__hash_fun 2632061443 = 1 := by decide

set_option maxRecDepth 100000 in
/-- C21: there is a finite sequence of insert and delete calls from a fresh table,
`stuck_ops` (13 inserts, 4 deletes, 3 inserts), after which the capacity is still 16 and
the live count 12 is below the resize threshold 14, and yet none of the 16 slots is empty:
12 are occupied and 4 are tombstoned. The deletes lowered the count without emptying a
slot, so the growth check did not fire. -/
theorem C21_full_below_threshold :
    run_ops 64 hash_table_new stuck_ops = some stuck_table ∧
    stuck_table.cap = 16 ∧
    stuck_table.num_elems = 12 ∧ stuck_table.resize_thresh = 14 ∧
    stuck_table.num_elems < stuck_table.resize_thresh ∧
    (∀ i, i < stuck_table.cap → (elem_at stuck_table i).hash ≠ 0) ∧
    (occupied_indices stuck_table).length = 12 ∧
    ((List.range stuck_table.cap).filter fun i =>
      decide ((elem_at stuck_table i).hash ≠ 0) &&
        hash_table__is_entry_deleted stuck_table i).length = 4 ∧
    ¬ ∃ i, i < stuck_table.cap ∧ (elem_at stuck_table i).hash = 0 := by
  refine ⟨by decide, by decide, by decide, by decide, by decide, by decide, by decide,
    by decide, ?_⟩
  rintro ⟨i, hi, h0⟩
  have hall : ∀ i, i < stuck_table.cap → (elem_at stuck_table i).hash ≠ 0 := by decide
  exact hall i hi h0

/-- C22: `hash_fun` maps 32-bit words to 32-bit words, is injective and onto there, so
`hash_fun k = 0` exactly for `k = 0`; key 0 is the only 32-bit key whose hash `fix_hash`
changes; exactly one 32-bit key `k1` has `hash_fun k1 = 1`; and two distinct 32-bit keys
with the same fixed-up hash are key 0 and that key `k1`. -/
theorem C22_hash_fun_bijective :
    (∀ k, hash_table__hash_fun k < 4294967296) ∧
    (∀ k k2, k < 4294967296 → k2 < 4294967296 →
      hash_table__hash_fun k = hash_table__hash_fun k2 → k = k2) ∧
    (∀ y, y < 4294967296 → ∃ k, k < 4294967296 ∧ hash_table__hash_fun k = y) ∧
    (∀ k, k < 4294967296 → (hash_table__hash_fun k = 0 ↔ k = 0)) ∧
    (∀ k, k < 4294967296 →
      (hash_table__fix_hash (hash_table__hash_fun k) ≠ hash_table__hash_fun k ↔ k = 0)) ∧
    (∃ k1, k1 < 4294967296 ∧ hash_table__hash_fun k1 = 1 ∧
      ∀ k, k < 4294967296 → hash_table__hash_fun k = 1 → k = k1) ∧
    (∀ k k2, k < 4294967296 → k2 < 4294967296 → k ≠ k2 →
      hash_table__fix_hash (hash_table__hash_fun k) =
        hash_table__fix_hash (hash_table__hash_fun k2) →
      (k = 0 ∧ hash_table__hash_fun k2 = 1) ∨ (k2 = 0 ∧ hash_table__hash_fun k = 1)) := by
  have hzero : ∀ k, k < 4294967296 → (hash_table__hash_fun k = 0 ↔ k = 0) := by
    intro k hk
    constructor
    · intro h
      exact hash_fun_injective k 0 hk (by decide) (h.trans hash_fun_zero.symm)
    · intro h
      rw [h]
      exact hash_fun_zero
  refine ⟨hash_fun_lt, hash_fun_injective,
    fun y hy => ⟨hash_fun_inv y, hash_fun_inv_lt y, hash_fun_right_inv y hy⟩, hzero, ?_,
    ⟨2632061443, by decide, hash_fun_preimage_one, fun k hk h =>
      hash_fun_injective k 2632061443 hk (by decide) (h.trans hash_fun_preimage_one.symm)⟩,
    ?_⟩
  · intro k hk
    rw [← hzero k hk]
    unfold hash_table__fix_hash
    by_cases h : hash_table__hash_fun k = 0
    · rw [if_neg (not_not.mpr h), h]
      exact ⟨fun _ => rfl, fun _ => by decide⟩
    · rw [if_pos h]
      exact ⟨fun hne => absurd rfl hne, fun h0 => absurd h0 h⟩
  · intro k k2 hk hk2 hne hfix
    unfold hash_table__fix_hash at hfix
    by_cases h : hash_table__hash_fun k = 0
    · by_cases h2 : hash_table__hash_fun k2 = 0
      · exact absurd (hash_fun_injective k k2 hk hk2 (h.trans h2.symm)) hne
      · rw [if_neg (not_not.mpr h), if_pos h2] at hfix
        exact Or.inl ⟨(hzero k hk).mp h, hfix.symm⟩
    · by_cases h2 : hash_table__hash_fun k2 = 0
      · rw [if_pos h, if_neg (not_not.mpr h2)] at hfix
        exact Or.inr ⟨(hzero k2 hk2).mp h2, hfix⟩
      · rw [if_pos h, if_pos h2] at hfix
        exact absurd (hash_fun_injective k k2 hk hk2 hfix) hne

/-- C22, witness: keys 0 and 2632061443 are distinct 32-bit keys with the same fixed-up
hash 1; the hash of key 0 is 0 and that of key 2632061443 is 1. -/
theorem C22_hash_fun_bijective_witness :
    (0 : Nat) ≠ 2632061443 ∧
    hash_table__fix_hash (hash_table__hash_fun 0) = 1 ∧
    hash_table__fix_hash (hash_table__hash_fun 2632061443) = 1 ∧
    ((0 = 0 ∧ hash_table__hash_fun 2632061443 = 1) ∨
      (2632061443 = 0 ∧ hash_table__hash_fun 0 = 1)) :=
  ⟨by decide, by decide, by decide,
    C22_hash_fun_bijective.2.2.2.2.2.2 0 2632061443 (by decide) (by decide) (by decide)
      (by decide)⟩

end hash_table
